import Mathlib

/-!
Open-addressing string hash table (`A1/src/ht.c`).

A shallow embedding of the table engine of `ht.c` and of the declarations of
`ht_impl.h`, followed by theorems about it.

Conventions of the embedding.

* A C string is the list of its bytes before the terminating NUL (`Str`), so
  `strcmp(a, b) == 0` is equality of lists. A `char *` that may be `NULL` is an
  `Option Str`.
* `int` quantities that the code only ever uses as array lengths and indices
  (`size`, `idx`) are `Nat`; `count`, `tombs` and `first_tomb`, which the code
  decrements or sets to `-1`, are `Int`. Signed overflow is undefined behaviour
  in C and is not modelled: the arithmetic on sizes is exact.
* `unsigned long` is 64 bits wide (LP64); its arithmetic wraps modulo `2^64`.
* Every loop of the source takes a `fuel` argument, the number of iterations it
  may run; a result `none` at all fuels means that the C loop does not return.
* `START_SIZE` comes from `ht.h`; it is a parameter of `ht_create`.
* `malloc`, `calloc` and `strdup` succeed; only `ht_insert_alloc` takes the
  outcome of the two `strdup` calls as arguments.
-/

namespace Ht

/-! ## Data model (`ht_impl.h`) -/

/-- Bytes of a NUL-terminated string, terminator excluded. -/
abbrev Str := List Nat

abbrev SLOT_EMPTY : Nat := 0

abbrev SLOT_OCCUPIED : Nat := 1

abbrev SLOT_TOMBSTONE : Nat := 2

/-- The struct `ht_entry`: two nullable string pointers and the state code. -/
structure ht_entry where
  key : Option Str
  value : Option Str
  state : Nat
deriving DecidableEq

/-- The struct `ht`: bucket count, the two counters and the slot array. -/
structure ht where
  size : Nat
  count : Int
  tombs : Int
  entries : List ht_entry
deriving DecidableEq

/-- A slot as `calloc` leaves it: all fields zero, which is `SLOT_EMPTY`. -/
def zero_entry : ht_entry := { key := none, value := none, state := SLOT_EMPTY }

/-- The slot `entries + idx`. Every index the code forms is below `size`; an
index outside the list reads as a zeroed slot. -/
def slot (t : ht) (idx : Nat) : ht_entry := (t.entries[idx]?).getD zero_entry

/-! ## Hashing and prime sizing -/

/-- One more than `ULONG_MAX`. -/
def ULONG_MOD : Nat := 2 ^ 64

/-- The `while` loop of `ht_hash_djb2`: `h = h * 33 + c` for each byte. -/
def ht_hash_djb2_loop (h : Nat) : Str → Nat
  | [] => h
  | c :: s => ht_hash_djb2_loop ((h * 33 + c) % ULONG_MOD) s

def ht_hash_djb2 (s : Str) : Nat := ht_hash_djb2_loop 5381 s

/-- The `for` loop of `ht_is_prime`: odd trial divisors `d` while `d * d <= n`. -/
def ht_is_prime_loop (n : Int) : Nat → Int → Option Bool
  | 0, _ => none
  | fuel + 1, d =>
    if d * d ≤ n then
      if n % d = 0 then some false else ht_is_prime_loop n fuel (d + 2)
    else some true

/-- The function `ht_is_prime`; the C result `1`/`0` is `true`/`false`. -/
def ht_is_prime (fuel : Nat) (n : Int) : Option Bool :=
  if n < 2 then some false
  else if n % 2 = 0 then some (decide (n = 2))
  else ht_is_prime_loop n fuel 3

/-- The `while (!ht_is_prime(n)) n += 2` loop of `ht_next_prime`. -/
def ht_next_prime_loop (pfuel : Nat) : Nat → Int → Option Int
  | 0, _ => none
  | fuel + 1, n =>
    match ht_is_prime pfuel n with
    | none => none
    | some true => some n
    | some false => ht_next_prime_loop pfuel fuel (n + 2)

def ht_next_prime (fuel : Nat) (n : Int) : Option Int :=
  if n ≤ 2 then some 2
  else ht_next_prime_loop fuel fuel (if n % 2 = 0 then n + 1 else n)

/-- Division method: `(int)(h % (unsigned long)table_size)`. For
`0 < table_size` neither cast changes the value. -/
def ht_index_for (key : Str) (table_size : Nat) : Nat :=
  ht_hash_djb2 key % table_size

/-! ## Allocation -/

def ht_init_entries (size : Nat) : ht :=
  { size := size, count := 0, tombs := 0, entries := List.replicate size zero_entry }

/-- The function `ht_create`, with `START_SIZE` of `ht.h` as its argument. -/
def ht_create (START_SIZE : Nat) : ht := ht_init_entries START_SIZE

/-! ## Resizing -/

/-- The quotient `count / size` of `ht_load_factor` as an exact fraction
(numerator, denominator), `0` when `size == 0`. -/
def ht_load_factor (t : ht) : Int × Nat :=
  if t.size = 0 then (0, 1) else (t.count, t.size)

/-- The comparison `q > 2.0 / 3.0`. For operands of `int` range the rounded
`double` quotient exceeds the rounded `2.0 / 3.0` exactly when the exact
fraction exceeds two thirds: rounding is monotone, and a fraction `count / size`
other than two thirds is at least `1 / (3 * size)` away from it, far more than
the rounding error of a `double`. -/
def gt_two_thirds (q : Int × Nat) : Bool := decide (2 * (q.2 : Int) < 3 * q.1)

/-- The probe loop of `ht_put_into`, from slot `idx` with `first_tomb` the first
tombstone seen so far (`-1` for none). -/
def ht_put_into_loop (t : ht) (k v : Str) : Nat → Nat → Int → Option ht
  | 0, _, _ => none
  | fuel + 1, idx, first_tomb =>
    let e := slot t idx
    if e.state = SLOT_EMPTY then
      let target : Nat := if first_tomb ≥ 0 then first_tomb.toNat else idx
      some { t with
        entries := t.entries.set target { key := some k, value := some v, state := SLOT_OCCUPIED }
        count := t.count + 1
        tombs := if first_tomb ≥ 0 then t.tombs - 1 else t.tombs }
    else if e.state = SLOT_TOMBSTONE then
      ht_put_into_loop t k v fuel ((idx + 1) % t.size) (if first_tomb < 0 then (idx : Int) else first_tomb)
    else if e.key = some k then
      some { t with entries := t.entries.set idx { e with value := some v } }
    else
      ht_put_into_loop t k v fuel ((idx + 1) % t.size) first_tomb

def ht_put_into (fuel : Nat) (t : ht) (k v : Str) : Option ht :=
  ht_put_into_loop t k v fuel (ht_index_for k t.size) (-1)

/-- The `for` loop of `ht_resize` over the old array. An occupied slot with a
`NULL` key or value has no defined behaviour (`none`). -/
def ht_resize_loop (fuel : Nat) : List ht_entry → ht → Option ht
  | [], t => some t
  | e :: es, t =>
    if e.state = SLOT_OCCUPIED then
      match e.key, e.value with
      | some k, some v =>
        match ht_put_into fuel t k v with
        | some t1 => ht_resize_loop fuel es t1
        | none => none
      | _, _ => none
    else ht_resize_loop fuel es t

def ht_resize (fuel : Nat) (old : ht) (new_size : Int) : Option ht :=
  match ht_next_prime fuel new_size with
  | none => none
  | some p =>
    ht_resize_loop fuel (old.entries.take old.size)
      { size := p.toNat, count := 0, tombs := 0, entries := List.replicate p.toNat zero_entry }

def ht_maybe_grow (fuel : Nat) (t : ht) : Option ht :=
  if gt_two_thirds (ht_load_factor t) ∨ t.tombs > ((t.size / 3 : Nat) : Int) then
    ht_resize fuel t ((t.size : Int) * 2)
  else some t

/-! ## Public operations -/

/-- The probe loop written out in `ht_insert`. -/
def ht_insert_loop (t : ht) (kdup vdup : Str) : Nat → Nat → Int → Option ht
  | 0, _, _ => none
  | fuel + 1, idx, first_tomb =>
    let e := slot t idx
    if e.state = SLOT_EMPTY then
      let target : Nat := if first_tomb ≥ 0 then first_tomb.toNat else idx
      some { t with
        entries := t.entries.set target { key := some kdup, value := some vdup, state := SLOT_OCCUPIED }
        count := t.count + 1
        tombs := if first_tomb ≥ 0 then t.tombs - 1 else t.tombs }
    else if e.state = SLOT_TOMBSTONE then
      ht_insert_loop t kdup vdup fuel ((idx + 1) % t.size) (if first_tomb < 0 then (idx : Int) else first_tomb)
    else if e.key = some kdup then
      some { t with entries := t.entries.set idx { e with value := some vdup } }
    else
      ht_insert_loop t kdup vdup fuel ((idx + 1) % t.size) first_tomb

/-- The function `ht_insert` on a non-`NULL` handle (the `assert`), both
`strdup` calls succeeding. -/
def ht_insert (fuel : Nat) (t : ht) (key value : Str) : Option ht :=
  match ht_maybe_grow fuel t with
  | none => none
  | some t1 => ht_insert_loop t1 key value fuel (ht_index_for key t1.size) (-1)

def ht_lookup_loop (t : ht) (key : Str) : Nat → Nat → Option (Option Str)
  | 0, _ => none
  | fuel + 1, idx =>
    let e := slot t idx
    if e.state = SLOT_EMPTY then some none
    else if e.state = SLOT_OCCUPIED ∧ e.key = some key then some e.value
    else ht_lookup_loop t key fuel ((idx + 1) % t.size)

/-- The function `ht_lookup`. The outer `Option` is termination, the inner one
the returned pointer (`none` is `NULL`). -/
def ht_lookup (fuel : Nat) (handle : Option ht) (key : Option Str) : Option (Option Str) :=
  match handle, key with
  | some t, some k => ht_lookup_loop t k fuel (ht_index_for k t.size)
  | _, _ => some none

def ht_remove_loop (t : ht) (key : Str) : Nat → Nat → Option ht
  | 0, _ => none
  | fuel + 1, idx =>
    let e := slot t idx
    if e.state = SLOT_EMPTY then some t
    else if e.state = SLOT_OCCUPIED ∧ e.key = some key then
      some { t with
        entries := t.entries.set idx { key := none, value := none, state := SLOT_TOMBSTONE }
        count := t.count - 1
        tombs := t.tombs + 1 }
    else ht_remove_loop t key fuel ((idx + 1) % t.size)

/-- The function `ht_remove`: the table behind the handle after the call. The
outer `Option` is termination; a `NULL` handle stays `NULL`. -/
def ht_remove (fuel : Nat) (handle : Option ht) (key : Option Str) : Option (Option ht) :=
  match handle, key with
  | some t, some k => (ht_remove_loop t k fuel (ht_index_for k t.size)).map some
  | h, _ => some h

/-! ## Operation sequences -/

/-- One call of the public interface on a live table. -/
inductive Op where
  | insert (key value : Str)
  | remove (key : Str)
  | lookup (key : Str)
deriving DecidableEq

/-- The table after one call, `none` when the call does not return within the fuel. -/
def step (fuel : Nat) (t : ht) : Op → Option ht
  | Op.insert key value => ht_insert fuel t key value
  | Op.remove key =>
    match ht_remove fuel (some t) (some key) with
    | some (some t1) => some t1
    | _ => none
  | Op.lookup key =>
    match ht_lookup fuel (some t) (some key) with
    | some _ => some t
    | none => none

/-- The table after a sequence of calls, each of which has to return. -/
def run (fuel : Nat) : ht -> List Op -> Option ht
  | t, [] => some t
  | t, op :: ops =>
    match step fuel t op with
    | some t1 => run fuel t1 ops
    | none => none

/-- Tables reachable from `ht_create` by calls that return. -/
inductive Reachable (START_SIZE : Nat) : ht → Prop where
  | create : Reachable START_SIZE (ht_create START_SIZE)
  | step (fuel : Nat) (t t1 : ht) (op : Op) :
      Reachable START_SIZE t → step fuel t op = some t1 → Reachable START_SIZE t1

/-- The loop of `test_resize`: insert the pairs in order. -/
def ht_insert_all (fuel : Nat) : ht → List (Str × Str) → Option ht
  | t, [] => some t
  | t, kv :: kvs =>
    match ht_insert fuel t kv.1 kv.2 with
    | some t1 => ht_insert_all fuel t1 kvs
    | none => none

/-! ## Reference map -/

/-- Insert on the reference map: an association list without repeated keys. -/
def ref_insert (m : List (Str × Str)) (k v : Str) : List (Str × Str) :=
  (k, v) :: m.filter (fun kv => decide (kv.1 ≠ k))

def ref_remove (m : List (Str × Str)) (k : Str) : List (Str × Str) :=
  m.filter (fun kv => decide (kv.1 ≠ k))

/-- Replay of an operation sequence on the reference map, from the empty map. -/
def replay : List (Str × Str) → List Op → List (Str × Str)
  | m, [] => m
  | m, Op.insert k v :: ops => replay (ref_insert m k v) ops
  | m, Op.remove k :: ops => replay (ref_remove m k) ops
  | m, Op.lookup _ :: ops => replay m ops

/-! ## Specification vocabulary -/

/-- Number of slots in state `SLOT_OCCUPIED`. -/
def occupied_slots (t : ht) : Nat :=
  t.entries.countP (fun e => decide (e.state = SLOT_OCCUPIED))

/-- Number of slots in state `SLOT_TOMBSTONE`. -/
def tombstone_slots (t : ht) : Nat :=
  t.entries.countP (fun e => decide (e.state = SLOT_TOMBSTONE))

/-- The probe of `ht_lookup` and `ht_remove` for `key` walks past slot `e`. -/
def passes (key : Str) (e : ht_entry) : Prop :=
  e.state ≠ SLOT_EMPTY ∧ ¬ (e.state = SLOT_OCCUPIED ∧ e.key = some key)

/-- The probe of `ht_insert` and `ht_put_into` for `key` walks past slot `e`. -/
def passes_put (key : Str) (e : ht_entry) : Prop :=
  e.state ≠ SLOT_EMPTY ∧ (e.state = SLOT_TOMBSTONE ∨ e.key ≠ some key)

/-- Some occupied slot holds key `k` with value `v`. -/
def present (t : ht) (k v : Str) : Prop :=
  ∃ j, j < t.size ∧ slot t j = { key := some k, value := some v, state := SLOT_OCCUPIED }

/-- Some occupied slot holds key `k`. -/
def has_key (t : ht) (k : Str) : Prop :=
  ∃ j, j < t.size ∧ (slot t j).state = SLOT_OCCUPIED ∧ (slot t j).key = some k

/-- The counters agree with the slot array. -/
def count_inv (t : ht) : Prop :=
  0 < t.size ∧ t.entries.length = t.size ∧
    t.count = (occupied_slots t : Int) ∧ t.tombs = (tombstone_slots t : Int)

/-- The representation invariant of the table. -/
structure WF (t : ht) : Prop where
  size_pos : 0 < t.size
  length_eq : t.entries.length = t.size
  count_eq : t.count = (occupied_slots t : Int)
  tombs_eq : t.tombs = (tombstone_slots t : Int)
  state_le : ∀ i, i < t.size → (slot t i).state ≤ 2
  occupied_full : ∀ i, i < t.size → (slot t i).state = SLOT_OCCUPIED →
    ∃ k v, slot t i = { key := some k, value := some v, state := SLOT_OCCUPIED }
  distinct : ∀ i j, i < t.size → j < t.size → (slot t i).state = SLOT_OCCUPIED →
    (slot t j).state = SLOT_OCCUPIED → (slot t i).key = (slot t j).key → i = j
  chain : ∀ k d, d < t.size →
    (slot t ((ht_index_for k t.size + d) % t.size)).state = SLOT_OCCUPIED →
    (slot t ((ht_index_for k t.size + d) % t.size)).key = some k →
    ∀ i, i < d → (slot t ((ht_index_for k t.size + i) % t.size)).state ≠ SLOT_EMPTY

/-- What a completed probe of `ht_put_into` for `k`, `v` leaves behind. -/
structure PutPost (t : ht) (k v : Str) (t1 : ht) : Prop where
  wf : WF t1
  size_eq : t1.size = t.size
  here : present t1 k v
  frame : ∀ k1 v1, k1 ≠ k → (present t1 k1 v1 ↔ present t k1 v1)
  counts : (has_key t k ∧ t1.count = t.count ∧ t1.tombs = t.tombs) ∨
    (¬ has_key t k ∧ t1.count = t.count + 1 ∧ t1.tombs ≤ t.tombs)

/-- What a completed probe of `ht_remove` for `k` leaves behind. -/
structure RemovePost (t : ht) (k : Str) (t1 : ht) : Prop where
  wf : WF t1
  size_eq : t1.size = t.size
  gone : ¬ has_key t1 k
  frame : ∀ k1 v1, k1 ≠ k → (present t1 k1 v1 ↔ present t k1 v1)
  counts : (has_key t k ∧ t1.count = t.count - 1 ∧ t1.tombs = t.tombs + 1) ∨
    (¬ has_key t k ∧ t1 = t)

/-- What a completed `ht_resize` to `new_size` leaves behind. -/
structure ResizePost (t : ht) (new_size : Int) (t1 : ht) : Prop where
  wf : WF t1
  prime : Nat.Prime t1.size
  size_ge : new_size ≤ (t1.size : Int)
  small : new_size ≤ 2 → t1.size = 2
  tombs_eq : t1.tombs = 0
  count_eq : t1.count = t.count
  same : ∀ k v, present t1 k v ↔ present t k v

/-- What a completed grow check leaves behind. -/
structure GrowPost (t t1 : ht) : Prop where
  wf : WF t1
  size_le : t.size ≤ t1.size
  same : ∀ k v, present t1 k v ↔ present t k v
  count_eq : t1.count = t.count
  load : 3 * t1.count ≤ 2 * (t1.size : Int)
  mod3 : t.size % 3 ≠ 0 → t1.size % 3 ≠ 0
  tombs_zero : t.tombs = 0 → t1.tombs = 0
  room : t.size % 3 ≠ 0 ∨ t.tombs = 0 → t1.count + t1.tombs < (t1.size : Int)
  prime : Nat.Prime t.size → Nat.Prime t1.size
  keep : ¬ (2 * (t.size : Int) < 3 * t.count ∨ ((t.size / 3 : Nat) : Int) < t.tombs) → t1 = t

/-- What a completed `ht_insert` of `k`, `v` leaves behind. -/
structure InsertPost (t : ht) (k v : Str) (t1 : ht) : Prop where
  wf : WF t1
  size_le : t.size ≤ t1.size
  here : present t1 k v
  frame : ∀ k1 v1, k1 ≠ k → (present t1 k1 v1 ↔ present t k1 v1)
  counts : (has_key t k ∧ t1.count = t.count) ∨ (¬ has_key t k ∧ t1.count = t.count + 1)
  load : 3 * (t1.count - 1) ≤ 2 * (t1.size : Int)
  mod3 : t.size % 3 ≠ 0 → t1.size % 3 ≠ 0
  tombs_zero : t.tombs = 0 → t1.tombs = 0
  prime : Nat.Prime t.size → Nat.Prime t1.size
  keep : ¬ (2 * (t.size : Int) < 3 * t.count ∨ ((t.size / 3 : Nat) : Int) < t.tombs) →
    t1.size = t.size

/-- The table stores exactly the pairs of the reference map `m`. -/
structure Refines (t : ht) (m : List (Str × Str)) : Prop where
  same : ∀ k v, present t k v ↔ (k, v) ∈ m
  nodup : (m.map Prod.fst).Nodup
  count_eq : t.count = (m.length : Int)

/-! ## Keys with a chosen hash -/

/-- The key of `i + 1` bytes `0x01`. -/
def unary_key (i : Nat) : Str := List.replicate (i + 1) 1

/-- The key of `len` bytes whose bytes, each less one, are the base-33 digits of `z`. -/
def base33_key : Nat → Nat → Str
  | 0, _ => []
  | len + 1, z => base33_key len (z / 33) ++ [z % 33 + 1]

/-- The hash of the key of `len` bytes `0x01`. -/
def base33_hash : Nat → Nat
  | 0 => 5381
  | len + 1 => 33 * base33_hash len + 1

/-- A key of seven bytes that `ht_index_for` sends to slot `r` of `n`, for
`r < n` and `n` within `int` range. -/
def key_at (n r : Nat) : Str :=
  base33_key 7 ((r + n - base33_hash 7 % n) % n)

/-! ## Example tables

Tables of five slots over the one-byte keys "a" (97) to "f" (102), which
`ht_index_for` sends to slots 0, 1, 2, 3, 4 and 0. -/

/-- After inserts of "a", "b", "c". -/
def ex_three : ht :=
  { size := 5, count := 3, tombs := 0,
    entries := [⟨some [97], some [1], 1⟩, ⟨some [98], some [2], 1⟩, ⟨some [99], some [3], 1⟩,
      zero_entry, zero_entry] }

/-- After inserts of "a", "b", "c", "d". -/
def ex_four : ht :=
  { size := 5, count := 4, tombs := 0,
    entries := [⟨some [97], some [1], 1⟩, ⟨some [98], some [2], 1⟩, ⟨some [99], some [3], 1⟩,
      ⟨some [100], some [4], 1⟩, zero_entry] }

/-- After inserts of "a", "b", "c", "d" and the removal of "a". -/
def ex_one_empty : ht :=
  { size := 5, count := 3, tombs := 1,
    entries := [⟨none, none, 2⟩, ⟨some [98], some [2], 1⟩, ⟨some [99], some [3], 1⟩,
      ⟨some [100], some [4], 1⟩, zero_entry] }

/-- The table `ex_one_empty` after the insert of "e": no slot is empty. -/
def ex_full : ht :=
  { size := 5, count := 4, tombs := 1,
    entries := [⟨none, none, 2⟩, ⟨some [98], some [2], 1⟩, ⟨some [99], some [3], 1⟩,
      ⟨some [100], some [4], 1⟩, ⟨some [101], some [5], 1⟩] }

/-- The table `ex_full` after the removal of "e". -/
def ex_two_tombs : ht :=
  { size := 5, count := 3, tombs := 2,
    entries := [⟨none, none, 2⟩, ⟨some [98], some [2], 1⟩, ⟨some [99], some [3], 1⟩,
      ⟨some [100], some [4], 1⟩, ⟨none, none, 2⟩] }

/-- Three slots after inserts of "a", "b", "c" and the removal of "c": the keys
"a", "b", "c", "d" have their homes in slots 1, 2, 0, 1. -/
def ex_size_three : ht :=
  { size := 3, count := 2, tombs := 1,
    entries := [⟨none, none, 2⟩, ⟨some [97], some [1], 1⟩, ⟨some [98], some [2], 1⟩] }

/-- The table `ex_one_empty` after the insert of "f": the probe from slot 0 walks
to the empty slot 4 and the entry is written into the tombstone of slot 0. -/
def ex_reuse : ht :=
  { size := 5, count := 4, tombs := 0,
    entries := [⟨some [102], some [6], 1⟩, ⟨some [98], some [2], 1⟩, ⟨some [99], some [3], 1⟩,
      ⟨some [100], some [4], 1⟩, zero_entry] }

/-- The table `ex_one_empty` after `ht_resize` to `10`: eleven slots. -/
def ex_resized : ht :=
  { size := 11, count := 3, tombs := 0,
    entries := [⟨some [99], some [3], 1⟩, ⟨some [100], some [4], 1⟩, zero_entry, zero_entry,
      zero_entry, zero_entry, zero_entry, zero_entry, zero_entry, zero_entry,
      ⟨some [98], some [2], 1⟩] }

/-! ## The source at the level of bytes and machine integers -/

/-- The `while` loop of `ht_hash_djb2` on the bytes found in memory from the
pointer `s` on: each `char` is read as `unsigned char`, and the loop ends at the
first zero byte. -/
def ht_hash_djb2_mem_loop (h : Nat) : List Nat → Nat
  | [] => h
  | b :: rest =>
    if b % 256 = 0 then h
    else ht_hash_djb2_mem_loop ((h * 33 + b % 256) % ULONG_MOD) rest

/-- The function `ht_hash_djb2` on the bytes found in memory from `s` on. -/
def ht_hash_djb2_mem (mem : List Nat) : Nat := ht_hash_djb2_mem_loop 5381 mem

/-- The hash in the words of the specification: the left fold of
`h * 33 + c` modulo `2^64` over the bytes, from the seed `5381`. -/
def djb2_fold (s : Str) : Nat :=
  s.foldl (fun h c => (h * 33 + c) % ULONG_MOD) 5381

/-- The largest `int` (32 bits). -/
def INT_MAX : Int := 2147483647

/-- Conversion of an `int` to `unsigned long`: the value modulo `2^64`. -/
def to_ulong (x : Int) : Nat := (x % (ULONG_MOD : Int)).toNat

/-- Conversion of an `unsigned long` to `int`: the value itself when it is at most
`INT_MAX`, else the value wrapped into the range of `int`. -/
def to_int (x : Nat) : Int :=
  if x % 4294967296 < 2147483648 then ((x % 4294967296 : Nat) : Int)
  else ((x % 4294967296 : Nat) : Int) - 4294967296

/-- The function `ht_index_for` with its types and casts:
`(int)(h % (unsigned long)table_size)` for an `int table_size`. -/
def ht_index_for_int (key : Str) (table_size : Int) : Int :=
  to_int (ht_hash_djb2 key % to_ulong table_size)

/-! ## The keys and values of `test_resize` -/

/-- What `snprintf` prints for `%d`, for `i < 100`. -/
def decimal (i : Nat) : Str :=
  if i < 10 then [48 + i] else [48 + i / 10, 48 + i % 10]

/-- The key `"City%d"`. -/
def city_key (i : Nat) : Str := [67, 105, 116, 121] ++ decimal i

/-- The value `"P%03d"`, for `i < 1000`. -/
def postal_value (i : Nat) : Str := [80, 48 + i / 100, 48 + i / 10 % 10, 48 + i % 10]

/-- The pairs "City0"/"P000" to "City99"/"P099", in order. -/
def city_pairs : List (Str × Str) :=
  (List.range 100).map (fun i => (city_key i, postal_value i))

/-! ## Allocation failure in `ht_insert` -/

/-- The libc call `strdup`: a copy of the string, or `NULL` when `malloc` fails;
`ok` says whether it succeeds. -/
def strdup (ok : Bool) (s : Str) : Option Str := if ok then some s else none

/-- The function `ht_insert` with the outcome of its two `strdup` calls as
arguments: after the grow check, `if (!kdup || !vdup)` frees what was copied and
returns; the function is `void`, so the table is all the caller has. -/
def ht_insert_alloc (fuel : Nat) (key_ok value_ok : Bool) (t : ht) (key value : Str) :
    Option ht :=
  match ht_maybe_grow fuel t with
  | none => none
  | some t1 =>
    match strdup key_ok key, strdup value_ok value with
    | some kdup, some vdup => ht_insert_loop t1 kdup vdup fuel (ht_index_for kdup t1.size) (-1)
    | _, _ => some t1

/-! ## The probe-chain predicate -/

/-- Every occupied slot `j` is reached by the cyclic walk from the home of its
key, within `size` steps, without passing an empty slot. -/
def probe_chain (t : ht) : Prop :=
  ∀ j k, j < t.size → (slot t j).state = SLOT_OCCUPIED → (slot t j).key = some k →
    ∃ d, d < t.size ∧ (ht_index_for k t.size + d) % t.size = j ∧
      ∀ i, i < d → (slot t ((ht_index_for k t.size + i) % t.size)).state ≠ SLOT_EMPTY

/-! ## `ht_is_prime` with checked `int` arithmetic -/

/-- Outcome of `ht_is_prime` in `int` arithmetic: the returned value, or a signed
overflow, with the product that does not fit. -/
inductive Checked where
  | overflow (product : Int)
  | ret (b : Bool)
deriving DecidableEq

/-- The `for` loop of `ht_is_prime`, the product `d * d` of its condition checked
against `INT_MAX`. -/
def ht_is_prime_loop_checked (n : Int) : Nat → Int → Option Checked
  | 0, _ => none
  | fuel + 1, d =>
    if d * d > INT_MAX then some (Checked.overflow (d * d))
    else if d * d ≤ n then
      if n % d = 0 then some (Checked.ret false) else ht_is_prime_loop_checked n fuel (d + 2)
    else some (Checked.ret true)

/-- The function `ht_is_prime` with the product of the loop condition checked. -/
def ht_is_prime_checked (fuel : Nat) (n : Int) : Option Checked :=
  if n < 2 then some (Checked.ret false)
  else if n % 2 = 0 then some (Checked.ret (decide (n = 2)))
  else ht_is_prime_loop_checked n fuel 3

/-! ## Theorems -/

/-! ## Prime sizing -/

theorem is_prime_loop_sound (n : Nat) (hn3 : 3 ≤ n) (hodd : n % 2 = 1) :
    ∀ (fuel d : Nat), 3 ≤ d → d % 2 = 1 →
      (∀ q, 3 ≤ q → q < d → q % 2 = 1 → ¬ q ∣ n) →
      ∀ b, ht_is_prime_loop (n : Int) fuel (d : Int) = some b → b = decide (Nat.Prime n) := by
  intro fuel
  induction fuel with
  | zero => intro d _ _ _ b h; simp [ht_is_prime_loop] at h
  | succ fuel ih =>
    intro d hd3 hdodd hinv b h
    unfold ht_is_prime_loop at h
    have hcast : ((d : Int) * d ≤ n) ↔ d * d ≤ n := by exact_mod_cast Iff.rfl
    have hmod : ((n : Int) % d = 0) ↔ d ∣ n := by
      rw [← Int.natCast_mod]
      constructor
      · intro h0; exact Nat.dvd_of_mod_eq_zero (by exact_mod_cast h0)
      · intro h0; exact_mod_cast Nat.mod_eq_zero_of_dvd h0
    by_cases hsq : d * d ≤ n
    · rw [if_pos (hcast.mpr hsq)] at h
      by_cases hdvd : d ∣ n
      · rw [if_pos (hmod.mpr hdvd)] at h
        have hb : b = false := by simpa using h.symm
        subst hb
        have hlt : d < n := by nlinarith
        have hnp : ¬ Nat.Prime n := by
          intro hp
          rcases (Nat.dvd_prime hp).mp hdvd with h1 | h1 <;> omega
        simp [hnp]
      · rw [if_neg (fun hh => hdvd (hmod.mp hh))] at h
        have h2 : ((d : Int) + 2) = ((d + 2 : Nat) : Int) := by push_cast; ring
        rw [h2] at h
        refine ih (d + 2) (by omega) (by omega) ?_ b h
        intro q hq3 hqlt hqodd
        by_cases hqd : q < d
        · exact hinv q hq3 hqd hqodd
        · have : q = d := by omega
          subst this; exact hdvd
    · rw [if_neg (fun hh => hsq (hcast.mp hh))] at h
      have hb : b = true := by simpa using h.symm
      subst hb
      have hp : Nat.Prime n := by
        by_contra hnp
        have hn0 : 0 < n := by omega
        have hq := Nat.minFac_prime (show n ≠ 1 by omega)
        have hqd : n.minFac ∣ n := Nat.minFac_dvd n
        have hqsq : n.minFac ^ 2 ≤ n := Nat.minFac_sq_le_self hn0 hnp
        have hq2 : n.minFac ≠ 2 := by
          intro h2; rw [h2] at hqd; omega
        have hqodd : n.minFac % 2 = 1 := by
          rcases Nat.Prime.eq_two_or_odd hq with h2 | h2
          · exact absurd h2 hq2
          · exact h2
        have hq3 : 3 ≤ n.minFac := by
          have := hq.two_le; omega
        have hqlt : n.minFac < d := by
          by_contra hge
          push_neg at hge
          have : d * d ≤ n.minFac ^ 2 := by nlinarith
          omega
        exact hinv _ hq3 hqlt hqodd hqd
      simp [hp]

theorem is_prime_loop_total (n : Nat) :
    ∀ (fuel d : Nat), 3 ≤ d → n < d + 2 * (fuel + 1) →
      ht_is_prime_loop (n : Int) (fuel + 1) (d : Int) ≠ none := by
  intro fuel
  induction fuel with
  | zero =>
    intro d hd hlt
    unfold ht_is_prime_loop
    have hsq : ¬ ((d : Int) * d ≤ n) := by
      have : ¬ (d * d ≤ n) := by nlinarith
      exact_mod_cast this
    simp [hsq]
  | succ fuel ih =>
    intro d hd hlt
    unfold ht_is_prime_loop
    split
    · split
      · simp
      · have h2 : ((d : Int) + 2) = ((d + 2 : Nat) : Int) := by push_cast; ring
        rw [h2]
        exact ih (d + 2) (by omega) (by omega)
    · simp

/-- With at least `n` units of fuel `ht_is_prime` decides primality of `n`. -/
theorem ht_is_prime_eq (fuel : Nat) (n : Int) (hf : n ≤ fuel) :
    ht_is_prime fuel n = some (decide (Nat.Prime n.toNat)) := by
  unfold ht_is_prime
  by_cases h2 : n < 2
  · rw [if_pos h2]
    have : ¬ Nat.Prime n.toNat := by
      intro hp; have := hp.two_le; omega
    simp [this]
  · rw [if_neg h2]
    obtain ⟨m, rfl⟩ := Int.eq_ofNat_of_zero_le (show (0 : Int) ≤ n by omega)
    have hm2 : 2 ≤ m := by omega
    by_cases hev : (m : Int) % 2 = 0
    · rw [if_pos hev]
      have hev2 : m % 2 = 0 := by omega
      congr 1
      by_cases hm : m = 2
      · subst hm; simp; decide
      · have hne : ¬ ((m : Int) = 2) := by omega
        have hnp : ¬ Nat.Prime m := by
          intro hp
          rcases Nat.Prime.eq_two_or_odd hp with h | h <;> omega
        simp [hne, hnp]
    · rw [if_neg hev]
      have hodd : m % 2 = 1 := by omega
      have hfm : m ≤ fuel := by exact_mod_cast hf
      obtain ⟨f, rfl⟩ : ∃ f, fuel = f + 1 := ⟨fuel - 1, by omega⟩
      have ht := is_prime_loop_total m f 3 (le_refl 3) (by omega)
      cases hres : ht_is_prime_loop (m : Int) (f + 1) ((3 : Nat) : Int) with
      | none => exact absurd hres ht
      | some b =>
        have hb := is_prime_loop_sound m (by omega) hodd (f + 1) 3 (le_refl 3) (by norm_num)
          (by intro q h3 hlt; omega) b hres
        rw [hb]
        simp

/-- Whatever the fuel, a result of `ht_is_prime` is the truth about `n`. -/
theorem ht_is_prime_sound (fuel : Nat) (n : Int) (b : Bool)
    (h : ht_is_prime fuel n = some b) : b = decide (Nat.Prime n.toNat) := by
  unfold ht_is_prime at h
  by_cases h2 : n < 2
  · rw [if_pos h2] at h
    have : ¬ Nat.Prime n.toNat := by
      intro hp; have := hp.two_le; omega
    simp at h
    simp [this, ← h]
  · rw [if_neg h2] at h
    obtain ⟨m, rfl⟩ := Int.eq_ofNat_of_zero_le (show (0 : Int) ≤ n by omega)
    by_cases hev : (m : Int) % 2 = 0
    · rw [if_pos hev] at h
      have hev2 : m % 2 = 0 := by omega
      by_cases hm : m = 2
      · subst hm; simp at h; subst h; simp; decide
      · have hne : ¬ ((m : Int) = 2) := by omega
        have hnp : ¬ Nat.Prime m := by
          intro hp
          rcases Nat.Prime.eq_two_or_odd hp with h | h <;> omega
        simp [hne] at h
        simp [hnp, ← h]
    · rw [if_neg hev] at h
      have hodd : m % 2 = 1 := by omega
      have h3 : (3 : Int) = ((3 : Nat) : Int) := rfl
      rw [h3] at h
      have hb := is_prime_loop_sound m (by omega) hodd fuel 3 (le_refl 3) (by norm_num)
        (by intro q h3 hlt; omega) b h
      simpa using hb

theorem next_prime_loop_sound (pf : Nat) :
    ∀ (fuel : Nat) (c p : Int), ht_next_prime_loop pf fuel c = some p →
      ∃ j : Nat, p = c + 2 * j ∧ Nat.Prime p.toNat ∧
        ∀ i : Nat, i < j → ¬ Nat.Prime (c + 2 * i).toNat := by
  intro fuel
  induction fuel with
  | zero => intro c p h; simp [ht_next_prime_loop] at h
  | succ fuel ih =>
    intro c p h
    unfold ht_next_prime_loop at h
    cases hres : ht_is_prime pf c with
    | none => rw [hres] at h; simp at h
    | some b =>
      rw [hres] at h
      have hb := ht_is_prime_sound pf c b hres
      cases b with
      | true =>
        simp at h
        subst h
        refine ⟨0, by simp, by simpa using hb.symm, by intro i hi; omega⟩
      | false =>
        simp at h
        obtain ⟨j, hj, hp, hmin⟩ := ih (c + 2) p h
        refine ⟨j + 1, by rw [hj]; push_cast; ring, hp, ?_⟩
        intro i hi
        cases i with
        | zero => simpa using hb.symm
        | succ i =>
          have h1 := hmin i (by omega)
          have h2 : c + 2 * ((i + 1 : Nat) : Int) = c + 2 + 2 * (i : Int) := by push_cast; ring
          rw [h2]; exact h1

theorem next_prime_loop_total (pf : Nat) :
    ∀ (j fuel : Nat) (c : Int), j < fuel → c + 2 * (j : Int) ≤ pf →
      Nat.Prime (c + 2 * (j : Int)).toNat →
      (∀ i : Nat, i < j → ¬ Nat.Prime (c + 2 * (i : Int)).toNat) →
      ht_next_prime_loop pf fuel c = some (c + 2 * (j : Int)) := by
  intro j
  induction j with
  | zero =>
    intro fuel c hf hpf hp _
    obtain ⟨f, rfl⟩ : ∃ f, fuel = f + 1 := ⟨fuel - 1, by omega⟩
    unfold ht_next_prime_loop
    have hc : Nat.Prime c.toNat := by simpa using hp
    rw [ht_is_prime_eq pf c (by simpa using hpf)]
    simp [hc]
  | succ j ih =>
    intro fuel c hf hpf hp hmin
    obtain ⟨f, rfl⟩ : ∃ f, fuel = f + 1 := ⟨fuel - 1, by omega⟩
    unfold ht_next_prime_loop
    have hc : ¬ Nat.Prime c.toNat := by simpa using hmin 0 (by omega)
    have hle : c ≤ pf := by push_cast at hpf; omega
    rw [ht_is_prime_eq pf c hle]
    simp only [hc, decide_False]
    have h2 : c + 2 * ((j + 1 : Nat) : Int) = c + 2 + 2 * (j : Int) := by push_cast; ring
    rw [h2] at hpf hp ⊢
    refine ih f (c + 2) (by omega) hpf hp ?_
    intro i hi
    have h1 := hmin (i + 1) (by omega)
    have h3 : c + 2 * ((i + 1 : Nat) : Int) = c + 2 + 2 * (i : Int) := by push_cast; ring
    rw [h3] at h1; exact h1

/-- A result of `ht_next_prime`, at any fuel, is a prime not below `n`. -/
theorem ht_next_prime_sound (fuel : Nat) (n p : Int) (h : ht_next_prime fuel n = some p) :
    n ≤ p ∧ 2 ≤ p ∧ Nat.Prime p.toNat := by
  unfold ht_next_prime at h
  by_cases h2 : n ≤ 2
  · rw [if_pos h2] at h
    simp at h; subst h
    exact ⟨h2, le_refl _, by decide⟩
  · rw [if_neg h2] at h
    obtain ⟨j, hj, hp, _⟩ := next_prime_loop_sound fuel fuel _ p h
    have hge : n ≤ p := by
      split at hj <;> omega
    exact ⟨hge, by omega, hp⟩

/-- With enough fuel `ht_next_prime` returns, and the result does not depend on
the fuel. -/
theorem ht_next_prime_total (n : Int) :
    ∃ p : Nat, Nat.Prime p ∧ n ≤ p ∧ ∃ N : Nat, ∀ fuel, N ≤ fuel →
      ht_next_prime fuel n = some (p : Int) := by
  by_cases h2 : n ≤ 2
  · refine ⟨2, by decide, by simpa using h2, 0, ?_⟩
    intro fuel _
    unfold ht_next_prime
    rw [if_pos h2]; rfl
  · obtain ⟨c, hc, hc3, hodd⟩ : ∃ c : Nat, (if n % 2 = 0 then n + 1 else n) = (c : Int) ∧
        3 ≤ c ∧ c % 2 = 1 := by
      by_cases hev : n % 2 = 0
      · refine ⟨(n + 1).toNat, ?_, by omega, by omega⟩
        rw [if_pos hev]; omega
      · refine ⟨n.toNat, ?_, by omega, by omega⟩
        rw [if_neg hev]; omega
    obtain ⟨q, hqc, hq⟩ := Nat.exists_infinite_primes c
    have hex : ∃ j : Nat, Nat.Prime (c + 2 * j) := by
      refine ⟨(q - c) / 2, ?_⟩
      have hqodd : q % 2 = 1 := by
        rcases Nat.Prime.eq_two_or_odd hq with h | h
        · omega
        · exact h
      have : c + 2 * ((q - c) / 2) = q := by omega
      rw [this]; exact hq
    classical
    let j := Nat.find hex
    have hj : Nat.Prime (c + 2 * j) := Nat.find_spec hex
    have hmin : ∀ i, i < j → ¬ Nat.Prime (c + 2 * i) := fun i hi => Nat.find_min hex hi
    refine ⟨c + 2 * j, hj, by split at hc <;> (push_cast; omega), c + 2 * j + 1, ?_⟩
    intro fuel hfuel
    unfold ht_next_prime
    rw [if_neg h2, hc]
    have := next_prime_loop_total fuel j fuel (c : Int) (by omega)
      (by exact_mod_cast (show c + 2 * j ≤ fuel by omega))
      (by
        have h1 : ((c : Int) + 2 * (j : Int)).toNat = c + 2 * j := by omega
        rw [h1]; exact hj)
      (by
        intro i hi
        have h1 : ((c : Int) + 2 * (i : Int)).toNat = c + 2 * i := by omega
        rw [h1]; exact hmin i hi)
    rw [this]; push_cast; ring_nf

/-! ## The cyclic probe walk -/

theorem walk_step (n a i : Nat) : ((a + 1) % n + i) % n = (a + (i + 1)) % n := by
  rw [Nat.mod_add_mod]; congr 1; omega

theorem walk_offset_exists (n h j : Nat) (hh : h < n) (hj : j < n) :
    ∃ d, d < n ∧ (h + d) % n = j := by
  by_cases hle : h ≤ j
  · exact ⟨j - h, by omega, by rw [show h + (j - h) = j by omega]; exact Nat.mod_eq_of_lt hj⟩
  · refine ⟨j + n - h, by omega, ?_⟩
    rw [show h + (j + n - h) = j + n by omega, Nat.add_mod_right]
    exact Nat.mod_eq_of_lt hj

theorem walk_offset_inj (n h d1 d2 : Nat) (h1 : d1 < n) (h2 : d2 < n)
    (heq : (h + d1) % n = (h + d2) % n) : d1 = d2 := by
  have hm : d1 % n = d2 % n := Nat.ModEq.add_left_cancel' h heq
  rwa [Nat.mod_eq_of_lt h1, Nat.mod_eq_of_lt h2] at hm

/-! ### The loop of `ht_lookup` -/

theorem lookup_loop_skip (t : ht) (k : Str) :
    ∀ (m fuel idx : Nat), idx < t.size →
      (∀ i, i < m → passes k (slot t ((idx + i) % t.size))) →
      ht_lookup_loop t k (fuel + m) idx = ht_lookup_loop t k fuel ((idx + m) % t.size) := by
  intro m
  induction m with
  | zero => intro fuel idx hidx _; simp [Nat.mod_eq_of_lt hidx]
  | succ m ih =>
    intro fuel idx hidx hpass
    have h0 := hpass 0 (by omega)
    simp only [Nat.add_zero, Nat.mod_eq_of_lt hidx] at h0
    have hn : 0 < t.size := by omega
    rw [show fuel + (m + 1) = (fuel + m) + 1 by omega, ht_lookup_loop]
    rw [if_neg h0.1, if_neg h0.2, ih fuel ((idx + 1) % t.size) (Nat.mod_lt _ hn), walk_step,
      Nat.add_comm m 1]
    intro i hi
    rw [walk_step]
    exact hpass (i + 1) (by omega)

theorem lookup_loop_stop (t : ht) (k : Str) (h d fuel : Nat) (hh : h < t.size)
    (hpass : ∀ i, i < d → passes k (slot t ((h + i) % t.size)))
    (hstop : ¬ passes k (slot t ((h + d) % t.size))) (hf : d < fuel) :
    ht_lookup_loop t k fuel h =
      some (if (slot t ((h + d) % t.size)).state = SLOT_EMPTY then none
        else (slot t ((h + d) % t.size)).value) := by
  obtain ⟨f, rfl⟩ : ∃ f, fuel = (f + 1) + d := ⟨fuel - d - 1, by omega⟩
  rw [lookup_loop_skip t k d (f + 1) h hh hpass, ht_lookup_loop]
  by_cases he : (slot t ((h + d) % t.size)).state = SLOT_EMPTY
  · rw [if_pos he, if_pos he]
  · rw [if_neg he, if_neg he]
    have : (slot t ((h + d) % t.size)).state = SLOT_OCCUPIED ∧
        (slot t ((h + d) % t.size)).key = some k := by
      by_contra hc
      exact hstop ⟨he, hc⟩
    rw [if_pos this]

theorem lookup_loop_trace (t : ht) (k : Str) :
    ∀ (fuel idx : Nat) (r : Option Str), ht_lookup_loop t k fuel idx = some r → idx < t.size →
      ∃ m, m < fuel ∧ (∀ i, i < m → passes k (slot t ((idx + i) % t.size))) ∧
        ¬ passes k (slot t ((idx + m) % t.size)) := by
  intro fuel
  induction fuel with
  | zero => intro idx r h; simp [ht_lookup_loop] at h
  | succ fuel ih =>
    intro idx r h hidx
    have hn : 0 < t.size := by omega
    by_cases hp : passes k (slot t idx)
    · rw [ht_lookup_loop] at h
      rw [if_neg hp.1, if_neg hp.2] at h
      obtain ⟨m, hm, hpass, hstop⟩ := ih _ r h (Nat.mod_lt _ hn)
      refine ⟨m + 1, by omega, ?_, ?_⟩
      · intro i hi
        cases i with
        | zero => simpa [Nat.mod_eq_of_lt hidx] using hp
        | succ i => rw [← walk_step]; exact hpass i (by omega)
      · rw [← walk_step]; exact hstop
    · exact ⟨0, by omega, by intro i hi; omega, by simpa [Nat.mod_eq_of_lt hidx] using hp⟩

/-! ### The loop of `ht_remove` -/

theorem remove_loop_skip (t : ht) (k : Str) :
    ∀ (m fuel idx : Nat), idx < t.size →
      (∀ i, i < m → passes k (slot t ((idx + i) % t.size))) →
      ht_remove_loop t k (fuel + m) idx = ht_remove_loop t k fuel ((idx + m) % t.size) := by
  intro m
  induction m with
  | zero => intro fuel idx hidx _; simp [Nat.mod_eq_of_lt hidx]
  | succ m ih =>
    intro fuel idx hidx hpass
    have h0 := hpass 0 (by omega)
    simp only [Nat.add_zero, Nat.mod_eq_of_lt hidx] at h0
    have hn : 0 < t.size := by omega
    rw [show fuel + (m + 1) = (fuel + m) + 1 by omega, ht_remove_loop]
    rw [if_neg h0.1, if_neg h0.2, ih fuel ((idx + 1) % t.size) (Nat.mod_lt _ hn), walk_step,
      Nat.add_comm m 1]
    intro i hi
    rw [walk_step]
    exact hpass (i + 1) (by omega)

theorem remove_loop_stop (t : ht) (k : Str) (h d fuel : Nat) (hh : h < t.size)
    (hpass : ∀ i, i < d → passes k (slot t ((h + i) % t.size)))
    (hstop : ¬ passes k (slot t ((h + d) % t.size))) (hf : d < fuel) :
    ht_remove_loop t k fuel h =
      some (if (slot t ((h + d) % t.size)).state = SLOT_EMPTY then t
        else { t with
          entries := t.entries.set ((h + d) % t.size)
            { key := none, value := none, state := SLOT_TOMBSTONE }
          count := t.count - 1
          tombs := t.tombs + 1 }) := by
  obtain ⟨f, rfl⟩ : ∃ f, fuel = (f + 1) + d := ⟨fuel - d - 1, by omega⟩
  rw [remove_loop_skip t k d (f + 1) h hh hpass, ht_remove_loop]
  by_cases he : (slot t ((h + d) % t.size)).state = SLOT_EMPTY
  · rw [if_pos he, if_pos he]
  · rw [if_neg he, if_neg he]
    have : (slot t ((h + d) % t.size)).state = SLOT_OCCUPIED ∧
        (slot t ((h + d) % t.size)).key = some k := by
      by_contra hc
      exact hstop ⟨he, hc⟩
    rw [if_pos this]

theorem remove_loop_trace (t : ht) (k : Str) :
    ∀ (fuel idx : Nat) (r : ht), ht_remove_loop t k fuel idx = some r → idx < t.size →
      ∃ m, m < fuel ∧ (∀ i, i < m → passes k (slot t ((idx + i) % t.size))) ∧
        ¬ passes k (slot t ((idx + m) % t.size)) := by
  intro fuel
  induction fuel with
  | zero => intro idx r h; simp [ht_remove_loop] at h
  | succ fuel ih =>
    intro idx r h hidx
    have hn : 0 < t.size := by omega
    by_cases hp : passes k (slot t idx)
    · rw [ht_remove_loop] at h
      rw [if_neg hp.1, if_neg hp.2] at h
      obtain ⟨m, hm, hpass, hstop⟩ := ih _ r h (Nat.mod_lt _ hn)
      refine ⟨m + 1, by omega, ?_, ?_⟩
      · intro i hi
        cases i with
        | zero => simpa [Nat.mod_eq_of_lt hidx] using hp
        | succ i => rw [← walk_step]; exact hpass i (by omega)
      · rw [← walk_step]; exact hstop
    · exact ⟨0, by omega, by intro i hi; omega, by simpa [Nat.mod_eq_of_lt hidx] using hp⟩

/-! ### The loop of `ht_put_into` and of `ht_insert` -/

theorem ht_insert_loop_eq (t : ht) (k v : Str) :
    ∀ (fuel idx : Nat) (ft : Int),
      ht_insert_loop t k v fuel idx ft = ht_put_into_loop t k v fuel idx ft := by
  intro fuel
  induction fuel with
  | zero => intro idx ft; rfl
  | succ fuel ih =>
    intro idx ft
    rw [ht_insert_loop, ht_put_into_loop]
    simp only [ih]

theorem put_loop_match (t : ht) (k v : Str) :
    ∀ (m fuel idx : Nat) (ft : Int), idx < t.size →
      (∀ i, i < m → passes_put k (slot t ((idx + i) % t.size))) →
      (slot t ((idx + m) % t.size)).state ≠ SLOT_EMPTY →
      (slot t ((idx + m) % t.size)).state ≠ SLOT_TOMBSTONE →
      (slot t ((idx + m) % t.size)).key = some k → m < fuel →
      ht_put_into_loop t k v fuel idx ft =
        some { t with
          entries := t.entries.set ((idx + m) % t.size)
            { (slot t ((idx + m) % t.size)) with value := some v } } := by
  intro m
  induction m with
  | zero =>
    intro fuel idx ft hidx _ h0 h2 hk hf
    obtain ⟨f, rfl⟩ : ∃ f, fuel = f + 1 := ⟨fuel - 1, by omega⟩
    simp only [Nat.add_zero, Nat.mod_eq_of_lt hidx] at h0 h2 hk ⊢
    rw [ht_put_into_loop, if_neg h0, if_neg h2, if_pos hk]
  | succ m ih =>
    intro fuel idx ft hidx hpass h0 h2 hk hf
    obtain ⟨f, rfl⟩ : ∃ f, fuel = f + 1 := ⟨fuel - 1, by omega⟩
    have hn : 0 < t.size := by omega
    have hp := hpass 0 (by omega)
    simp only [Nat.add_zero, Nat.mod_eq_of_lt hidx] at hp
    have hrest : ∀ i, i < m → passes_put k (slot t (((idx + 1) % t.size + i) % t.size)) := by
      intro i hi; rw [walk_step]; exact hpass (i + 1) (by omega)
    rw [← walk_step] at h0 h2 hk ⊢
    rw [ht_put_into_loop, if_neg hp.1]
    by_cases ht : (slot t idx).state = SLOT_TOMBSTONE
    · rw [if_pos ht]
      exact ih f _ _ (Nat.mod_lt _ hn) hrest h0 h2 hk (by omega)
    · rw [if_neg ht]
      have hne : (slot t idx).key ≠ some k := by
        rcases hp.2 with h | h
        · exact absurd h ht
        · exact h
      rw [if_neg hne]
      exact ih f _ _ (Nat.mod_lt _ hn) hrest h0 h2 hk (by omega)

theorem put_loop_empty (t : ht) (k v : Str) :
    ∀ (m fuel idx : Nat) (ft : Int), idx < t.size →
      (∀ i, i < m → passes_put k (slot t ((idx + i) % t.size))) →
      (slot t ((idx + m) % t.size)).state = SLOT_EMPTY → m < fuel →
      ∃ (target : Nat) (tb : Int),
        ht_put_into_loop t k v fuel idx ft =
          some { t with
            entries := t.entries.set target
              { key := some k, value := some v, state := SLOT_OCCUPIED }
            count := t.count + 1
            tombs := t.tombs - tb } ∧
        ((0 ≤ ft ∧ target = ft.toNat ∧ tb = 1) ∨
          (ft < 0 ∧ ((∃ a, a < m ∧ target = (idx + a) % t.size ∧
              (slot t target).state = SLOT_TOMBSTONE ∧ tb = 1) ∨
            (target = (idx + m) % t.size ∧ tb = 0)))) := by
  intro m
  induction m with
  | zero =>
    intro fuel idx ft hidx _ h0 hf
    obtain ⟨f, rfl⟩ : ∃ f, fuel = f + 1 := ⟨fuel - 1, by omega⟩
    simp only [Nat.add_zero, Nat.mod_eq_of_lt hidx] at h0 ⊢
    rw [ht_put_into_loop, if_pos h0]
    by_cases hft : ft ≥ 0
    · refine ⟨ft.toNat, 1, ?_, Or.inl ⟨hft, rfl, rfl⟩⟩
      simp only [if_pos hft]
    · refine ⟨idx, 0, ?_, Or.inr ⟨by omega, Or.inr ⟨rfl, rfl⟩⟩⟩
      simp only [if_neg hft, sub_zero]
  | succ m ih =>
    intro fuel idx ft hidx hpass h0 hf
    obtain ⟨f, rfl⟩ : ∃ f, fuel = f + 1 := ⟨fuel - 1, by omega⟩
    have hn : 0 < t.size := by omega
    have hp := hpass 0 (by omega)
    simp only [Nat.add_zero, Nat.mod_eq_of_lt hidx] at hp
    have hrest : ∀ i, i < m → passes_put k (slot t (((idx + 1) % t.size + i) % t.size)) := by
      intro i hi; rw [walk_step]; exact hpass (i + 1) (by omega)
    rw [← walk_step] at h0
    rw [ht_put_into_loop, if_neg hp.1]
    by_cases ht : (slot t idx).state = SLOT_TOMBSTONE
    · rw [if_pos ht]
      obtain ⟨target, tb, hres, hdesc⟩ :=
        ih f ((idx + 1) % t.size) (if ft < 0 then (idx : Int) else ft)
          (Nat.mod_lt _ hn) hrest h0 (by omega)
      refine ⟨target, tb, hres, ?_⟩
      by_cases hft : ft < 0
      · rw [if_pos hft] at hdesc
        rcases hdesc with ⟨_, htar, htb⟩ | ⟨hneg, _⟩
        · refine Or.inr ⟨hft, Or.inl ⟨0, by omega, ?_, ?_, htb⟩⟩
          · simp [htar, Nat.mod_eq_of_lt hidx]
          · simp [htar, ht]
        · omega
      · rw [if_neg hft] at hdesc
        rcases hdesc with h | ⟨hneg, _⟩
        · exact Or.inl h
        · omega
    · rw [if_neg ht]
      have hne : (slot t idx).key ≠ some k := by
        rcases hp.2 with h | h
        · exact absurd h ht
        · exact h
      rw [if_neg hne]
      obtain ⟨target, tb, hres, hdesc⟩ :=
        ih f ((idx + 1) % t.size) ft (Nat.mod_lt _ hn) hrest h0 (by omega)
      refine ⟨target, tb, hres, ?_⟩
      rcases hdesc with h | ⟨hneg, h⟩
      · exact Or.inl h
      · refine Or.inr ⟨hneg, ?_⟩
        rcases h with ⟨a, ha, htar, hst, htb⟩ | ⟨htar, htb⟩
        · exact Or.inl ⟨a + 1, by omega, by rw [htar, walk_step], hst, htb⟩
        · exact Or.inr ⟨by rw [htar, walk_step], htb⟩

theorem put_loop_trace (t : ht) (k v : Str) :
    ∀ (fuel idx : Nat) (ft : Int) (r : ht), ht_put_into_loop t k v fuel idx ft = some r →
      idx < t.size →
      ∃ m, m < fuel ∧ (∀ i, i < m → passes_put k (slot t ((idx + i) % t.size))) ∧
        ¬ passes_put k (slot t ((idx + m) % t.size)) := by
  intro fuel
  induction fuel with
  | zero => intro idx ft r h; simp [ht_put_into_loop] at h
  | succ fuel ih =>
    intro idx ft r h hidx
    have hn : 0 < t.size := by omega
    by_cases hp : passes_put k (slot t idx)
    · rw [ht_put_into_loop, if_neg hp.1] at h
      have hstep : ∃ ft1, ht_put_into_loop t k v fuel ((idx + 1) % t.size) ft1 = some r := by
        by_cases ht : (slot t idx).state = SLOT_TOMBSTONE
        · rw [if_pos ht] at h; exact ⟨_, h⟩
        · rw [if_neg ht] at h
          have hne : (slot t idx).key ≠ some k := by
            rcases hp.2 with h1 | h1
            · exact absurd h1 ht
            · exact h1
          rw [if_neg hne] at h; exact ⟨_, h⟩
      obtain ⟨ft1, h1⟩ := hstep
      obtain ⟨m, hm, hpass, hstop⟩ := ih _ ft1 r h1 (Nat.mod_lt _ hn)
      refine ⟨m + 1, by omega, ?_, ?_⟩
      · intro i hi
        cases i with
        | zero => simpa [Nat.mod_eq_of_lt hidx] using hp
        | succ i => rw [← walk_step]; exact hpass i (by omega)
      · rw [← walk_step]; exact hstop
    · exact ⟨0, by omega, by intro i hi; omega, by simpa [Nat.mod_eq_of_lt hidx] using hp⟩

/-! ## Slots of an updated array -/

theorem slot_eq_getElem (t : ht) (i : Nat) (h : i < t.entries.length) :
    slot t i = t.entries[i] := by
  simp [slot, List.getElem?_eq_getElem h]

theorem slot_update_self (t t1 : ht) (T : Nat) (e : ht_entry)
    (hent : t1.entries = t.entries.set T e) (hT : T < t.entries.length) : slot t1 T = e := by
  simp [slot, hent, List.getElem?_set_self, hT]

theorem slot_update_other (t t1 : ht) (T i : Nat) (e : ht_entry)
    (hent : t1.entries = t.entries.set T e) (hi : i ≠ T) : slot t1 i = slot t i := by
  simp [slot, hent, List.getElem?_set_ne (Ne.symm hi)]

theorem countP_set_add (p : ht_entry → Bool) :
    ∀ (l : List ht_entry) (i : Nat) (a : ht_entry) (h : i < l.length),
      (l.set i a).countP p + (if p l[i] then 1 else 0) =
        l.countP p + (if p a then 1 else 0) := by
  intro l
  induction l with
  | nil => intro i a h; simp at h
  | cons x xs ih =>
    intro i a h
    cases i with
    | zero =>
      simp only [List.set_cons_zero, List.countP_cons, List.getElem_cons_zero]
      omega
    | succ i =>
      simp only [List.set_cons_succ, List.countP_cons, List.getElem_cons_succ]
      have := ih i a (by simpa using h)
      omega

theorem countP_full (l : List ht_entry)
    (h : ∀ e, e ∈ l → e.state = SLOT_OCCUPIED ∨ e.state = SLOT_TOMBSTONE) :
    l.countP (fun e => decide (e.state = SLOT_OCCUPIED)) +
      l.countP (fun e => decide (e.state = SLOT_TOMBSTONE)) = l.length := by
  induction l with
  | nil => simp
  | cons x xs ih =>
    have ih1 := ih (fun e he => h e (List.mem_cons_of_mem _ he))
    simp only [List.countP_cons, List.length_cons, decide_eq_true_eq]
    rcases h x (List.mem_cons_self _ _) with hx | hx
    · have h2 : ¬ (x.state = SLOT_TOMBSTONE) := by rw [hx]; decide
      rw [if_pos hx, if_neg h2]; omega
    · have h2 : ¬ (x.state = SLOT_OCCUPIED) := by rw [hx]; decide
      rw [if_pos hx, if_neg h2]; omega

/-- The counters stay in step with the array when one slot is rewritten. -/
theorem count_inv_update (t t1 : ht) (T : Nat) (e : ht_entry) (hinv : count_inv t)
    (hT : T < t.size) (hsize : t1.size = t.size) (hent : t1.entries = t.entries.set T e)
    (hcount : t1.count + (if (slot t T).state = SLOT_OCCUPIED then 1 else 0) =
      t.count + (if e.state = SLOT_OCCUPIED then 1 else 0))
    (htombs : t1.tombs + (if (slot t T).state = SLOT_TOMBSTONE then 1 else 0) =
      t.tombs + (if e.state = SLOT_TOMBSTONE then 1 else 0)) :
    count_inv t1 := by
  obtain ⟨hpos, hlen, hc, htb⟩ := hinv
  have hTl : T < t.entries.length := by omega
  have hs := slot_eq_getElem t T hTl
  refine ⟨by omega, by rw [hent, List.length_set]; omega, ?_, ?_⟩
  · have h := countP_set_add (fun e => decide (e.state = SLOT_OCCUPIED)) t.entries T e hTl
    simp only [decide_eq_true_eq, ← hs] at h
    unfold occupied_slots at hc ⊢
    rw [hent]
    split_ifs at h hcount <;> omega
  · have h := countP_set_add (fun e => decide (e.state = SLOT_TOMBSTONE)) t.entries T e hTl
    simp only [decide_eq_true_eq, ← hs] at h
    unfold tombstone_slots at htb ⊢
    rw [hent]
    split_ifs at h htombs <;> omega

theorem WF.to_count_inv {t : ht} (h : WF t) : count_inv t :=
  ⟨h.size_pos, h.length_eq, h.count_eq, h.tombs_eq⟩

/-! ## The invariant under a one-slot update -/

theorem wf_update (t t1 : ht) (T : Nat) (e : ht_entry) (hwf : WF t)
    (hT : T < t.size) (hsize : t1.size = t.size) (hent : t1.entries = t.entries.set T e)
    (hcount : t1.count + (if (slot t T).state = SLOT_OCCUPIED then 1 else 0) =
      t.count + (if e.state = SLOT_OCCUPIED then 1 else 0))
    (htombs : t1.tombs + (if (slot t T).state = SLOT_TOMBSTONE then 1 else 0) =
      t.tombs + (if e.state = SLOT_TOMBSTONE then 1 else 0))
    (hle : e.state ≤ 2)
    (hfull : e.state = SLOT_OCCUPIED →
      ∃ k v, e = { key := some k, value := some v, state := SLOT_OCCUPIED })
    (hne : (slot t T).state ≠ SLOT_EMPTY → e.state ≠ SLOT_EMPTY)
    (hdist : e.state = SLOT_OCCUPIED → ∀ j, j < t.size → j ≠ T →
      (slot t j).state = SLOT_OCCUPIED → (slot t j).key ≠ e.key)
    (hchain : e.state = SLOT_OCCUPIED → ∀ k, e.key = some k → ∀ d, d < t.size →
      (ht_index_for k t.size + d) % t.size = T →
      ∀ i, i < d → (slot t ((ht_index_for k t.size + i) % t.size)).state ≠ SLOT_EMPTY) :
    WF t1 := by
  have hTl : T < t.entries.length := by rw [hwf.length_eq]; exact hT
  have hself : slot t1 T = e := slot_update_self t t1 T e hent hTl
  have hother : ∀ i, i ≠ T → slot t1 i = slot t i :=
    fun i hi => slot_update_other t t1 T i e hent hi
  have hci := count_inv_update t t1 T e hwf.to_count_inv hT hsize hent hcount htombs
  have hnonempty : ∀ i, (slot t i).state ≠ SLOT_EMPTY → (slot t1 i).state ≠ SLOT_EMPTY := by
    intro i hi
    by_cases hiT : i = T
    · subst hiT; rw [hself]; exact hne hi
    · rw [hother i hiT]; exact hi
  refine ⟨hci.1, hci.2.1, hci.2.2.1, hci.2.2.2, ?_, ?_, ?_, ?_⟩
  · intro i hi
    rw [hsize] at hi
    by_cases hiT : i = T
    · subst hiT; rw [hself]; exact hle
    · rw [hother i hiT]; exact hwf.state_le i hi
  · intro i hi hocc
    rw [hsize] at hi
    by_cases hiT : i = T
    · subst hiT; rw [hself] at hocc ⊢; exact hfull hocc
    · rw [hother i hiT] at hocc ⊢; exact hwf.occupied_full i hi hocc
  · intro i j hi hj hio hjo hkey
    rw [hsize] at hi hj
    by_cases hiT : i = T
    · by_cases hjT : j = T
      · rw [hiT, hjT]
      · subst hiT
        rw [hself] at hio hkey
        rw [hother j hjT] at hjo hkey
        exact absurd hkey.symm (hdist hio j hj hjT hjo)
    · by_cases hjT : j = T
      · subst hjT
        rw [hself] at hjo hkey
        rw [hother i hiT] at hio hkey
        exact absurd hkey (hdist hjo i hi hiT hio)
      · rw [hother i hiT] at hio hkey
        rw [hother j hjT] at hjo hkey
        exact hwf.distinct i j hi hj hio hjo hkey
  · intro k d hd hocc hkey i hi
    rw [hsize] at hd hocc hkey ⊢
    apply hnonempty
    by_cases hpT : (ht_index_for k t.size + d) % t.size = T
    · rw [hpT, hself] at hocc hkey
      exact hchain hocc k hkey d hd hpT i hi
    · rw [hother _ hpT] at hocc hkey
      exact hwf.chain k d hd hocc hkey i hi

theorem present_update (t t1 : ht) (T : Nat) (e : ht_entry) (k v : Str)
    (hT : T < t.entries.length) (hsize : t1.size = t.size)
    (hent : t1.entries = t.entries.set T e) (hTs : T < t.size) :
    present t1 k v ↔ (e = { key := some k, value := some v, state := SLOT_OCCUPIED } ∨
      ∃ j, j < t.size ∧ j ≠ T ∧
        slot t j = { key := some k, value := some v, state := SLOT_OCCUPIED }) := by
  have hself : slot t1 T = e := slot_update_self t t1 T e hent hT
  have hother : ∀ i, i ≠ T → slot t1 i = slot t i :=
    fun i hi => slot_update_other t t1 T i e hent hi
  constructor
  · rintro ⟨j, hj, hs⟩
    rw [hsize] at hj
    by_cases hjT : j = T
    · subst hjT; rw [hself] at hs; exact Or.inl hs
    · rw [hother j hjT] at hs; exact Or.inr ⟨j, hj, hjT, hs⟩
  · rintro (he | ⟨j, hj, hjT, hs⟩)
    · exact ⟨T, by rw [hsize]; exact hTs, by rw [hself]; exact he⟩
    · exact ⟨j, by rw [hsize]; exact hj, by rw [hother j hjT]; exact hs⟩

theorem has_key_of_present {t : ht} {k v : Str} (h : present t k v) : has_key t k := by
  obtain ⟨j, hj, hs⟩ := h
  exact ⟨j, hj, by rw [hs], by rw [hs]⟩

theorem present_of_has_key {t : ht} {k : Str} (hwf : WF t) (h : has_key t k) :
    ∃ v, present t k v := by
  obtain ⟨j, hj, hs, hk⟩ := h
  obtain ⟨k1, v1, he⟩ := hwf.occupied_full j hj hs
  rw [he] at hk
  simp only [Option.some.injEq] at hk
  subst hk
  exact ⟨v1, j, hj, he⟩

theorem present_unique {t : ht} {k v1 v2 : Str} (hwf : WF t) (h1 : present t k v1)
    (h2 : present t k v2) : v1 = v2 := by
  obtain ⟨i, hi, hsi⟩ := h1
  obtain ⟨j, hj, hsj⟩ := h2
  have hij := hwf.distinct i j hi hj (by rw [hsi]) (by rw [hsj]) (by rw [hsi, hsj])
  subst hij
  rw [hsi] at hsj
  simpa using hsj

/-- A first stopping offset is below `size`: the walk is periodic. -/
theorem first_stop_lt (n h d : Nat) (hn : 0 < n) (P : Nat → Prop)
    (hpass : ∀ i, i < d → P ((h + i) % n)) (hstop : ¬ P ((h + d) % n)) : d < n := by
  by_contra hge
  have h1 : d % n < d := lt_of_lt_of_le (Nat.mod_lt _ hn) (by omega)
  have h2 := hpass (d % n) h1
  rw [Nat.add_mod_mod] at h2
  exact hstop h2

/-- Some slot stops the walk, so there is a first one. -/
theorem first_stop_exists (n h j : Nat) (hh : h < n) (hj : j < n) (P : Nat → Prop)
    (hstop : ¬ P j) :
    ∃ d, d < n ∧ (∀ i, i < d → P ((h + i) % n)) ∧ ¬ P ((h + d) % n) := by
  classical
  obtain ⟨d0, hd0, hpos⟩ := walk_offset_exists n h j hh hj
  have hex : ∃ d, ¬ P ((h + d) % n) := ⟨d0, by rw [hpos]; exact hstop⟩
  refine ⟨Nat.find hex, lt_of_le_of_lt (Nat.find_min' hex (by rw [hpos]; exact hstop)) hd0,
    ?_, Nat.find_spec hex⟩
  intro i hi
  by_contra hc
  exact Nat.find_min hex hi hc

/-! ## What the probes do on a well-formed table -/

theorem index_lt (t : ht) (k : Str) (hwf : WF t) : ht_index_for k t.size < t.size :=
  Nat.mod_lt _ hwf.size_pos

theorem no_key_of_empty_stop (t : ht) (k : Str) (hwf : WF t) (d : Nat) (hd : d < t.size)
    (hpass : ∀ i, i < d →
      ¬ ((slot t ((ht_index_for k t.size + i) % t.size)).state = SLOT_OCCUPIED ∧
        (slot t ((ht_index_for k t.size + i) % t.size)).key = some k))
    (he : (slot t ((ht_index_for k t.size + d) % t.size)).state = SLOT_EMPTY) :
    ¬ has_key t k := by
  rintro ⟨j, hj, hjs, hjk⟩
  obtain ⟨d1, hd1, hpos⟩ := walk_offset_exists t.size _ j (index_lt t k hwf) hj
  rcases Nat.lt_trichotomy d1 d with hlt | heq | hgt
  · exact hpass d1 hlt ⟨by rw [hpos]; exact hjs, by rw [hpos]; exact hjk⟩
  · subst heq; rw [hpos] at he; rw [he] at hjs; exact absurd hjs (by decide)
  · exact hwf.chain k d1 hd1 (by rw [hpos]; exact hjs) (by rw [hpos]; exact hjk) d hgt he

theorem put_spec (t : ht) (k v : Str) (hwf : WF t) (fuel d : Nat) (hd : d < fuel)
    (hpass : ∀ i, i < d → passes_put k (slot t ((ht_index_for k t.size + i) % t.size)))
    (hstop : ¬ passes_put k (slot t ((ht_index_for k t.size + d) % t.size))) :
    ∃ t1, ht_put_into_loop t k v fuel (ht_index_for k t.size) (-1) = some t1 ∧
      PutPost t k v t1 := by
  have hh := index_lt t k hwf
  have hdn : d < t.size :=
    first_stop_lt t.size _ d hwf.size_pos (fun j => passes_put k (slot t j)) hpass hstop
  have hT : (ht_index_for k t.size + d) % t.size < t.size := Nat.mod_lt _ hwf.size_pos
  have hTl : (ht_index_for k t.size + d) % t.size < t.entries.length := by
    rw [hwf.length_eq]; exact hT
  by_cases he : (slot t ((ht_index_for k t.size + d) % t.size)).state = SLOT_EMPTY
  · obtain ⟨target, tb, hres, hdesc⟩ := put_loop_empty t k v d fuel _ (-1) hh hpass he hd
    have hnokey : ¬ has_key t k := by
      refine no_key_of_empty_stop t k hwf d hdn ?_ he
      intro i hi hocc
      rcases (hpass i hi).2 with h2 | h2
      · rw [hocc.1] at h2; exact absurd h2 (by decide)
      · exact h2 hocc.2
    have hdesc2 : ∃ a, a ≤ d ∧ target = (ht_index_for k t.size + a) % t.size ∧
        (slot t target).state ≠ SLOT_OCCUPIED ∧
        tb = (if (slot t target).state = SLOT_TOMBSTONE then 1 else 0) := by
      rcases hdesc with ⟨h0, _⟩ | ⟨_, ⟨a, ha, htar, hst, htb⟩ | ⟨htar, htb⟩⟩
      · omega
      · exact ⟨a, by omega, htar, by rw [hst]; decide, by rw [if_pos hst]; exact htb⟩
      · refine ⟨d, le_refl d, htar, by rw [htar, he]; decide, ?_⟩
        rw [htar, he, htb]; rfl
    obtain ⟨a, had, htar, hnocc, htb⟩ := hdesc2
    have htarlt : target < t.size := by rw [htar]; exact Nat.mod_lt _ hwf.size_pos
    have htarl : target < t.entries.length := by rw [hwf.length_eq]; exact htarlt
    obtain ⟨t1, ht1⟩ : ∃ t1 : ht, t1 = { t with
        entries := t.entries.set target
          { key := some k, value := some v, state := SLOT_OCCUPIED }
        count := t.count + 1
        tombs := t.tombs - tb } := ⟨_, rfl⟩
    rw [← ht1] at hres
    have hsize : t1.size = t.size := by rw [ht1]
    have hent : t1.entries = t.entries.set target
        { key := some k, value := some v, state := SLOT_OCCUPIED } := by rw [ht1]
    have hcnt : t1.count = t.count + 1 := by rw [ht1]
    have htmb : t1.tombs = t.tombs - tb := by rw [ht1]
    refine ⟨t1, hres, ?_⟩
    have hwf1 : WF t1 := by
      refine wf_update t t1 target { key := some k, value := some v, state := SLOT_OCCUPIED }
        hwf htarlt hsize hent ?_ ?_ (by simp [SLOT_OCCUPIED])
        (fun _ => ⟨k, v, rfl⟩) (fun _ => by simp [SLOT_OCCUPIED, SLOT_EMPTY]) ?_ ?_
      · rw [hcnt, if_neg hnocc]; simp
      · rw [htmb, htb]; split_ifs <;> simp_all
      · intro _ j hj _ hjs hjk
        exact hnokey ⟨j, hj, hjs, hjk⟩
      · intro _ k1 hk1 d1 hd1 hpos i hi
        simp only [Option.some.injEq] at hk1
        subst hk1
        have hda : d1 = a :=
          walk_offset_inj t.size _ d1 a hd1 (by omega) (by rw [hpos, htar])
        exact (hpass i (by omega)).1
    refine ⟨hwf1, hsize, ?_, ?_, Or.inr ⟨hnokey, hcnt, ?_⟩⟩
    · exact (present_update t t1 target _ k v htarl hsize hent htarlt).mpr (Or.inl rfl)
    · intro k1 v1 hk1
      rw [present_update t t1 target _ k1 v1 htarl hsize hent htarlt]
      constructor
      · rintro (h | ⟨j, hj, _, hs⟩)
        · simp only [ht_entry.mk.injEq, Option.some.injEq] at h
          exact absurd h.1.symm hk1
        · exact ⟨j, hj, hs⟩
      · rintro ⟨j, hj, hs⟩
        refine Or.inr ⟨j, hj, ?_, hs⟩
        intro hjt
        rw [hjt] at hs
        rw [hs] at hnocc
        exact hnocc rfl
    · rw [htmb, htb]; split_ifs <;> omega
  · have hnp : (slot t ((ht_index_for k t.size + d) % t.size)).state ≠ SLOT_TOMBSTONE ∧
        (slot t ((ht_index_for k t.size + d) % t.size)).key = some k := by
      unfold passes_put at hstop
      constructor
      · intro h2; exact hstop ⟨he, Or.inl h2⟩
      · by_contra h2; exact hstop ⟨he, Or.inr h2⟩
    have hocc : (slot t ((ht_index_for k t.size + d) % t.size)).state = SLOT_OCCUPIED := by
      have := hwf.state_le _ hT
      have h2 := hnp.1
      simp only [SLOT_EMPTY, SLOT_TOMBSTONE, SLOT_OCCUPIED] at he h2 ⊢
      omega
    have hres := put_loop_match t k v d fuel _ (-1) hh hpass he hnp.1 hnp.2 hd
    obtain ⟨k0, v0, hs⟩ := hwf.occupied_full _ hT hocc
    have hk0 : k0 = k := by
      have := hnp.2; rw [hs] at this; simpa using this
    subst hk0
    obtain ⟨t1, ht1⟩ : ∃ t1 : ht, t1 = { t with
        entries := t.entries.set ((ht_index_for k0 t.size + d) % t.size)
          { key := some k0, value := some v, state := SLOT_OCCUPIED } } := ⟨_, rfl⟩
    rw [hs] at hres
    rw [← ht1] at hres
    have hsize : t1.size = t.size := by rw [ht1]
    have hent : t1.entries = t.entries.set ((ht_index_for k0 t.size + d) % t.size)
        { key := some k0, value := some v, state := SLOT_OCCUPIED } := by rw [ht1]
    have hcnt : t1.count = t.count := by rw [ht1]
    have htmb : t1.tombs = t.tombs := by rw [ht1]
    refine ⟨t1, hres, ?_⟩
    have hwf1 : WF t1 := by
      refine wf_update t t1 _ { key := some k0, value := some v, state := SLOT_OCCUPIED }
        hwf hT hsize hent ?_ ?_ (by simp [SLOT_OCCUPIED])
        (fun _ => ⟨k0, v, rfl⟩) (fun _ => by simp [SLOT_OCCUPIED, SLOT_EMPTY]) ?_ ?_
      · rw [hs, hcnt]
      · rw [hs, htmb]
      · intro _ j hj hjT hjs hjk
        exact hjT (hwf.distinct j _ hj hT hjs hocc (by rw [hjk, hs]))
      · intro _ k1 hk1 d1 hd1 hpos i hi
        simp only [Option.some.injEq] at hk1
        subst hk1
        exact hwf.chain k0 d1 hd1 (by rw [hpos]; exact hocc) (by rw [hpos, hs]) i hi
    refine ⟨hwf1, hsize, ?_, ?_, Or.inl ⟨⟨_, hT, hocc, hnp.2⟩, hcnt, htmb⟩⟩
    · exact (present_update t t1 _ _ k0 v hTl hsize hent hT).mpr (Or.inl rfl)
    · intro k1 v1 hk1
      rw [present_update t t1 _ _ k1 v1 hTl hsize hent hT]
      constructor
      · rintro (h | ⟨j, hj, _, hs1⟩)
        · simp only [ht_entry.mk.injEq, Option.some.injEq] at h
          exact absurd h.1.symm hk1
        · exact ⟨j, hj, hs1⟩
      · rintro ⟨j, hj, hs1⟩
        refine Or.inr ⟨j, hj, ?_, hs1⟩
        intro hjt
        rw [hjt, hs] at hs1
        simp only [ht_entry.mk.injEq, Option.some.injEq] at hs1
        exact hk1 hs1.1.symm

theorem put_loop_mono (t : ht) (k v : Str) :
    ∀ (fuel idx : Nat) (ft : Int) (r : ht), ht_put_into_loop t k v fuel idx ft = some r →
      ∀ fuel1, fuel ≤ fuel1 → ht_put_into_loop t k v fuel1 idx ft = some r := by
  intro fuel
  induction fuel with
  | zero => intro idx ft r h; simp [ht_put_into_loop] at h
  | succ fuel ih =>
    intro idx ft r h fuel1 hle
    obtain ⟨f1, rfl⟩ : ∃ f1, fuel1 = f1 + 1 := ⟨fuel1 - 1, by omega⟩
    rw [ht_put_into_loop] at h ⊢
    by_cases h1 : (slot t idx).state = SLOT_EMPTY
    · rw [if_pos h1] at h ⊢; exact h
    · rw [if_neg h1] at h ⊢
      by_cases h2 : (slot t idx).state = SLOT_TOMBSTONE
      · rw [if_pos h2] at h ⊢; exact ih _ _ r h f1 (by omega)
      · rw [if_neg h2] at h ⊢
        by_cases h3 : (slot t idx).key = some k
        · rw [if_pos h3] at h ⊢; exact h
        · rw [if_neg h3] at h ⊢; exact ih _ _ r h f1 (by omega)

/-- A stopping slot for the insert probe exists when the key is stored or a slot
is empty. -/
theorem put_stop_exists (t : ht) (k : Str) (hwf : WF t)
    (h : has_key t k ∨ ∃ j, j < t.size ∧ (slot t j).state = SLOT_EMPTY) :
    ∃ d, d < t.size ∧
      (∀ i, i < d → passes_put k (slot t ((ht_index_for k t.size + i) % t.size))) ∧
      ¬ passes_put k (slot t ((ht_index_for k t.size + d) % t.size)) := by
  have hh := index_lt t k hwf
  rcases h with ⟨j, hj, hs, hk⟩ | ⟨j, hj, hs⟩
  · refine first_stop_exists t.size _ j hh hj (fun j => passes_put k (slot t j)) ?_
    rintro ⟨_, h2 | h2⟩
    · rw [hs] at h2; exact absurd h2 (by decide)
    · exact h2 hk
  · refine first_stop_exists t.size _ j hh hj (fun j => passes_put k (slot t j)) ?_
    rintro ⟨h1, _⟩
    exact h1 hs

theorem put_total (t : ht) (k v : Str) (hwf : WF t)
    (h : has_key t k ∨ ∃ j, j < t.size ∧ (slot t j).state = SLOT_EMPTY) :
    ∃ t1, (∀ fuel, t.size ≤ fuel → ht_put_into fuel t k v = some t1) ∧ PutPost t k v t1 := by
  obtain ⟨d, hd, hpass, hstop⟩ := put_stop_exists t k hwf h
  obtain ⟨t1, hres, hpost⟩ := put_spec t k v hwf t.size d hd hpass hstop
  exact ⟨t1, fun fuel hf => put_loop_mono t k v _ _ _ t1 hres fuel hf, hpost⟩

theorem put_sound (t : ht) (k v : Str) (hwf : WF t) (fuel : Nat) (t1 : ht)
    (h : ht_put_into fuel t k v = some t1) : PutPost t k v t1 := by
  obtain ⟨d, hd, hpass, hstop⟩ := put_loop_trace t k v fuel _ _ t1 h (index_lt t k hwf)
  obtain ⟨t2, hres, hpost⟩ := put_spec t k v hwf fuel d hd hpass hstop
  unfold ht_put_into at h
  rw [hres] at h
  simp only [Option.some.injEq] at h
  rw [← h]; exact hpost

/-! ### Remove -/

theorem remove_spec (t : ht) (k : Str) (hwf : WF t) (fuel d : Nat) (hd : d < fuel)
    (hpass : ∀ i, i < d → passes k (slot t ((ht_index_for k t.size + i) % t.size)))
    (hstop : ¬ passes k (slot t ((ht_index_for k t.size + d) % t.size))) :
    ∃ t1, ht_remove_loop t k fuel (ht_index_for k t.size) = some t1 ∧ RemovePost t k t1 := by
  have hh := index_lt t k hwf
  have hdn : d < t.size :=
    first_stop_lt t.size _ d hwf.size_pos (fun j => passes k (slot t j)) hpass hstop
  have hT : (ht_index_for k t.size + d) % t.size < t.size := Nat.mod_lt _ hwf.size_pos
  have hTl : (ht_index_for k t.size + d) % t.size < t.entries.length := by
    rw [hwf.length_eq]; exact hT
  have hres := remove_loop_stop t k _ d fuel hh hpass hstop hd
  by_cases he : (slot t ((ht_index_for k t.size + d) % t.size)).state = SLOT_EMPTY
  · rw [if_pos he] at hres
    have hnokey : ¬ has_key t k :=
      no_key_of_empty_stop t k hwf d hdn (fun i hi => (hpass i hi).2) he
    exact ⟨t, hres, hwf, rfl, hnokey, fun _ _ _ => Iff.rfl, Or.inr ⟨hnokey, rfl⟩⟩
  · rw [if_neg he] at hres
    have hocc : (slot t ((ht_index_for k t.size + d) % t.size)).state = SLOT_OCCUPIED ∧
        (slot t ((ht_index_for k t.size + d) % t.size)).key = some k := by
      by_contra hc
      exact hstop ⟨he, hc⟩
    obtain ⟨t1, ht1⟩ : ∃ t1 : ht, t1 = { t with
        entries := t.entries.set ((ht_index_for k t.size + d) % t.size)
          { key := none, value := none, state := SLOT_TOMBSTONE }
        count := t.count - 1
        tombs := t.tombs + 1 } := ⟨_, rfl⟩
    rw [← ht1] at hres
    have hsize : t1.size = t.size := by rw [ht1]
    have hent : t1.entries = t.entries.set ((ht_index_for k t.size + d) % t.size)
        { key := none, value := none, state := SLOT_TOMBSTONE } := by rw [ht1]
    have hcnt : t1.count = t.count - 1 := by rw [ht1]
    have htmb : t1.tombs = t.tombs + 1 := by rw [ht1]
    have hself : slot t1 ((ht_index_for k t.size + d) % t.size) =
        { key := none, value := none, state := SLOT_TOMBSTONE } :=
      slot_update_self t t1 _ _ hent hTl
    have hother : ∀ i, i ≠ (ht_index_for k t.size + d) % t.size → slot t1 i = slot t i :=
      fun i hi => slot_update_other t t1 _ i _ hent hi
    have hwf1 : WF t1 := by
      refine wf_update t t1 _ { key := none, value := none, state := SLOT_TOMBSTONE }
        hwf hT hsize hent ?_ ?_ (by simp [SLOT_TOMBSTONE])
        (fun h => by simp [SLOT_TOMBSTONE, SLOT_OCCUPIED] at h)
        (fun _ => by simp [SLOT_TOMBSTONE, SLOT_EMPTY])
        (fun h => by simp [SLOT_TOMBSTONE, SLOT_OCCUPIED] at h)
        (fun h => by simp [SLOT_TOMBSTONE, SLOT_OCCUPIED] at h)
      · rw [hcnt, if_pos hocc.1]; simp [SLOT_TOMBSTONE, SLOT_OCCUPIED]
      · rw [htmb, hocc.1]; simp [SLOT_TOMBSTONE, SLOT_OCCUPIED]
    refine ⟨t1, hres, hwf1, hsize, ?_, ?_, Or.inl ⟨⟨_, hT, hocc.1, hocc.2⟩, hcnt, htmb⟩⟩
    · rintro ⟨j, hj, hjs, hjk⟩
      rw [hsize] at hj
      by_cases hjT : j = (ht_index_for k t.size + d) % t.size
      · rw [hjT, hself] at hjs; simp [SLOT_TOMBSTONE, SLOT_OCCUPIED] at hjs
      · rw [hother j hjT] at hjs hjk
        exact hjT (hwf.distinct j _ hj hT hjs hocc.1 (by rw [hjk, hocc.2]))
    · intro k1 v1 hk1
      rw [present_update t t1 _ _ k1 v1 hTl hsize hent hT]
      constructor
      · rintro (h | ⟨j, hj, _, hs1⟩)
        · simp [SLOT_TOMBSTONE, SLOT_OCCUPIED] at h
        · exact ⟨j, hj, hs1⟩
      · rintro ⟨j, hj, hs1⟩
        refine Or.inr ⟨j, hj, ?_, hs1⟩
        intro hjt
        rw [hjt] at hs1
        have := hocc.2
        rw [hs1] at this
        simp only [Option.some.injEq] at this
        exact hk1 this

theorem passes_stop_exists (t : ht) (k : Str) (hwf : WF t)
    (h : has_key t k ∨ ∃ j, j < t.size ∧ (slot t j).state = SLOT_EMPTY) :
    ∃ d, d < t.size ∧
      (∀ i, i < d → passes k (slot t ((ht_index_for k t.size + i) % t.size))) ∧
      ¬ passes k (slot t ((ht_index_for k t.size + d) % t.size)) := by
  have hh := index_lt t k hwf
  rcases h with ⟨j, hj, hs, hk⟩ | ⟨j, hj, hs⟩
  · refine first_stop_exists t.size _ j hh hj (fun j => passes k (slot t j)) ?_
    rintro ⟨_, h2⟩
    exact h2 ⟨hs, hk⟩
  · refine first_stop_exists t.size _ j hh hj (fun j => passes k (slot t j)) ?_
    rintro ⟨h1, _⟩
    exact h1 hs

theorem remove_total (t : ht) (k : Str) (hwf : WF t)
    (h : has_key t k ∨ ∃ j, j < t.size ∧ (slot t j).state = SLOT_EMPTY) :
    ∃ t1, (∀ fuel, t.size ≤ fuel → ht_remove fuel (some t) (some k) = some (some t1)) ∧
      RemovePost t k t1 := by
  obtain ⟨d, hd, hpass, hstop⟩ := passes_stop_exists t k hwf h
  have hh := index_lt t k hwf
  have key : ∀ fuel, t.size ≤ fuel → ht_remove_loop t k fuel (ht_index_for k t.size) =
      ht_remove_loop t k t.size (ht_index_for k t.size) := by
    intro fuel hf
    rw [remove_loop_stop t k _ d fuel hh hpass hstop (by omega),
      remove_loop_stop t k _ d t.size hh hpass hstop hd]
  obtain ⟨t1, hres, hpost⟩ := remove_spec t k hwf t.size d hd hpass hstop
  refine ⟨t1, ?_, hpost⟩
  intro fuel hf
  simp only [ht_remove]
  rw [key fuel hf, hres]; rfl

theorem remove_sound (t : ht) (k : Str) (hwf : WF t) (fuel : Nat) (t1 : ht)
    (h : ht_remove fuel (some t) (some k) = some (some t1)) : RemovePost t k t1 := by
  simp only [ht_remove, Option.map_eq_some', Option.some.injEq] at h
  obtain ⟨t2, h2, h3⟩ := h
  subst h3
  obtain ⟨d, hd, hpass, hstop⟩ := remove_loop_trace t k fuel _ t2 h2 (index_lt t k hwf)
  obtain ⟨t3, hres, hpost⟩ := remove_spec t k hwf fuel d hd hpass hstop
  rw [hres] at h2
  simp only [Option.some.injEq] at h2
  rw [← h2]; exact hpost

/-! ### Lookup -/

theorem lookup_spec (t : ht) (k : Str) (hwf : WF t) (fuel d : Nat) (hd : d < fuel)
    (hpass : ∀ i, i < d → passes k (slot t ((ht_index_for k t.size + i) % t.size)))
    (hstop : ¬ passes k (slot t ((ht_index_for k t.size + d) % t.size))) :
    ∃ r, ht_lookup_loop t k fuel (ht_index_for k t.size) = some r ∧
      ∀ v, r = some v ↔ present t k v := by
  have hh := index_lt t k hwf
  have hdn : d < t.size :=
    first_stop_lt t.size _ d hwf.size_pos (fun j => passes k (slot t j)) hpass hstop
  have hT : (ht_index_for k t.size + d) % t.size < t.size := Nat.mod_lt _ hwf.size_pos
  have hres := lookup_loop_stop t k _ d fuel hh hpass hstop hd
  by_cases he : (slot t ((ht_index_for k t.size + d) % t.size)).state = SLOT_EMPTY
  · rw [if_pos he] at hres
    have hnokey : ¬ has_key t k :=
      no_key_of_empty_stop t k hwf d hdn (fun i hi => (hpass i hi).2) he
    refine ⟨none, hres, ?_⟩
    intro v
    constructor
    · intro h; simp at h
    · intro h; exact absurd (has_key_of_present h) hnokey
  · rw [if_neg he] at hres
    have hocc : (slot t ((ht_index_for k t.size + d) % t.size)).state = SLOT_OCCUPIED ∧
        (slot t ((ht_index_for k t.size + d) % t.size)).key = some k := by
      by_contra hc
      exact hstop ⟨he, hc⟩
    obtain ⟨k0, v0, hs⟩ := hwf.occupied_full _ hT hocc.1
    have hk0 : k0 = k := by
      have := hocc.2; rw [hs] at this; simpa using this
    subst hk0
    have hp : present t k0 v0 := ⟨_, hT, hs⟩
    rw [hs] at hres
    refine ⟨some v0, hres, ?_⟩
    intro v
    constructor
    · intro h
      simp only [Option.some.injEq] at h
      rw [← h]; exact hp
    · intro h
      rw [present_unique hwf h hp]

theorem lookup_present (t : ht) (k v : Str) (hwf : WF t) (h : present t k v) :
    ∀ fuel, t.size ≤ fuel → ht_lookup fuel (some t) (some k) = some (some v) := by
  intro fuel hf
  obtain ⟨d, hd, hpass, hstop⟩ := passes_stop_exists t k hwf (Or.inl (has_key_of_present h))
  obtain ⟨r, hres, hiff⟩ := lookup_spec t k hwf fuel d (by omega) hpass hstop
  simp only [ht_lookup]
  rw [hres, (hiff v).mpr h]

theorem lookup_absent (t : ht) (k : Str) (hwf : WF t) (h : ¬ has_key t k)
    (hempty : ∃ j, j < t.size ∧ (slot t j).state = SLOT_EMPTY) :
    ∀ fuel, t.size ≤ fuel → ht_lookup fuel (some t) (some k) = some none := by
  intro fuel hf
  obtain ⟨d, hd, hpass, hstop⟩ := passes_stop_exists t k hwf (Or.inr hempty)
  obtain ⟨r, hres, hiff⟩ := lookup_spec t k hwf fuel d (by omega) hpass hstop
  simp only [ht_lookup]
  rw [hres]
  cases r with
  | none => rfl
  | some v => exact absurd (has_key_of_present ((hiff v).mp rfl)) h

theorem lookup_sound (t : ht) (k : Str) (hwf : WF t) (fuel : Nat) (r : Option Str)
    (h : ht_lookup fuel (some t) (some k) = some r) : ∀ v, r = some v ↔ present t k v := by
  simp only [ht_lookup] at h
  obtain ⟨d, hd, hpass, hstop⟩ := lookup_loop_trace t k fuel _ r h (index_lt t k hwf)
  obtain ⟨r1, hres, hiff⟩ := lookup_spec t k hwf fuel d hd hpass hstop
  rw [hres] at h
  simp only [Option.some.injEq] at h
  rw [← h]; exact hiff

/-- With every slot walked past, the probe never stops. -/
theorem lookup_diverges (t : ht) (k : Str) (hsize : 0 < t.size)
    (hall : ∀ j, j < t.size → passes k (slot t j)) :
    ∀ fuel, ht_lookup fuel (some t) (some k) = none := by
  intro fuel
  simp only [ht_lookup]
  cases hres : ht_lookup_loop t k fuel (ht_index_for k t.size) with
  | none => rfl
  | some r =>
    obtain ⟨d, _, _, hstop⟩ := lookup_loop_trace t k fuel _ r hres (Nat.mod_lt _ hsize)
    exact absurd (hall _ (Nat.mod_lt _ hsize)) hstop

theorem remove_diverges (t : ht) (k : Str) (hsize : 0 < t.size)
    (hall : ∀ j, j < t.size → passes k (slot t j)) :
    ∀ fuel, ht_remove fuel (some t) (some k) = none := by
  intro fuel
  simp only [ht_remove]
  cases hres : ht_remove_loop t k fuel (ht_index_for k t.size) with
  | none => rfl
  | some r =>
    obtain ⟨d, _, _, hstop⟩ := remove_loop_trace t k fuel _ r hres (Nat.mod_lt _ hsize)
    exact absurd (hall _ (Nat.mod_lt _ hsize)) hstop

/-! ## Resizing -/

theorem slot_fresh (p i : Nat) (c tb : Int) :
    slot { size := p, count := c, tombs := tb, entries := List.replicate p zero_entry } i =
      zero_entry := by
  simp only [slot]
  by_cases hi : i < p
  · simp [List.getElem?_replicate, hi]
  · simp [List.getElem?_replicate, hi]

theorem wf_fresh (p : Nat) (hp : 0 < p) :
    WF { size := p, count := 0, tombs := 0, entries := List.replicate p zero_entry } := by
  refine ⟨hp, by simp, ?_, ?_, ?_, ?_, ?_, ?_⟩
  · simp [occupied_slots, List.countP_replicate, zero_entry]
  · simp [tombstone_slots, List.countP_replicate, zero_entry]
  · intro i _; rw [slot_fresh]; simp [zero_entry]
  · intro i _ h; rw [slot_fresh] at h; simp [zero_entry] at h
  · intro i j _ _ h; rw [slot_fresh] at h; simp [zero_entry] at h
  · intro k d _ h; rw [slot_fresh] at h; simp [zero_entry] at h

theorem no_key_fresh (p : Nat) (k : Str) :
    ¬ has_key { size := p, count := 0, tombs := 0, entries := List.replicate p zero_entry } k := by
  rintro ⟨j, _, h, _⟩
  rw [slot_fresh] at h; simp [zero_entry] at h

theorem mem_entries_iff (t : ht) (hlen : t.entries.length = t.size) (e : ht_entry) :
    e ∈ t.entries ↔ ∃ j, j < t.size ∧ slot t j = e := by
  rw [List.mem_iff_getElem]
  constructor
  · rintro ⟨j, hj, he⟩
    exact ⟨j, by omega, by rw [slot_eq_getElem t j hj]; exact he⟩
  · rintro ⟨j, hj, he⟩
    have hj1 : j < t.entries.length := by omega
    exact ⟨j, hj1, by rw [← slot_eq_getElem t j hj1]; exact he⟩

theorem exists_empty_of_counts (t : ht) (hwf : WF t) (h : t.count + t.tombs < t.size) :
    ∃ j, j < t.size ∧ (slot t j).state = SLOT_EMPTY := by
  by_contra hc
  push_neg at hc
  have hall : ∀ e, e ∈ t.entries → e.state = SLOT_OCCUPIED ∨ e.state = SLOT_TOMBSTONE := by
    intro e he
    obtain ⟨j, hj, hs⟩ := (mem_entries_iff t hwf.length_eq e).mp he
    have h1 := hwf.state_le j hj
    have h2 := hc j hj
    rw [hs] at h1 h2
    simp only [SLOT_EMPTY, SLOT_OCCUPIED, SLOT_TOMBSTONE] at h2 ⊢
    omega
  have hfull := countP_full t.entries hall
  have h1 := hwf.count_eq
  have h2 := hwf.tombs_eq
  have h3 := hwf.length_eq
  unfold occupied_slots at h1
  unfold tombstone_slots at h2
  omega

theorem tombs_nonneg (t : ht) (hwf : WF t) : 0 ≤ t.tombs := by
  rw [hwf.tombs_eq]; exact Int.natCast_nonneg _

theorem count_le_size (t : ht) (hwf : WF t) : t.count ≤ t.size := by
  rw [hwf.count_eq, ← hwf.length_eq]
  unfold occupied_slots
  exact_mod_cast List.countP_le_length _

theorem put_present_iff (t t2 : ht) (k v : Str) (hpost : PutPost t k v t2)
    (hnokey : ¬ has_key t k) (k0 v0 : Str) :
    present t2 k0 v0 ↔ (present t k0 v0 ∨ (k0 = k ∧ v0 = v)) := by
  constructor
  · intro h
    by_cases hk : k0 = k
    · subst hk
      exact Or.inr ⟨rfl, present_unique hpost.wf h hpost.here⟩
    · exact Or.inl ((hpost.frame k0 v0 hk).mp h)
  · rintro (h | ⟨hk, hv⟩)
    · have hk : k0 ≠ k := by
        intro hk; subst hk; exact hnokey (has_key_of_present h)
      exact (hpost.frame k0 v0 hk).mpr h
    · subst hk; subst hv; exact hpost.here

theorem resize_loop_sound (fuel : Nat) :
    ∀ (es : List ht_entry) (t t1 : ht), WF t → t.tombs = 0 →
      (∀ e, e ∈ es → e.state = SLOT_OCCUPIED →
        ∃ k v, e = { key := some k, value := some v, state := SLOT_OCCUPIED }) →
      es.Pairwise (fun a b => a.state = SLOT_OCCUPIED → b.state = SLOT_OCCUPIED →
        a.key ≠ b.key) →
      (∀ e, e ∈ es → e.state = SLOT_OCCUPIED → ∀ k, e.key = some k → ¬ has_key t k) →
      ht_resize_loop fuel es t = some t1 →
      WF t1 ∧ t1.size = t.size ∧ t1.tombs = 0 ∧
        t1.count = t.count + (es.countP (fun e => decide (e.state = SLOT_OCCUPIED)) : Nat) ∧
        ∀ k v, present t1 k v ↔
          (present t k v ∨ { key := some k, value := some v, state := SLOT_OCCUPIED } ∈ es) := by
  intro es
  induction es with
  | nil =>
    intro t t1 hwf htb _ _ _ h
    simp only [ht_resize_loop, Option.some.injEq] at h
    subst h
    exact ⟨hwf, rfl, htb, by simp, by simp⟩
  | cons e es ih =>
    intro t t1 hwf htb h1 h2 h3 h
    rw [List.pairwise_cons] at h2
    rw [ht_resize_loop] at h
    by_cases hocc : e.state = SLOT_OCCUPIED
    · rw [if_pos hocc] at h
      obtain ⟨k, v, he⟩ := h1 e (List.mem_cons_self _ _) hocc
      subst he
      simp only at h
      cases hput : ht_put_into fuel t k v with
      | none => rw [hput] at h; simp at h
      | some t2 =>
        rw [hput] at h
        simp only at h
        have hpost := put_sound t k v hwf fuel t2 hput
        have hnokey : ¬ has_key t k := h3 _ (List.mem_cons_self _ _) rfl k rfl
        have hcnt : t2.count = t.count + 1 ∧ t2.tombs ≤ t.tombs := by
          rcases hpost.counts with ⟨hk, _, _⟩ | ⟨_, hc, htm⟩
          · exact absurd hk hnokey
          · exact ⟨hc, htm⟩
        have htb2 : t2.tombs = 0 := by
          have := tombs_nonneg t2 hpost.wf
          omega
        have h3b : ∀ e1, e1 ∈ es → e1.state = SLOT_OCCUPIED → ∀ k1, e1.key = some k1 →
            ¬ has_key t2 k1 := by
          intro e1 he1 ho1 k1 hk1 hhas
          have hne : k1 ≠ k := by
            intro hkk; subst hkk
            exact h2.1 e1 he1 rfl ho1 (by simp [hk1])
          obtain ⟨v1, hp1⟩ := present_of_has_key hpost.wf hhas
          have := (hpost.frame k1 v1 hne).mp hp1
          exact h3 e1 (List.mem_cons_of_mem _ he1) ho1 k1 hk1 (has_key_of_present this)
        obtain ⟨hwf1, hs1, htb1, hc1, hiff⟩ := ih t2 t1 hpost.wf htb2
          (fun e1 he1 => h1 e1 (List.mem_cons_of_mem _ he1)) h2.2 h3b h
        refine ⟨hwf1, by rw [hs1, hpost.size_eq], htb1, ?_, ?_⟩
        · rw [hc1, hcnt.1, List.countP_cons_of_pos _ _ (by simp)]
          push_cast; ring
        · intro k0 v0
          rw [hiff k0 v0, put_present_iff t t2 k v hpost hnokey k0 v0, List.mem_cons]
          simp only [ht_entry.mk.injEq, Option.some.injEq, and_true]
          tauto
    · rw [if_neg hocc] at h
      obtain ⟨hwf1, hs1, htb1, hc1, hiff⟩ := ih t t1 hwf htb
        (fun e1 he1 => h1 e1 (List.mem_cons_of_mem _ he1)) h2.2
        (fun e1 he1 => h3 e1 (List.mem_cons_of_mem _ he1)) h
      refine ⟨hwf1, hs1, htb1, ?_, ?_⟩
      · rw [hc1]
        simp only [List.countP_cons, decide_eq_true_eq, if_neg hocc, Nat.add_zero]
      · intro k0 v0
        rw [hiff k0 v0, List.mem_cons]
        constructor
        · rintro (h | h)
          · exact Or.inl h
          · exact Or.inr (Or.inr h)
        · rintro (h | h | h)
          · exact Or.inl h
          · rw [← h] at hocc; exact absurd rfl hocc
          · exact Or.inr h

theorem resize_loop_total :
    ∀ (es : List ht_entry) (t : ht), WF t → t.tombs = 0 →
      (∀ e, e ∈ es → e.state = SLOT_OCCUPIED →
        ∃ k v, e = { key := some k, value := some v, state := SLOT_OCCUPIED }) →
      (∀ e, e ∈ es → e.state = SLOT_OCCUPIED → ∀ k, e.key = some k → ¬ has_key t k) →
      es.Pairwise (fun a b => a.state = SLOT_OCCUPIED → b.state = SLOT_OCCUPIED →
        a.key ≠ b.key) →
      t.count + (es.countP (fun e => decide (e.state = SLOT_OCCUPIED)) : Nat) < t.size →
      ∃ t1, ∀ fuel, t.size ≤ fuel → ht_resize_loop fuel es t = some t1 := by
  intro es
  induction es with
  | nil => intro t _ _ _ _ _ _; exact ⟨t, fun _ _ => rfl⟩
  | cons e es ih =>
    intro t hwf htb h1 h3 h2 hroom
    rw [List.pairwise_cons] at h2
    by_cases hocc : e.state = SLOT_OCCUPIED
    · obtain ⟨k, v, he⟩ := h1 e (List.mem_cons_self _ _) hocc
      subst he
      rw [List.countP_cons_of_pos _ _ (by simp)] at hroom
      have hempty : ∃ j, j < t.size ∧ (slot t j).state = SLOT_EMPTY :=
        exists_empty_of_counts t hwf (by push_cast at hroom; omega)
      obtain ⟨t2, hres, hpost⟩ := put_total t k v hwf (Or.inr hempty)
      have hnokey : ¬ has_key t k := h3 _ (List.mem_cons_self _ _) rfl k rfl
      have hcnt : t2.count = t.count + 1 ∧ t2.tombs ≤ t.tombs := by
        rcases hpost.counts with ⟨hk, _, _⟩ | ⟨_, hc, htm⟩
        · exact absurd hk hnokey
        · exact ⟨hc, htm⟩
      have htb2 : t2.tombs = 0 := by
        have := tombs_nonneg t2 hpost.wf
        omega
      have h3b : ∀ e1, e1 ∈ es → e1.state = SLOT_OCCUPIED → ∀ k1, e1.key = some k1 →
          ¬ has_key t2 k1 := by
        intro e1 he1 ho1 k1 hk1 hhas
        have hne : k1 ≠ k := by
          intro hkk; subst hkk
          exact h2.1 e1 he1 rfl ho1 (by simp [hk1])
        obtain ⟨v1, hp1⟩ := present_of_has_key hpost.wf hhas
        have := (hpost.frame k1 v1 hne).mp hp1
        exact h3 e1 (List.mem_cons_of_mem _ he1) ho1 k1 hk1 (has_key_of_present this)
      obtain ⟨t1, hfin⟩ := ih t2 hpost.wf htb2
        (fun e1 he1 => h1 e1 (List.mem_cons_of_mem _ he1)) h3b h2.2
        (by rw [hpost.size_eq, hcnt.1]; push_cast at hroom ⊢; omega)
      refine ⟨t1, ?_⟩
      intro fuel hf
      rw [ht_resize_loop, if_pos rfl]
      simp only
      rw [hres fuel hf]
      simp only
      exact hfin fuel (by rw [hpost.size_eq]; exact hf)
    · simp only [List.countP_cons, decide_eq_true_eq, if_neg hocc, Nat.add_zero] at hroom
      obtain ⟨t1, hfin⟩ := ih t hwf htb
        (fun e1 he1 => h1 e1 (List.mem_cons_of_mem _ he1))
        (fun e1 he1 => h3 e1 (List.mem_cons_of_mem _ he1)) h2.2 hroom
      refine ⟨t1, ?_⟩
      intro fuel hf
      rw [ht_resize_loop, if_neg hocc]
      exact hfin fuel hf

theorem next_prime_small (fuel : Nat) (n p : Int) (h : ht_next_prime fuel n = some p)
    (hn : n ≤ 2) : p = 2 := by
  unfold ht_next_prime at h
  rw [if_pos hn] at h
  simpa using h.symm

theorem has_key_iff_of_same (t t1 : ht) (hwf : WF t) (hwf1 : WF t1)
    (hsame : ∀ k v, present t1 k v ↔ present t k v) (k : Str) :
    has_key t1 k ↔ has_key t k := by
  constructor
  · intro h
    obtain ⟨v, hp⟩ := present_of_has_key hwf1 h
    exact has_key_of_present ((hsame k v).mp hp)
  · intro h
    obtain ⟨v, hp⟩ := present_of_has_key hwf h
    exact has_key_of_present ((hsame k v).mpr hp)

theorem entries_occupied_full (t : ht) (hwf : WF t) :
    ∀ e, e ∈ t.entries → e.state = SLOT_OCCUPIED →
      ∃ k v, e = { key := some k, value := some v, state := SLOT_OCCUPIED } := by
  intro e he hocc
  obtain ⟨j, hj, hs⟩ := (mem_entries_iff t hwf.length_eq e).mp he
  rw [← hs] at hocc ⊢
  exact hwf.occupied_full j hj hocc

theorem entries_pairwise (t : ht) (hwf : WF t) :
    t.entries.Pairwise (fun a b => a.state = SLOT_OCCUPIED → b.state = SLOT_OCCUPIED →
      a.key ≠ b.key) := by
  rw [List.pairwise_iff_getElem]
  intro i j hi hj hij ha hb hkey
  rw [← slot_eq_getElem t i hi] at ha hkey
  rw [← slot_eq_getElem t j hj] at hb hkey
  have := hwf.distinct i j (by rw [← hwf.length_eq]; exact hi)
    (by rw [← hwf.length_eq]; exact hj) ha hb hkey
  omega

theorem resize_sound (t : ht) (hwf : WF t) (fuel : Nat) (ns : Int) (t1 : ht)
    (h : ht_resize fuel t ns = some t1) : ResizePost t ns t1 := by
  unfold ht_resize at h
  cases hnp : ht_next_prime fuel ns with
  | none => rw [hnp] at h; simp at h
  | some p =>
    rw [hnp] at h
    simp only at h
    obtain ⟨hge, h2, hprime⟩ := ht_next_prime_sound fuel ns p hnp
    rw [List.take_of_length_le (le_of_eq hwf.length_eq)] at h
    obtain ⟨hwf1, hs1, htb1, hc1, hiff⟩ := resize_loop_sound fuel t.entries _ t1
      (wf_fresh p.toNat (by omega)) rfl (entries_occupied_full t hwf) (entries_pairwise t hwf)
      (fun _ _ _ k _ => no_key_fresh p.toNat k) h
    simp only at hs1 hc1
    refine ⟨hwf1, by rw [hs1]; exact hprime, by rw [hs1]; omega, ?_, htb1, ?_, ?_⟩
    · intro hsmall
      rw [hs1, next_prime_small fuel ns p hnp hsmall]; rfl
    · rw [hc1, hwf.count_eq]; unfold occupied_slots; simp
    · intro k v
      rw [hiff k v, mem_entries_iff t hwf.length_eq]
      constructor
      · rintro (hp | hp)
        · exact absurd (has_key_of_present hp) (no_key_fresh p.toNat k)
        · exact hp
      · intro hp; exact Or.inr hp

theorem resize_total (t : ht) (hwf : WF t) (ns : Int) (hns : (t.size : Int) < ns) :
    ∃ t1 N, ∀ fuel, N ≤ fuel → ht_resize fuel t ns = some t1 := by
  obtain ⟨p, hprime, hge, N0, hN0⟩ := ht_next_prime_total ns
  have hp : t.size < p := by omega
  obtain ⟨t1, hres⟩ := resize_loop_total t.entries
    { size := p, count := 0, tombs := 0, entries := List.replicate p zero_entry }
    (wf_fresh p (by omega)) rfl (entries_occupied_full t hwf)
    (fun _ _ _ k _ => no_key_fresh p k) (entries_pairwise t hwf)
    (by
      have h1 : t.entries.countP (fun e => decide (e.state = SLOT_OCCUPIED)) ≤
          t.entries.length := List.countP_le_length _
      have h2 := hwf.length_eq
      simp only
      omega)
  refine ⟨t1, max N0 p, ?_⟩
  intro fuel hf
  unfold ht_resize
  rw [hN0 fuel (le_trans (le_max_left _ _) hf)]
  simp only [Int.toNat_ofNat]
  rw [List.take_of_length_le (le_of_eq hwf.length_eq)]
  exact hres fuel (le_trans (le_max_right _ _) hf)

theorem grow_cond_iff (t : ht) (hpos : 0 < t.size) :
    (gt_two_thirds (ht_load_factor t) = true ∨ t.tombs > ((t.size / 3 : Nat) : Int)) ↔
      (2 * (t.size : Int) < 3 * t.count ∨ ((t.size / 3 : Nat) : Int) < t.tombs) := by
  unfold gt_two_thirds ht_load_factor
  rw [if_neg (by omega)]
  simp

theorem maybe_grow_sound (t : ht) (hwf : WF t) (fuel : Nat) (t1 : ht)
    (h : ht_maybe_grow fuel t = some t1) : GrowPost t t1 := by
  unfold ht_maybe_grow at h
  have hpos := hwf.size_pos
  have hcs := count_le_size t hwf
  by_cases hc : gt_two_thirds (ht_load_factor t) = true ∨ t.tombs > ((t.size / 3 : Nat) : Int)
  · rw [if_pos hc] at h
    have hpost := resize_sound t hwf fuel _ t1 h
    have hge := hpost.size_ge
    refine ⟨hpost.wf, by omega, hpost.same, hpost.count_eq, by rw [hpost.count_eq]; omega, ?_,
      fun _ => hpost.tombs_eq, fun _ => by rw [hpost.count_eq, hpost.tombs_eq]; omega,
      fun _ => hpost.prime, fun hk => absurd ((grow_cond_iff t hpos).mp hc) hk⟩
    intro _ h3
    have hdvd : 3 ∣ t1.size := Nat.dvd_of_mod_eq_zero h3
    have h33 : 3 = t1.size := (Nat.prime_dvd_prime_iff_eq Nat.prime_three hpost.prime).mp hdvd
    have hs1 : t.size = 1 := by omega
    have := hpost.small (by rw [hs1]; norm_num)
    omega
  · rw [if_neg hc] at h
    simp only [Option.some.injEq] at h
    subst h
    rw [grow_cond_iff t hpos] at hc
    push_neg at hc
    refine ⟨hwf, le_refl _, fun _ _ => Iff.rfl, rfl, by omega, fun h3 => h3, fun h0 => h0, ?_,
      fun hp => hp, fun _ => rfl⟩
    intro h3
    have h4 := hc.2
    have h5 : ((t.size / 3 : Nat) : Int) = (t.size : Int) / 3 := by push_cast; rfl
    rw [h5] at h4
    have h6 := tombs_nonneg t hwf
    rcases h3 with h3 | h3 <;> omega

theorem maybe_grow_total (t : ht) (hwf : WF t) :
    ∃ t1 N, ∀ fuel, N ≤ fuel → ht_maybe_grow fuel t = some t1 := by
  by_cases hc : gt_two_thirds (ht_load_factor t) = true ∨ t.tombs > ((t.size / 3 : Nat) : Int)
  · obtain ⟨t1, N, hres⟩ := resize_total t hwf ((t.size : Int) * 2) (by
      have := hwf.size_pos; omega)
    refine ⟨t1, N, ?_⟩
    intro fuel hf
    unfold ht_maybe_grow
    rw [if_pos hc]
    exact hres fuel hf
  · refine ⟨t, 0, ?_⟩
    intro fuel _
    unfold ht_maybe_grow
    rw [if_neg hc]

theorem insert_eq_put (fuel : Nat) (t : ht) (k v : Str) :
    ht_insert fuel t k v =
      match ht_maybe_grow fuel t with
      | none => none
      | some t1 => ht_put_into fuel t1 k v := by
  unfold ht_insert ht_put_into
  cases ht_maybe_grow fuel t with
  | none => rfl
  | some t1 => simp only [ht_insert_loop_eq]

theorem insert_sound (t : ht) (k v : Str) (hwf : WF t) (fuel : Nat) (t1 : ht)
    (h : ht_insert fuel t k v = some t1) : InsertPost t k v t1 := by
  rw [insert_eq_put] at h
  cases hg : ht_maybe_grow fuel t with
  | none => rw [hg] at h; simp at h
  | some tg =>
    rw [hg] at h
    simp only at h
    have hgrow := maybe_grow_sound t hwf fuel tg hg
    have hput := put_sound tg k v hgrow.wf fuel t1 h
    have hkey := has_key_iff_of_same t tg hwf hgrow.wf hgrow.same k
    have hl := hgrow.load
    refine ⟨hput.wf, by rw [hput.size_eq]; exact hgrow.size_le, hput.here, ?_, ?_, ?_, ?_, ?_, ?_,
      fun hk => by rw [hput.size_eq, hgrow.keep hk]⟩
    · intro k1 v1 hk1
      rw [hput.frame k1 v1 hk1, hgrow.same]
    · rcases hput.counts with ⟨hk, hc, _⟩ | ⟨hk, hc, _⟩
      · exact Or.inl ⟨hkey.mp hk, by rw [hc, hgrow.count_eq]⟩
      · exact Or.inr ⟨fun hh => hk (hkey.mpr hh), by rw [hc, hgrow.count_eq]⟩
    · rw [hput.size_eq]
      rcases hput.counts with ⟨_, hc, _⟩ | ⟨_, hc, _⟩ <;> omega
    · intro h3; rw [hput.size_eq]; exact hgrow.mod3 h3
    · intro h0
      have h1 := hgrow.tombs_zero h0
      have h2 := tombs_nonneg t1 hput.wf
      rcases hput.counts with ⟨_, _, hc⟩ | ⟨_, _, hc⟩ <;> omega
    · intro hp; rw [hput.size_eq]; exact hgrow.prime hp

/-- The call `ht_insert` returns when the table size is no multiple of three, or
no tombstone is counted, or the key is already stored. -/
theorem insert_total (t : ht) (k v : Str) (hwf : WF t)
    (h3 : t.size % 3 ≠ 0 ∨ t.tombs = 0 ∨ has_key t k) :
    ∃ t1 N, ∀ fuel, N ≤ fuel → ht_insert fuel t k v = some t1 := by
  obtain ⟨tg, N0, hg⟩ := maybe_grow_total t hwf
  have hgrow := maybe_grow_sound t hwf N0 tg (hg N0 (le_refl _))
  have hstop : has_key tg k ∨ ∃ j, j < tg.size ∧ (slot tg j).state = SLOT_EMPTY := by
    rcases h3 with h | h | h
    · exact Or.inr (exists_empty_of_counts tg hgrow.wf (hgrow.room (Or.inl h)))
    · exact Or.inr (exists_empty_of_counts tg hgrow.wf (hgrow.room (Or.inr h)))
    · exact Or.inl ((has_key_iff_of_same t tg hwf hgrow.wf hgrow.same k).mpr h)
  obtain ⟨t1, hres, _⟩ := put_total tg k v hgrow.wf hstop
  refine ⟨t1, max N0 tg.size, ?_⟩
  intro fuel hf
  rw [insert_eq_put, hg fuel (le_trans (le_max_left _ _) hf)]
  exact hres fuel (le_trans (le_max_right _ _) hf)

/-! ## Reachable tables -/

theorem step_remove_iff (fuel : Nat) (t t1 : ht) (k : Str) :
    step fuel t (Op.remove k) = some t1 ↔
      ht_remove fuel (some t) (some k) = some (some t1) := by
  simp only [step]
  cases ht_remove fuel (some t) (some k) with
  | none => simp
  | some r =>
    cases r with
    | none => simp
    | some t2 => simp

theorem step_lookup_eq (fuel : Nat) (t t1 : ht) (k : Str)
    (h : step fuel t (Op.lookup k) = some t1) : t1 = t := by
  simp only [step] at h
  cases hl : ht_lookup fuel (some t) (some k) with
  | none => rw [hl] at h; simp at h
  | some r => rw [hl] at h; simpa using h.symm

theorem step_wf (t : ht) (hwf : WF t) (fuel : Nat) (op : Op) (t1 : ht)
    (h : step fuel t op = some t1) :
    WF t1 ∧ t.size ≤ t1.size ∧ (t.size % 3 ≠ 0 → t1.size % 3 ≠ 0) ∧
      (Nat.Prime t.size → Nat.Prime t1.size) := by
  cases op with
  | insert k v =>
    have hp := insert_sound t k v hwf fuel t1 h
    exact ⟨hp.wf, hp.size_le, hp.mod3, hp.prime⟩
  | remove k =>
    have hp := remove_sound t k hwf fuel t1 ((step_remove_iff fuel t t1 k).mp h)
    exact ⟨hp.wf, le_of_eq hp.size_eq.symm, fun h3 => by rw [hp.size_eq]; exact h3,
      fun h3 => by rw [hp.size_eq]; exact h3⟩
  | lookup k =>
    have := step_lookup_eq fuel t t1 k h
    subst this
    exact ⟨hwf, le_refl _, fun h3 => h3, fun h3 => h3⟩

theorem reachable_wf (S : Nat) (hS : 0 < S) (t : ht) (hr : Reachable S t) :
    WF t ∧ (S % 3 ≠ 0 → t.size % 3 ≠ 0) ∧ (Nat.Prime S → Nat.Prime t.size) := by
  induction hr with
  | create => exact ⟨wf_fresh S hS, fun h => h, fun h => h⟩
  | step fuel t t1 op _ hstep ih =>
    obtain ⟨hwf, h3, hp⟩ := ih
    obtain ⟨hwf1, _, h31, hp1⟩ := step_wf t hwf fuel op t1 hstep
    exact ⟨hwf1, fun h => h31 (h3 h), fun h => hp1 (hp h)⟩

theorem reachable_of_run (S fuel : Nat) :
    ∀ (ops : List Op) (t t1 : ht), Reachable S t → run fuel t ops = some t1 →
      Reachable S t1 := by
  intro ops
  induction ops with
  | nil => intro t t1 hr h; simp only [run, Option.some.injEq] at h; rw [← h]; exact hr
  | cons op ops ih =>
    intro t t1 hr h
    rw [run] at h
    cases hs : step fuel t op with
    | none => rw [hs] at h; simp at h
    | some t2 =>
      rw [hs] at h
      exact ih t2 t1 (Reachable.step fuel t t2 op hr hs) h

/-! ## The counters on an arbitrary table -/

theorem countP_disjoint_le (l : List ht_entry) :
    l.countP (fun e => decide (e.state = SLOT_OCCUPIED)) +
      l.countP (fun e => decide (e.state = SLOT_TOMBSTONE)) ≤ l.length := by
  induction l with
  | nil => simp
  | cons x xs ih =>
    simp only [List.countP_cons, List.length_cons, decide_eq_true_eq]
    by_cases h1 : x.state = SLOT_OCCUPIED
    · have h2 : ¬ (x.state = SLOT_TOMBSTONE) := by rw [h1]; decide
      rw [if_pos h1, if_neg h2]; omega
    · rw [if_neg h1]; split_ifs <;> omega

theorem count_inv_bound (t : ht) (h : count_inv t) : t.count + t.tombs ≤ (t.size : Int) := by
  obtain ⟨_, hlen, hc, htb⟩ := h
  have := countP_disjoint_le t.entries
  unfold occupied_slots at hc
  unfold tombstone_slots at htb
  omega

theorem put_loop_count_inv (t : ht) (k v : Str) (hinv : count_inv t) :
    ∀ (fuel idx : Nat) (ft : Int) (t1 : ht), ht_put_into_loop t k v fuel idx ft = some t1 →
      idx < t.size →
      (ft < 0 ∨ (ft.toNat < t.size ∧ (slot t ft.toNat).state = SLOT_TOMBSTONE)) →
      count_inv t1 := by
  intro fuel
  induction fuel with
  | zero => intro idx ft t1 h; simp [ht_put_into_loop] at h
  | succ fuel ih =>
    intro idx ft t1 h hidx hft
    have hn : 0 < t.size := by omega
    rw [ht_put_into_loop] at h
    by_cases h1 : (slot t idx).state = SLOT_EMPTY
    · rw [if_pos h1] at h
      simp only [Option.some.injEq] at h
      by_cases hge : ft ≥ 0
      · simp only [if_pos hge] at h
        have hft2 : ft.toNat < t.size ∧ (slot t ft.toNat).state = SLOT_TOMBSTONE := by
          rcases hft with h0 | h0
          · omega
          · exact h0
        refine count_inv_update t t1 ft.toNat
          { key := some k, value := some v, state := SLOT_OCCUPIED } hinv hft2.1
          (by rw [← h]) (by rw [← h]) ?_ ?_
        · rw [← h, hft2.2]; simp [SLOT_TOMBSTONE, SLOT_OCCUPIED]
        · rw [← h, hft2.2]; simp [SLOT_TOMBSTONE, SLOT_OCCUPIED]
      · simp only [if_neg hge] at h
        refine count_inv_update t t1 idx
          { key := some k, value := some v, state := SLOT_OCCUPIED } hinv hidx
          (by rw [← h]) (by rw [← h]) ?_ ?_
        · rw [← h, h1]; simp [SLOT_EMPTY, SLOT_OCCUPIED]
        · rw [← h, h1]; simp [SLOT_EMPTY, SLOT_TOMBSTONE, SLOT_OCCUPIED]
    · rw [if_neg h1] at h
      by_cases h2 : (slot t idx).state = SLOT_TOMBSTONE
      · rw [if_pos h2] at h
        refine ih _ _ t1 h (Nat.mod_lt _ hn) ?_
        by_cases hlt : ft < 0
        · rw [if_pos hlt]; right
          simp only [Int.toNat_ofNat]
          exact ⟨hidx, h2⟩
        · rw [if_neg hlt]
          rcases hft with h0 | h0
          · exact absurd h0 hlt
          · exact Or.inr h0
      · rw [if_neg h2] at h
        by_cases h3 : (slot t idx).key = some k
        · rw [if_pos h3] at h
          simp only [Option.some.injEq] at h
          refine count_inv_update t t1 idx _ hinv hidx (by rw [← h]) (by rw [← h]) ?_ ?_
          · rw [← h]
          · rw [← h]
        · rw [if_neg h3] at h
          exact ih _ _ t1 h (Nat.mod_lt _ hn) hft

theorem remove_loop_count_inv (t : ht) (k : Str) (hinv : count_inv t) :
    ∀ (fuel idx : Nat) (t1 : ht), ht_remove_loop t k fuel idx = some t1 → idx < t.size →
      count_inv t1 := by
  intro fuel
  induction fuel with
  | zero => intro idx t1 h; simp [ht_remove_loop] at h
  | succ fuel ih =>
    intro idx t1 h hidx
    have hn : 0 < t.size := by omega
    rw [ht_remove_loop] at h
    by_cases h1 : (slot t idx).state = SLOT_EMPTY
    · rw [if_pos h1] at h
      simp only [Option.some.injEq] at h
      rw [← h]; exact hinv
    · rw [if_neg h1] at h
      by_cases h2 : (slot t idx).state = SLOT_OCCUPIED ∧ (slot t idx).key = some k
      · rw [if_pos h2] at h
        simp only [Option.some.injEq] at h
        refine count_inv_update t t1 idx
          { key := none, value := none, state := SLOT_TOMBSTONE } hinv hidx
          (by rw [← h]) (by rw [← h]) ?_ ?_
        · rw [← h, h2.1]; simp [SLOT_TOMBSTONE, SLOT_OCCUPIED]
        · rw [← h, h2.1]; simp [SLOT_TOMBSTONE, SLOT_OCCUPIED]
      · rw [if_neg h2] at h
        exact ih _ t1 h (Nat.mod_lt _ hn)

theorem resize_loop_count_inv (fuel : Nat) :
    ∀ (es : List ht_entry) (t t1 : ht), count_inv t → ht_resize_loop fuel es t = some t1 →
      count_inv t1 := by
  intro es
  induction es with
  | nil => intro t t1 hinv h; simp only [ht_resize_loop, Option.some.injEq] at h; rw [← h]; exact hinv
  | cons e es ih =>
    intro t t1 hinv h
    rw [ht_resize_loop] at h
    by_cases hocc : e.state = SLOT_OCCUPIED
    · rw [if_pos hocc] at h
      cases hk : e.key with
      | none => rw [hk] at h; simp at h
      | some k =>
        cases hv : e.value with
        | none => rw [hk, hv] at h; simp at h
        | some v =>
          rw [hk, hv] at h
          simp only at h
          cases hput : ht_put_into fuel t k v with
          | none => rw [hput] at h; simp at h
          | some t2 =>
            rw [hput] at h
            simp only at h
            have h2 := put_loop_count_inv t k v hinv fuel _ _ t2 hput
              (Nat.mod_lt _ hinv.1) (Or.inl (by decide))
            exact ih t2 t1 h2 h
    · rw [if_neg hocc] at h
      exact ih t t1 hinv h

theorem count_inv_fresh (p : Nat) (hp : 0 < p) :
    count_inv { size := p, count := 0, tombs := 0, entries := List.replicate p zero_entry } :=
  (wf_fresh p hp).to_count_inv

theorem resize_count_inv (t : ht) (fuel : Nat) (ns : Int) (t1 : ht)
    (h : ht_resize fuel t ns = some t1) : count_inv t1 := by
  unfold ht_resize at h
  cases hnp : ht_next_prime fuel ns with
  | none => rw [hnp] at h; simp at h
  | some p =>
    rw [hnp] at h
    simp only at h
    obtain ⟨_, h2, _⟩ := ht_next_prime_sound fuel ns p hnp
    exact resize_loop_count_inv fuel _ _ t1 (count_inv_fresh p.toNat (by omega)) h

theorem insert_count_inv (t : ht) (hinv : count_inv t) (fuel : Nat) (k v : Str) (t1 : ht)
    (h : ht_insert fuel t k v = some t1) : count_inv t1 := by
  rw [insert_eq_put] at h
  cases hg : ht_maybe_grow fuel t with
  | none => rw [hg] at h; simp at h
  | some tg =>
    rw [hg] at h
    simp only at h
    have hgi : count_inv tg := by
      unfold ht_maybe_grow at hg
      split_ifs at hg
      · exact resize_count_inv t fuel _ tg hg
      · simp only [Option.some.injEq] at hg; rw [← hg]; exact hinv
    exact put_loop_count_inv tg k v hgi fuel _ _ t1 h (Nat.mod_lt _ hgi.1) (Or.inl (by decide))

theorem remove_count_inv (t : ht) (hinv : count_inv t) (fuel : Nat) (k : Str) (t1 : ht)
    (h : ht_remove fuel (some t) (some k) = some (some t1)) : count_inv t1 := by
  simp only [ht_remove, Option.map_eq_some', Option.some.injEq] at h
  obtain ⟨t2, h2, h3⟩ := h
  subst h3
  exact remove_loop_count_inv t k hinv fuel _ t2 h2 (Nat.mod_lt _ hinv.1)

/-! ## Lookup after a removal -/

theorem lookup_loop_congr (t t1 : ht) (k : Str) (hsize : t1.size = t.size)
    (hempty : ∀ i, (slot t1 i).state = SLOT_EMPTY ↔ (slot t i).state = SLOT_EMPTY)
    (hocc : ∀ i, ((slot t1 i).state = SLOT_OCCUPIED ∧ (slot t1 i).key = some k) ↔
      ((slot t i).state = SLOT_OCCUPIED ∧ (slot t i).key = some k))
    (hval : ∀ i, (slot t i).state = SLOT_OCCUPIED ∧ (slot t i).key = some k →
      (slot t1 i).value = (slot t i).value) :
    ∀ fuel idx, ht_lookup_loop t1 k fuel idx = ht_lookup_loop t k fuel idx := by
  intro fuel
  induction fuel with
  | zero => intro idx; rfl
  | succ fuel ih =>
    intro idx
    rw [ht_lookup_loop, ht_lookup_loop]
    by_cases h1 : (slot t idx).state = SLOT_EMPTY
    · rw [if_pos h1, if_pos ((hempty idx).mpr h1)]
    · rw [if_neg h1, if_neg (fun h => h1 ((hempty idx).mp h))]
      by_cases h2 : (slot t idx).state = SLOT_OCCUPIED ∧ (slot t idx).key = some k
      · rw [if_pos h2, if_pos ((hocc idx).mpr h2), hval idx h2]
      · rw [if_neg h2, if_neg (fun h => h2 ((hocc idx).mp h)), hsize, ih]

theorem remove_loop_shape (t : ht) (k : Str) :
    ∀ (fuel idx : Nat) (t1 : ht), ht_remove_loop t k fuel idx = some t1 →
      t1 = t ∨ ∃ T, (slot t T).state = SLOT_OCCUPIED ∧ (slot t T).key = some k ∧
        t1.size = t.size ∧
        t1.entries = t.entries.set T { key := none, value := none, state := SLOT_TOMBSTONE } := by
  intro fuel
  induction fuel with
  | zero => intro idx t1 h; simp [ht_remove_loop] at h
  | succ fuel ih =>
    intro idx t1 h
    rw [ht_remove_loop] at h
    by_cases h1 : (slot t idx).state = SLOT_EMPTY
    · rw [if_pos h1] at h
      simp only [Option.some.injEq] at h
      exact Or.inl h.symm
    · rw [if_neg h1] at h
      by_cases h2 : (slot t idx).state = SLOT_OCCUPIED ∧ (slot t idx).key = some k
      · rw [if_pos h2] at h
        simp only [Option.some.injEq] at h
        exact Or.inr ⟨idx, h2.1, h2.2, by rw [← h], by rw [← h]⟩
      · rw [if_neg h2] at h
        exact ih _ t1 h

theorem lookup_after_remove (t t1 : ht) (k k1 : Str) (hne : k ≠ k1) (fuel : Nat)
    (h : ht_remove fuel (some t) (some k) = some (some t1)) :
    ∀ f, ht_lookup f (some t1) (some k1) = ht_lookup f (some t) (some k1) := by
  simp only [ht_remove, Option.map_eq_some', Option.some.injEq] at h
  obtain ⟨t2, h2, h3⟩ := h
  subst h3
  intro f
  rcases remove_loop_shape t k fuel _ t2 h2 with heq | ⟨T, hs, hk, hsize, hent⟩
  · rw [heq]
  · simp only [ht_lookup]
    rw [hsize]
    have hTl : T < t.entries.length := by
      by_contra hc
      have : slot t T = zero_entry := by
        simp only [slot]
        rw [List.getElem?_eq_none (by omega)]; rfl
      rw [this] at hs
      simp [zero_entry] at hs
    have hself := slot_update_self t t2 T _ hent hTl
    have hother : ∀ i, i ≠ T → slot t2 i = slot t i :=
      fun i hi => slot_update_other t t2 T i _ hent hi
    refine lookup_loop_congr t t2 k1 hsize ?_ ?_ ?_ f _
    · intro i
      by_cases hi : i = T
      · subst hi; rw [hself, hs]; simp [SLOT_TOMBSTONE, SLOT_EMPTY]
      · rw [hother i hi]
    · intro i
      by_cases hi : i = T
      · subst hi; rw [hself, hk]
        simp only [SLOT_TOMBSTONE, SLOT_OCCUPIED, Option.some.injEq]
        constructor
        · intro h; omega
        · intro h; exact absurd h.2 hne
      · rw [hother i hi]
    · intro i hi
      by_cases hiT : i = T
      · subst hiT; rw [hk] at hi
        simp only [Option.some.injEq] at hi
        exact absurd hi.2 hne
      · rw [hother i hiT]

/-! ## Probes that never stop -/

theorem put_loop_diverges (t : ht) (k v : Str) (hsize : 0 < t.size)
    (hall : ∀ j, j < t.size → passes_put k (slot t j)) :
    ∀ (fuel idx : Nat) (ft : Int), idx < t.size → ht_put_into_loop t k v fuel idx ft = none := by
  intro fuel idx ft hidx
  cases hres : ht_put_into_loop t k v fuel idx ft with
  | none => rfl
  | some r =>
    obtain ⟨d, _, _, hstop⟩ := put_loop_trace t k v fuel idx ft r hres hidx
    exact absurd (hall _ (Nat.mod_lt _ hsize)) hstop

/-- With no growth due and every slot walked past, `ht_insert` never returns. -/
theorem insert_diverges (t : ht) (k v : Str) (hsize : 0 < t.size)
    (hkeep : ¬ (gt_two_thirds (ht_load_factor t) = true ∨
      t.tombs > ((t.size / 3 : Nat) : Int)))
    (hall : ∀ j, j < t.size → passes_put k (slot t j)) :
    ∀ fuel, ht_insert fuel t k v = none := by
  intro fuel
  rw [insert_eq_put]
  unfold ht_maybe_grow
  rw [if_neg hkeep]
  exact put_loop_diverges t k v hsize hall fuel _ _ (Nat.mod_lt _ hsize)

/-- On a well-formed table with an empty slot, `ht_remove` of a key that is not
stored returns the table as it was. -/
theorem remove_absent_noop (t : ht) (k : Str) (hwf : WF t) (hk : ¬ has_key t k)
    (hempty : ∃ j, j < t.size ∧ (slot t j).state = SLOT_EMPTY) :
    ∀ fuel, t.size ≤ fuel → ht_remove fuel (some t) (some k) = some (some t) := by
  obtain ⟨t1, hres, hpost⟩ := remove_total t k hwf (Or.inr hempty)
  rcases hpost.counts with ⟨h, _⟩ | ⟨_, heq⟩
  · exact absurd h hk
  · rw [heq] at hres; exact hres

/-! ## The reference map -/

theorem mem_ref_filter (m : List (Str × Str)) (k k0 v0 : Str) :
    (k0, v0) ∈ m.filter (fun kv => decide (kv.1 ≠ k)) ↔ ((k0, v0) ∈ m ∧ k0 ≠ k) := by
  simp [List.mem_filter]

theorem ref_filter_nodup (m : List (Str × Str)) (k : Str) (h : (m.map Prod.fst).Nodup) :
    ((m.filter (fun kv => decide (kv.1 ≠ k))).map Prod.fst).Nodup :=
  List.Nodup.sublist (List.Sublist.map _ (List.filter_sublist _)) h

theorem ref_filter_not_mem (m : List (Str × Str)) (k : Str) :
    k ∉ (m.filter (fun kv => decide (kv.1 ≠ k))).map Prod.fst := by
  intro h
  rw [List.mem_map] at h
  obtain ⟨⟨k0, v0⟩, hmem, hk⟩ := h
  rw [mem_ref_filter] at hmem
  exact hmem.2 hk

theorem ref_filter_length_absent :
    ∀ (m : List (Str × Str)) (k : Str), (∀ v, (k, v) ∉ m) →
      (m.filter (fun kv => decide (kv.1 ≠ k))).length = m.length := by
  intro m
  induction m with
  | nil => intro k _; rfl
  | cons x xs ih =>
    intro k h
    obtain ⟨k0, v0⟩ := x
    have hne : k0 ≠ k := by
      intro hk; subst hk; exact h v0 (List.mem_cons_self _ _)
    rw [List.filter_cons_of_pos (by simpa using hne)]
    simp only [List.length_cons]
    rw [ih k (fun v hv => h v (List.mem_cons_of_mem _ hv))]

theorem ref_filter_length_present :
    ∀ (m : List (Str × Str)) (k v : Str), (m.map Prod.fst).Nodup → (k, v) ∈ m →
      (m.filter (fun kv => decide (kv.1 ≠ k))).length + 1 = m.length := by
  intro m
  induction m with
  | nil => intro k v _ h; simp at h
  | cons x xs ih =>
    intro k v hnd hmem
    obtain ⟨k0, v0⟩ := x
    rw [List.map_cons, List.nodup_cons] at hnd
    by_cases hk : k0 = k
    · subst hk
      rw [List.filter_cons_of_neg (by simp)]
      simp only [List.length_cons]
      rw [ref_filter_length_absent xs k0]
      intro v1 hv1
      exact hnd.1 (List.mem_map.mpr ⟨(k0, v1), hv1, rfl⟩)
    · rw [List.filter_cons_of_pos (by simpa using hk)]
      simp only [List.length_cons]
      rcases List.mem_cons.mp hmem with h | h
      · simp only [Prod.mk.injEq] at h; exact absurd h.1.symm hk
      · rw [ih k v hnd.2 h]

theorem refines_fresh (S : Nat) : Refines (ht_create S) [] := by
  refine ⟨?_, by simp, rfl⟩
  intro k v
  constructor
  · intro h; exact absurd (has_key_of_present h) (no_key_fresh S k)
  · intro h; simp at h

theorem refines_has_key (t : ht) (m : List (Str × Str)) (hwf : WF t) (hr : Refines t m)
    (k : Str) : has_key t k ↔ ∃ v, (k, v) ∈ m := by
  constructor
  · intro h
    obtain ⟨v, hp⟩ := present_of_has_key hwf h
    exact ⟨v, (hr.same k v).mp hp⟩
  · rintro ⟨v, hv⟩
    exact has_key_of_present ((hr.same k v).mpr hv)

theorem refines_insert (t t1 : ht) (m : List (Str × Str)) (k v : Str) (hwf : WF t)
    (hr : Refines t m) (hp : InsertPost t k v t1) : Refines t1 (ref_insert m k v) := by
  unfold ref_insert
  refine ⟨?_, ?_, ?_⟩
  · intro k0 v0
    rw [List.mem_cons, mem_ref_filter]
    by_cases hk : k0 = k
    · subst hk
      constructor
      · intro h; exact Or.inl (by rw [present_unique hp.wf h hp.here])
      · rintro (h | h)
        · simp only [Prod.mk.injEq] at h; rw [h.2]; exact hp.here
        · exact absurd rfl h.2
    · rw [hp.frame k0 v0 hk, hr.same]
      constructor
      · intro h; exact Or.inr ⟨h, hk⟩
      · rintro (h | h)
        · simp only [Prod.mk.injEq] at h; exact absurd h.1 hk
        · exact h.1
  · rw [List.map_cons, List.nodup_cons]
    exact ⟨ref_filter_not_mem m k, ref_filter_nodup m k hr.nodup⟩
  · simp only [List.length_cons]
    rcases hp.counts with ⟨hk, hc⟩ | ⟨hk, hc⟩
    · obtain ⟨v1, hv1⟩ := (refines_has_key t m hwf hr k).mp hk
      have := ref_filter_length_present m k v1 hr.nodup hv1
      rw [hc, hr.count_eq]
      push_cast
      omega
    · have hab : ∀ v1, (k, v1) ∉ m := fun v1 hv1 =>
        hk ((refines_has_key t m hwf hr k).mpr ⟨v1, hv1⟩)
      rw [hc, hr.count_eq, ref_filter_length_absent m k hab]
      push_cast
      rfl

theorem refines_remove (t t1 : ht) (m : List (Str × Str)) (k : Str) (hwf : WF t)
    (hr : Refines t m) (hp : RemovePost t k t1) : Refines t1 (ref_remove m k) := by
  unfold ref_remove
  refine ⟨?_, ref_filter_nodup m k hr.nodup, ?_⟩
  · intro k0 v0
    rw [mem_ref_filter]
    by_cases hk : k0 = k
    · subst hk
      constructor
      · intro h; exact absurd (has_key_of_present h) hp.gone
      · intro h; exact absurd rfl h.2
    · rw [hp.frame k0 v0 hk, hr.same]
      constructor
      · intro h; exact ⟨h, hk⟩
      · intro h; exact h.1
  · rcases hp.counts with ⟨hk, hc, _⟩ | ⟨hk, heq⟩
    · obtain ⟨v1, hv1⟩ := (refines_has_key t m hwf hr k).mp hk
      have := ref_filter_length_present m k v1 hr.nodup hv1
      rw [hc, hr.count_eq]
      omega
    · have hab : ∀ v1, (k, v1) ∉ m := fun v1 hv1 =>
        hk ((refines_has_key t m hwf hr k).mpr ⟨v1, hv1⟩)
      rw [heq, hr.count_eq, ref_filter_length_absent m k hab]

theorem refines_run (fuel : Nat) :
    ∀ (ops : List Op) (t t1 : ht) (m : List (Str × Str)), WF t → Refines t m →
      run fuel t ops = some t1 → Refines t1 (replay m ops) := by
  intro ops
  induction ops with
  | nil =>
    intro t t1 m _ hr h
    simp only [run, Option.some.injEq] at h
    rw [← h]; exact hr
  | cons op ops ih =>
    intro t t1 m hwf hr h
    rw [run] at h
    cases hs : step fuel t op with
    | none => rw [hs] at h; simp at h
    | some t2 =>
      rw [hs] at h
      simp only at h
      have hwf2 := (step_wf t hwf fuel op t2 hs).1
      cases op with
      | insert k v =>
        exact ih t2 t1 _ hwf2 (refines_insert t t2 m k v hwf hr
          (insert_sound t k v hwf fuel t2 hs)) h
      | remove k =>
        exact ih t2 t1 _ hwf2 (refines_remove t t2 m k hwf hr
          (remove_sound t k hwf fuel t2 ((step_remove_iff fuel t t2 k).mp hs))) h
      | lookup k =>
        have := step_lookup_eq fuel t t2 k hs
        subst this
        exact ih t2 t1 _ hwf2 hr h

/-! ## Inserting a list of pairs -/

theorem insert_all_spec :
    ∀ (kvs : List (Str × Str)) (t : ht), WF t → t.tombs = 0 → (kvs.map Prod.fst).Nodup →
      ∃ t1 N, (∀ fuel, N ≤ fuel → ht_insert_all fuel t kvs = some t1) ∧ WF t1 ∧
        (∀ kv, kv ∈ kvs → present t1 kv.1 kv.2) ∧
        (∀ k v, present t k v → k ∉ kvs.map Prod.fst → present t1 k v) := by
  intro kvs
  induction kvs with
  | nil =>
    intro t hwf _ _
    exact ⟨t, 0, fun _ _ => rfl, hwf, by simp, fun _ _ h _ => h⟩
  | cons kv kvs ih =>
    intro t hwf htb hnd
    obtain ⟨k, v⟩ := kv
    rw [List.map_cons, List.nodup_cons] at hnd
    obtain ⟨t2, N2, hins⟩ := insert_total t k v hwf (Or.inr (Or.inl htb))
    have hpost := insert_sound t k v hwf N2 t2 (hins N2 (le_refl _))
    obtain ⟨t1, N1, hall, hwf1, hpres, hkeep⟩ := ih t2 hpost.wf (hpost.tombs_zero htb) hnd.2
    refine ⟨t1, max N2 N1, ?_, hwf1, ?_, ?_⟩
    · intro fuel hf
      rw [ht_insert_all]
      simp only
      rw [hins fuel (le_trans (le_max_left _ _) hf)]
      exact hall fuel (le_trans (le_max_right _ _) hf)
    · intro kv hkv
      rcases List.mem_cons.mp hkv with h | h
      · subst h
        exact hkeep k v hpost.here hnd.1
      · exact hpres kv h
    · intro k0 v0 hp hnot
      rw [List.map_cons, List.mem_cons] at hnot
      push_neg at hnot
      exact hkeep k0 v0 ((hpost.frame k0 v0 hnot.1).mpr hp) hnot.2

/-! ## Keys for a chosen slot -/

theorem djb2_loop_snoc (c : Nat) :
    ∀ (s : Str) (h : Nat),
      ht_hash_djb2_loop h (s ++ [c]) = (ht_hash_djb2_loop h s * 33 + c) % ULONG_MOD := by
  intro s
  induction s with
  | nil => intro h; rfl
  | cons x xs ih => intro h; simp only [List.cons_append, ht_hash_djb2_loop]; exact ih _

theorem base33_key_hash :
    ∀ (len z : Nat), z < 33 ^ len → base33_hash len + z < ULONG_MOD →
      ht_hash_djb2 (base33_key len z) = base33_hash len + z := by
  intro len
  induction len with
  | zero =>
    intro z hz _
    have : z = 0 := by simpa using hz
    subst this; rfl
  | succ len ih =>
    intro z hz hlt
    have hdiv : z / 33 < 33 ^ len := by
      apply Nat.div_lt_of_lt_mul
      rw [pow_succ] at hz; omega
    have hb : base33_hash (len + 1) = 33 * base33_hash len + 1 := rfl
    rw [hb] at hlt ⊢
    have hlt1 : base33_hash len + z / 33 < ULONG_MOD := by omega
    have := ih (z / 33) hdiv hlt1
    unfold ht_hash_djb2 at this ⊢
    rw [base33_key, djb2_loop_snoc, this]
    have hz2 : (base33_hash len + z / 33) * 33 + (z % 33 + 1) = 33 * base33_hash len + 1 + z := by
      omega
    rw [hz2]
    exact Nat.mod_eq_of_lt hlt

theorem base33_hash_seven : base33_hash 7 = 229331173485580 := by decide

/-- The key `key_at n r` has its home in slot `r`. -/
theorem index_key_at (n r : Nat) (hle : n ≤ 2 ^ 31) (hr : r < n) :
    ht_index_for (key_at n r) n = r := by
  have hn : 0 < n := by omega
  unfold ht_index_for key_at
  have hz : (r + n - base33_hash 7 % n) % n < n := Nat.mod_lt _ hn
  have ha : base33_hash 7 % n < n := Nat.mod_lt _ hn
  have hA : base33_hash 7 < 2 ^ 48 := by rw [base33_hash_seven]; norm_num
  have hle2 : n ≤ 2147483648 := by norm_num at hle; exact hle
  rw [base33_key_hash 7 _ (by norm_num; omega)
    (by unfold ULONG_MOD; norm_num at hA ⊢; omega)]
  rw [Nat.add_mod]
  by_cases hc : base33_hash 7 % n ≤ r
  · have h1 : (r + n - base33_hash 7 % n) % n = r - base33_hash 7 % n := by
      rw [show r + n - base33_hash 7 % n = (r - base33_hash 7 % n) + n by omega,
        Nat.add_mod_right]
      exact Nat.mod_eq_of_lt (by omega)
    rw [h1, Nat.mod_eq_of_lt (show r - base33_hash 7 % n < n by omega),
      show base33_hash 7 % n + (r - base33_hash 7 % n) = r by omega]
    exact Nat.mod_eq_of_lt hr
  · have h1 : (r + n - base33_hash 7 % n) % n = r + n - base33_hash 7 % n :=
      Nat.mod_eq_of_lt (by omega)
    rw [h1, Nat.mod_eq_of_lt (show r + n - base33_hash 7 % n < n by omega),
      show base33_hash 7 % n + (r + n - base33_hash 7 % n) = r + n by omega,
      Nat.add_mod_right]
    exact Nat.mod_eq_of_lt hr

theorem unary_key_inj (i j : Nat) (h : unary_key i = unary_key j) : i = j := by
  have := congrArg List.length h
  simpa [unary_key] using this

/-! ## Filling a table of any size -/

theorem countP_three_le (l : List ht_entry) :
    l.countP (fun e => decide (e.state = SLOT_OCCUPIED)) +
      l.countP (fun e => decide (e.state = SLOT_TOMBSTONE)) +
      l.countP (fun e => decide (e.state = SLOT_EMPTY)) ≤ l.length := by
  induction l with
  | nil => simp
  | cons x xs ih =>
    simp only [List.countP_cons, List.length_cons, decide_eq_true_eq]
    by_cases h1 : x.state = SLOT_OCCUPIED
    · have h2 : ¬ (x.state = SLOT_TOMBSTONE) := by rw [h1]; decide
      have h3 : ¬ (x.state = SLOT_EMPTY) := by rw [h1]; decide
      rw [if_pos h1, if_neg h2, if_neg h3]; omega
    · by_cases h2 : x.state = SLOT_TOMBSTONE
      · have h3 : ¬ (x.state = SLOT_EMPTY) := by rw [h2]; decide
        rw [if_neg h1, if_pos h2, if_neg h3]; omega
      · rw [if_neg h1, if_neg h2]; split_ifs <;> omega

/-- When the counters add up to `size`, no slot is empty. -/
theorem no_empty_of_counts (t : ht) (hwf : WF t) (h : t.count + t.tombs = (t.size : Int)) :
    ∀ j, j < t.size → (slot t j).state ≠ SLOT_EMPTY := by
  intro j hj he
  have hjl : j < t.entries.length := by rw [hwf.length_eq]; exact hj
  have hpos : 0 < t.entries.countP (fun e => decide (e.state = SLOT_EMPTY)) := by
    rw [List.countP_pos_iff]
    exact ⟨t.entries[j], List.getElem_mem _, by
      rw [← slot_eq_getElem t j hjl]; simpa using he⟩
  have h3 := countP_three_le t.entries
  have h1 := hwf.count_eq
  have h2 := hwf.tombs_eq
  have h4 := hwf.length_eq
  unfold occupied_slots at h1
  unfold tombstone_slots at h2
  omega

theorem insert_at_empty_home (t : ht) (k v : Str)
    (hkeep : ¬ (gt_two_thirds (ht_load_factor t) = true ∨
      t.tombs > ((t.size / 3 : Nat) : Int)))
    (he : (slot t (ht_index_for k t.size)).state = SLOT_EMPTY) (fuel : Nat) :
    ht_insert (fuel + 1) t k v =
      some { t with
        entries := t.entries.set (ht_index_for k t.size)
          { key := some k, value := some v, state := SLOT_OCCUPIED }
        count := t.count + 1 } := by
  rw [insert_eq_put]
  unfold ht_maybe_grow
  rw [if_neg hkeep]
  simp only [ht_put_into]
  rw [ht_put_into_loop, if_pos he]
  simp

theorem remove_at_home (t : ht) (k : Str)
    (hs : (slot t (ht_index_for k t.size)).state = SLOT_OCCUPIED ∧
      (slot t (ht_index_for k t.size)).key = some k) (fuel : Nat) :
    ht_remove (fuel + 1) (some t) (some k) =
      some (some { t with
        entries := t.entries.set (ht_index_for k t.size)
          { key := none, value := none, state := SLOT_TOMBSTONE }
        count := t.count - 1
        tombs := t.tombs + 1 }) := by
  simp only [ht_remove]
  rw [ht_remove_loop, if_neg (by rw [hs.1]; decide), if_pos hs]
  rfl

/-- One round: insert a key whose home is an empty slot, then remove it. The
slot is left as a tombstone. -/
theorem tombstone_round (S : Nat) (t : ht) (hr : Reachable S t) (hwf : WF t)
    (h31 : t.size ≤ 2 ^ 31)
    (hkeep : ¬ (2 * (t.size : Int) < 3 * t.count ∨ ((t.size / 3 : Nat) : Int) < t.tombs))
    (hroom : t.count + t.tombs < (t.size : Int)) :
    ∃ k v t1 t2, ht_insert 1 t k v = some t1 ∧
      ht_remove 1 (some t1) (some k) = some (some t2) ∧
      Reachable S t1 ∧ Reachable S t2 ∧
      t1.size = t.size ∧ t1.count = t.count + 1 ∧ t1.tombs = t.tombs ∧
      t2.size = t.size ∧ t2.count = t.count ∧ t2.tombs = t.tombs + 1 := by
  obtain ⟨j, hj, he⟩ := exists_empty_of_counts t hwf hroom
  have hhome := index_key_at t.size j h31 hj
  have hkeep1 : ¬ (gt_two_thirds (ht_load_factor t) = true ∨
      t.tombs > ((t.size / 3 : Nat) : Int)) := by
    rw [grow_cond_iff t hwf.size_pos]; exact hkeep
  have hins := insert_at_empty_home t (key_at t.size j) [1] hkeep1 (by rw [hhome]; exact he) 0
  rw [hhome] at hins
  obtain ⟨t1, ht1⟩ : ∃ t1 : ht, t1 = { t with
      entries := t.entries.set j
        { key := some (key_at t.size j), value := some [1], state := SLOT_OCCUPIED }
      count := t.count + 1 } := ⟨_, rfl⟩
  rw [← ht1] at hins
  have hs1 : t1.size = t.size := by rw [ht1]
  have hslot : slot t1 j =
      { key := some (key_at t.size j), value := some [1], state := SLOT_OCCUPIED } :=
    slot_update_self t t1 j _ (by rw [ht1]) (by rw [hwf.length_eq]; exact hj)
  have hrem := remove_at_home t1 (key_at t.size j)
    (by rw [hs1, hhome, hslot]; exact ⟨rfl, rfl⟩) 0
  have hidx : ht_index_for (key_at t.size j) t1.size = j := by rw [hs1]; exact hhome
  rw [hidx] at hrem
  have hr1 : Reachable S t1 := Reachable.step 1 t t1 (Op.insert (key_at t.size j) [1]) hr hins
  have hr2 := Reachable.step 1 t1 _ (Op.remove (key_at t.size j)) hr1
    ((step_remove_iff 1 t1 _ (key_at t.size j)).mpr hrem)
  refine ⟨key_at t.size j, [1], t1, _, hins, hrem, hr1, hr2, hs1, by rw [ht1], by rw [ht1],
    hs1, ?_, ?_⟩
  · show t1.count - 1 = t.count
    rw [ht1]; simp
  · show t1.tombs + 1 = t.tombs + 1
    rw [ht1]

/-- Inserting the keys `unary_key 0`, `unary_key 1`, ... into a fresh table: as
long as the grow check stays quiet the table keeps its size and counts the keys. -/
theorem fill_reachable (S : Nat) (hS : 0 < S) :
    ∀ j, 3 * j ≤ 2 * S + 3 →
      ∃ t, Reachable S t ∧ t.size = S ∧ t.count = (j : Int) ∧ t.tombs = 0 ∧
        ∀ k, has_key t k → ∃ i, i < j ∧ k = unary_key i := by
  intro j
  induction j with
  | zero =>
    intro _
    refine ⟨ht_create S, Reachable.create, rfl, rfl, rfl, ?_⟩
    intro k hk
    exact absurd hk (no_key_fresh S k)
  | succ j ih =>
    intro hj
    obtain ⟨t, hr, hsize, hcount, htombs, hkeys⟩ := ih (by omega)
    have hwf := (reachable_wf S hS t hr).1
    obtain ⟨t1, N, hins⟩ := insert_total t (unary_key j) [1] hwf (Or.inr (Or.inl htombs))
    have hpost := insert_sound t (unary_key j) [1] hwf N t1 (hins N (le_refl _))
    have hnew : ¬ has_key t (unary_key j) := by
      intro hk
      obtain ⟨i, hi, heq⟩ := hkeys _ hk
      have := unary_key_inj _ _ heq
      omega
    refine ⟨t1, Reachable.step N t t1 (Op.insert (unary_key j) [1]) hr (hins N (le_refl _)),
      ?_, ?_, hpost.tombs_zero htombs, ?_⟩
    · rw [hpost.keep (by rw [hsize, hcount, htombs]; omega), hsize]
    · rcases hpost.counts with ⟨hk, _⟩ | ⟨_, hc⟩
      · exact absurd hk hnew
      · rw [hc, hcount]; push_cast; ring
    · intro k hk
      by_cases hkj : k = unary_key j
      · exact ⟨j, by omega, hkj⟩
      · obtain ⟨v, hp⟩ := present_of_has_key hpost.wf hk
        obtain ⟨i, hi, heq⟩ := hkeys k (has_key_of_present ((hpost.frame k v hkj).mp hp))
        exact ⟨i, by omega, heq⟩

/-- Tombstones can be piled up next to `2 * S / 3` entries without a resize. -/
theorem tombs_reachable (S : Nat) (hS : 0 < S) (h31 : S ≤ 2 ^ 31) :
    ∀ n, 2 * S / 3 + n < S →
      ∃ t, Reachable S t ∧ t.size = S ∧ t.count = ((2 * S / 3 : Nat) : Int) ∧
        t.tombs = (n : Int) := by
  intro n
  induction n with
  | zero =>
    intro _
    obtain ⟨t, hr, hsize, hcount, htombs, _⟩ := fill_reachable S hS (2 * S / 3) (by omega)
    exact ⟨t, hr, hsize, hcount, htombs⟩
  | succ n ih =>
    intro hn
    obtain ⟨t, hr, hsize, hcount, htombs⟩ := ih (by omega)
    have hwf := (reachable_wf S hS t hr).1
    obtain ⟨k, v, t1, t2, _, _, _, hr2, _, _, _, hs2, hc2, htb2⟩ :=
      tombstone_round S t hr hwf (by rw [hsize]; exact h31)
        (by rw [hsize, hcount, htombs]; omega)
        (by rw [hsize, hcount, htombs]; omega)
    exact ⟨t2, hr2, by rw [hs2, hsize], by rw [hc2, hcount], by rw [htb2, htombs]; push_cast; ring⟩

/-- Whatever the starting size, some reachable table `t` and key `k` are such
that `ht_insert t k v` fills the last empty slot, `ht_remove` of `k` leaves a
table without empty slot, and `ht_lookup` and `ht_remove` of the now absent `k`
never return. -/
theorem probe_never_returns (START_SIZE : Nat) (hpos : 0 < START_SIZE)
    (hint : START_SIZE ≤ 2147483647) :
    ∃ t k v t1 t2, Reachable START_SIZE t ∧ ht_insert 1 t k v = some t1 ∧
      ht_remove 1 (some t1) (some k) = some (some t2) ∧
      (∀ fuel, ht_lookup fuel (some t2) (some k) = none) ∧
      Reachable START_SIZE t2 ∧ ¬ has_key t2 k ∧
      (∀ fuel, ht_remove fuel (some t2) (some k) = none) := by
  have h31 : START_SIZE ≤ 2 ^ 31 := by norm_num; omega
  obtain ⟨t, hr, hsize, hcount, htombs⟩ :=
    tombs_reachable START_SIZE hpos h31 (START_SIZE - 1 - 2 * START_SIZE / 3) (by omega)
  have hwf := (reachable_wf START_SIZE hpos t hr).1
  obtain ⟨k, v, t1, t2, hins, hrem, hr1, hr2, _, _, _, hs2, hc2, htb2⟩ :=
    tombstone_round START_SIZE t hr hwf (by rw [hsize]; exact h31)
      (by rw [hsize, hcount, htombs]; omega)
      (by rw [hsize, hcount, htombs]; omega)
  have hwf1 := (reachable_wf START_SIZE hpos t1 hr1).1
  have hwf2 := (reachable_wf START_SIZE hpos t2 hr2).1
  have hgone := (remove_sound t1 k hwf1 1 t2 hrem).gone
  have hfull := no_empty_of_counts t2 hwf2 (by rw [hc2, htb2, hs2, hcount, htombs, hsize]; omega)
  have hpass : ∀ j, j < t2.size → passes k (slot t2 j) := by
    intro j hj
    exact ⟨hfull j hj, fun h => hgone ⟨j, hj, h.1, h.2⟩⟩
  exact ⟨t, k, v, t1, t2, hr, hins, hrem, lookup_diverges t2 k hwf2.size_pos hpass, hr2, hgone,
    remove_diverges t2 k hwf2.size_pos hpass⟩

/-- Whatever the starting size, some insert on a reachable table returns with
more than two thirds of the slots occupied. -/
theorem load_bound_exceeded (START_SIZE : Nat) (hpos : 0 < START_SIZE) :
    ∃ t k v t1 N, Reachable START_SIZE t ∧
      (∀ fuel, N ≤ fuel → ht_insert fuel t k v = some t1) ∧
      2 * (t1.size : Int) < 3 * t1.count := by
  obtain ⟨t, hr, hsize, hcount, htombs, hkeys⟩ :=
    fill_reachable START_SIZE hpos (2 * START_SIZE / 3) (by omega)
  have hwf := (reachable_wf START_SIZE hpos t hr).1
  obtain ⟨t1, N, hins⟩ :=
    insert_total t (unary_key (2 * START_SIZE / 3)) [1] hwf (Or.inr (Or.inl htombs))
  have hpost := insert_sound t (unary_key (2 * START_SIZE / 3)) [1] hwf N t1
    (hins N (le_refl _))
  have hnew : ¬ has_key t (unary_key (2 * START_SIZE / 3)) := by
    intro hk
    obtain ⟨i, hi, heq⟩ := hkeys _ hk
    have := unary_key_inj _ _ heq
    omega
  refine ⟨t, _, [1], t1, N, hr, hins, ?_⟩
  rw [hpost.keep (by rw [hsize, hcount, htombs]; omega), hsize]
  rcases hpost.counts with ⟨hk, _⟩ | ⟨_, hc⟩
  · exact absurd hk hnew
  · rw [hc, hcount]; omega

/-- With `START_SIZE = 3` the grow check can leave a table without empty slot:
two entries and one tombstone pass it, and `ht_insert` of a new key then never
returns. -/
theorem insert_diverges_at_three :
    run 10 (ht_create 3)
        [Op.insert [97] [1], Op.insert [98] [2], Op.insert [99] [3], Op.remove [99]] =
        some ex_size_three ∧
      ∀ fuel, ht_insert fuel ex_size_three [100] [4] = none :=
  ⟨by decide,
    insert_diverges ex_size_three [100] [4] (by decide) (by decide)
      (by unfold passes_put; decide)⟩

/-! ## Sizes along resizes -/

theorem put_loop_size (t : ht) (k v : Str) :
    ∀ (fuel idx : Nat) (ft : Int) (t1 : ht), ht_put_into_loop t k v fuel idx ft = some t1 →
      t1.size = t.size := by
  intro fuel
  induction fuel with
  | zero => intro idx ft t1 h; simp [ht_put_into_loop] at h
  | succ fuel ih =>
    intro idx ft t1 h
    rw [ht_put_into_loop] at h
    by_cases h1 : (slot t idx).state = SLOT_EMPTY
    · rw [if_pos h1] at h
      simp only [Option.some.injEq] at h
      rw [← h]
    · rw [if_neg h1] at h
      by_cases h2 : (slot t idx).state = SLOT_TOMBSTONE
      · rw [if_pos h2] at h; exact ih _ _ t1 h
      · rw [if_neg h2] at h
        by_cases h3 : (slot t idx).key = some k
        · rw [if_pos h3] at h
          simp only [Option.some.injEq] at h
          rw [← h]
        · rw [if_neg h3] at h; exact ih _ _ t1 h

theorem resize_loop_size (fuel : Nat) :
    ∀ (es : List ht_entry) (t t1 : ht), ht_resize_loop fuel es t = some t1 →
      t1.size = t.size := by
  intro es
  induction es with
  | nil => intro t t1 h; simp only [ht_resize_loop, Option.some.injEq] at h; rw [← h]
  | cons e es ih =>
    intro t t1 h
    rw [ht_resize_loop] at h
    by_cases hocc : e.state = SLOT_OCCUPIED
    · rw [if_pos hocc] at h
      cases hk : e.key with
      | none => rw [hk] at h; simp at h
      | some k =>
        cases hv : e.value with
        | none => rw [hk, hv] at h; simp at h
        | some v =>
          rw [hk, hv] at h
          simp only at h
          cases hput : ht_put_into fuel t k v with
          | none => rw [hput] at h; simp at h
          | some t2 =>
            rw [hput] at h
            simp only at h
            rw [ih t2 t1 h]
            exact put_loop_size t k v fuel _ _ t2 hput
    · rw [if_neg hocc] at h
      exact ih t t1 h

/-- The size after `ht_resize` is what `ht_next_prime` returned. -/
theorem resize_size (fuel : Nat) (t : ht) (ns : Int) (t1 : ht)
    (h : ht_resize fuel t ns = some t1) :
    ∃ p, ht_next_prime fuel ns = some p ∧ t1.size = p.toNat := by
  unfold ht_resize at h
  cases hnp : ht_next_prime fuel ns with
  | none => rw [hnp] at h; simp at h
  | some p =>
    rw [hnp] at h
    simp only at h
    exact ⟨p, rfl, resize_loop_size fuel _ _ t1 h⟩

/-- No prime lies between `n` and a result of `ht_next_prime`. -/
theorem ht_next_prime_minimal (fuel : Nat) (n p : Int) (h : ht_next_prime fuel n = some p)
    (q : Nat) (hq : Nat.Prime q) (hnq : n ≤ (q : Int)) : p ≤ (q : Int) := by
  unfold ht_next_prime at h
  by_cases h2 : n ≤ 2
  · rw [if_pos h2] at h
    simp only [Option.some.injEq] at h
    have := hq.two_le
    omega
  · rw [if_neg h2] at h
    obtain ⟨j, hj, _, hmin⟩ := next_prime_loop_sound fuel fuel _ p h
    have hqodd : q % 2 = 1 := by
      rcases Nat.Prime.eq_two_or_odd hq with h0 | h0
      · omega
      · exact h0
    by_contra hlt
    push_neg at hlt
    by_cases hev : n % 2 = 0
    · rw [if_pos hev] at hj hmin
      have hi := hmin (((q : Int) - (n + 1)) / 2).toNat (by omega)
      have hval : (n + 1 + 2 * ((((q : Int) - (n + 1)) / 2).toNat : Int)).toNat = q := by omega
      rw [hval] at hi
      exact hi hq
    · rw [if_neg hev] at hj hmin
      have hi := hmin (((q : Int) - n) / 2).toNat (by omega)
      have hval : (n + 2 * ((((q : Int) - n) / 2).toNat : Int)).toNat = q := by omega
      rw [hval] at hi
      exact hi hq

/-- The size after `ht_insert` is the old one, or the grow check fired and the
size is the first prime from twice the old one on. -/
theorem insert_size_cases (t : ht) (hwf : WF t) (fuel : Nat) (k v : Str) (t1 : ht)
    (h : ht_insert fuel t k v = some t1) :
    t1.size = t.size ∨
      ((2 * (t.size : Int) < 3 * t.count ∨ ((t.size / 3 : Nat) : Int) < t.tombs) ∧
        Nat.Prime t1.size ∧ 2 * t.size ≤ t1.size ∧
        ∀ q, Nat.Prime q → 2 * t.size ≤ q → t1.size ≤ q) := by
  rw [insert_eq_put] at h
  cases hg : ht_maybe_grow fuel t with
  | none => rw [hg] at h; simp at h
  | some tg =>
    rw [hg] at h
    simp only at h
    have hs := put_loop_size tg k v fuel _ _ t1 h
    rw [hs]
    unfold ht_maybe_grow at hg
    by_cases hc : gt_two_thirds (ht_load_factor t) = true ∨ t.tombs > ((t.size / 3 : Nat) : Int)
    · rw [if_pos hc] at hg
      right
      obtain ⟨p, hp, hsz⟩ := resize_size fuel t _ tg hg
      obtain ⟨hge, h2, hprime⟩ := ht_next_prime_sound fuel _ p hp
      rw [hsz]
      refine ⟨(grow_cond_iff t hwf.size_pos).mp hc, hprime, by omega, ?_⟩
      intro q hq hle
      have := ht_next_prime_minimal fuel _ p hp q hq (by omega)
      omega
    · rw [if_neg hc] at hg
      left
      simp only [Option.some.injEq] at hg
      rw [hg]

/-- With `tombs = 0` no slot is a tombstone. -/
theorem no_tombstone_of_tombs_zero (t : ht) (hwf : WF t) (h0 : t.tombs = 0) :
    ∀ j, j < t.size → (slot t j).state ≠ SLOT_TOMBSTONE := by
  intro j hj hs
  have hjl : j < t.entries.length := by rw [hwf.length_eq]; exact hj
  have hpos : 0 < t.entries.countP (fun e => decide (e.state = SLOT_TOMBSTONE)) := by
    rw [List.countP_pos_iff]
    exact ⟨t.entries[j], List.getElem_mem _, by
      rw [← slot_eq_getElem t j hjl]; simpa using hs⟩
  have h2 := hwf.tombs_eq
  unfold tombstone_slots at h2
  omega

/-! ## Induction along `ht_insert_all` -/

theorem insert_all_induct (fuel : Nat) :
    ∀ (kvs : List (Str × Str)) (R : Nat → ht → Prop) (t0 t : ht), R 0 t0 →
      (∀ i t1 t2 kv, R i t1 → kvs[i]? = some kv →
        ht_insert fuel t1 kv.1 kv.2 = some t2 → R (i + 1) t2) →
      ht_insert_all fuel t0 kvs = some t → R kvs.length t := by
  intro kvs
  induction kvs with
  | nil =>
    intro R t0 t h0 _ h
    simp only [ht_insert_all, Option.some.injEq] at h
    rw [← h]; exact h0
  | cons kv kvs ih =>
    intro R t0 t h0 hstep h
    rw [ht_insert_all] at h
    cases hins : ht_insert fuel t0 kv.1 kv.2 with
    | none => rw [hins] at h; simp at h
    | some t1 =>
      rw [hins] at h
      simp only at h
      have h1 : R 1 t1 := hstep 0 t0 t1 kv h0 (by simp) hins
      exact ih (fun i t => R (i + 1) t) t1 t h1
        (fun i ta tb kv1 hR hget hi => hstep (i + 1) ta tb kv1 hR (by simpa using hget) hi) h

/-! ## The keys of `test_resize` -/

theorem city_key_inj (i j : Nat) (h : city_key i = city_key j) : i = j := by
  unfold city_key decimal at h
  by_cases h1 : i < 10 <;> by_cases h2 : j < 10 <;> simp [h1, h2] at h <;> omega

theorem city_pairs_get (i : Nat) (kv : Str × Str) (h : city_pairs[i]? = some kv) :
    i < 100 ∧ kv = (city_key i, postal_value i) := by
  unfold city_pairs at h
  rw [List.getElem?_map] at h
  by_cases hi : i < 100
  · rw [List.getElem?_range hi] at h
    simp only [Option.map_some', Option.some.injEq] at h
    exact ⟨hi, h.symm⟩
  · rw [List.getElem?_eq_none (by simpa using hi)] at h
    simp at h

theorem city_pairs_nodup : (city_pairs.map Prod.fst).Nodup := by
  unfold city_pairs
  rw [List.map_map]
  refine List.Nodup.map_on ?_ (List.nodup_range 100)
  intro x hx y hy hxy
  exact city_key_inj x y hxy

theorem city_pairs_length : city_pairs.length = 100 := by
  simp [city_pairs]

/-- The run of `test_resize` from a fresh table of `S` slots: all hundred inserts
return, and a property `Q` of the size that every growth step keeps holds at the
end. -/
theorem city_run (S : Nat) (hpos : 0 < S) (Q : Nat → Prop) (h0 : Q S)
    (hgrow : ∀ i z z1, i < 100 → Q z → 2 * z < 3 * i → Nat.Prime z1 → 2 * z ≤ z1 →
      (∀ q, Nat.Prime q → 2 * z ≤ q → z1 ≤ q) → Q z1) :
    ∃ t N, (∀ fuel, N ≤ fuel → ht_insert_all fuel (ht_create S) city_pairs = some t) ∧
      WF t ∧ t.count = 100 ∧ t.tombs = 0 ∧ Q t.size ∧ 297 ≤ 2 * t.size ∧
      ∀ i, i < 100 → present t (city_key i) (postal_value i) := by
  obtain ⟨t, N, hall, hwf, hpres, _⟩ :=
    insert_all_spec city_pairs (ht_create S) (wf_fresh S hpos) rfl city_pairs_nodup
  have hR := insert_all_induct N city_pairs
    (fun i t => WF t ∧ t.tombs = 0 ∧ t.count = (i : Int) ∧ Q t.size ∧
      (∀ k, has_key t k → ∃ j, j < i ∧ k = city_key j) ∧
      (0 < i → 3 * (t.count - 1) ≤ 2 * (t.size : Int)))
    (ht_create S) t
    ⟨wf_fresh S hpos, rfl, rfl, h0, fun k hk => absurd hk (no_key_fresh S k),
      fun h => absurd h (by omega)⟩
    (by
      intro i t1 t2 kv hR hget hins
      obtain ⟨hwf1, htb1, hc1, hQ1, hkeys1, _⟩ := hR
      obtain ⟨hi, hkv⟩ := city_pairs_get i kv hget
      subst hkv
      simp only at hins
      have hpost := insert_sound t1 _ _ hwf1 N t2 hins
      have hnew : ¬ has_key t1 (city_key i) := by
        intro hk
        obtain ⟨j, hj, hjk⟩ := hkeys1 _ hk
        have := city_key_inj i j hjk
        omega
      refine ⟨hpost.wf, hpost.tombs_zero htb1, ?_, ?_, ?_, fun _ => hpost.load⟩
      · rcases hpost.counts with ⟨hk, _⟩ | ⟨_, hc⟩
        · exact absurd hk hnew
        · rw [hc, hc1]; push_cast; ring
      · rcases insert_size_cases t1 hwf1 N _ _ t2 hins with hs | ⟨hc, hp, hge, hmin⟩
        · rw [hs]; exact hQ1
        · refine hgrow i t1.size t2.size hi hQ1 ?_ hp hge hmin
          rw [hc1, htb1] at hc
          omega
      · intro k hk
        by_cases hki : k = city_key i
        · exact ⟨i, by omega, hki⟩
        · obtain ⟨v, hp⟩ := present_of_has_key hpost.wf hk
          obtain ⟨j, hj, hjk⟩ := hkeys1 k (has_key_of_present ((hpost.frame k v hki).mp hp))
          exact ⟨j, by omega, hjk⟩)
    (hall N (le_refl _))
  rw [city_pairs_length] at hR
  obtain ⟨_, htb, hc, hQ, _, hload⟩ := hR
  refine ⟨t, N, hall, hwf, hc, htb, hQ, ?_, ?_⟩
  · have := hload (by omega)
    rw [hc] at this
    omega
  · intro i hi
    refine hpres (city_key i, postal_value i) ?_
    unfold city_pairs
    exact List.mem_map.mpr ⟨i, List.mem_range.mpr hi, rfl⟩

/-! ## The hash on bytes in memory, and the index with its casts -/

theorem djb2_mem_loop_eq :
    ∀ (s : Str) (h : Nat) (rest : List Nat), (∀ c, c ∈ s → 0 < c ∧ c < 256) →
      ht_hash_djb2_mem_loop h (s ++ 0 :: rest) = ht_hash_djb2_loop h s := by
  intro s
  induction s with
  | nil => intro h rest _; simp [ht_hash_djb2_mem_loop, ht_hash_djb2_loop]
  | cons c s ih =>
    intro h rest hs
    obtain ⟨h0, h256⟩ := hs c (List.mem_cons_self _ _)
    have hc : c % 256 = c := Nat.mod_eq_of_lt h256
    rw [List.cons_append, ht_hash_djb2_mem_loop, hc, if_neg (by omega), ht_hash_djb2_loop]
    exact ih _ rest (fun x hx => hs x (List.mem_cons_of_mem _ hx))

theorem djb2_loop_eq_foldl :
    ∀ (s : Str) (h : Nat),
      ht_hash_djb2_loop h s = s.foldl (fun h c => (h * 33 + c) % ULONG_MOD) h := by
  intro s
  induction s with
  | nil => intro h; rfl
  | cons c s ih => intro h; rw [ht_hash_djb2_loop, List.foldl_cons]; exact ih _

theorem to_ulong_of_pos (x : Int) (h0 : 0 < x) (h1 : x ≤ INT_MAX) : to_ulong x = x.toNat := by
  unfold to_ulong ULONG_MOD
  unfold INT_MAX at h1
  rw [Int.emod_eq_of_lt (by omega) (by norm_num; omega)]

theorem to_int_of_small (x : Nat) (h : x < 2147483648) : to_int x = (x : Int) := by
  unfold to_int
  have hx : x % 4294967296 = x := Nat.mod_eq_of_lt (by omega)
  rw [hx, if_pos h]

/-! ## The claims -/

/-- Claim C1: on a table reachable from `ht_create`, once `ht_insert t k v` has
returned, `ht_lookup` of `k` returns `v` (found, not `NULL`) at every fuel from
`size` on, whatever path the insert took. The insert itself returns when
`START_SIZE` is no multiple of three. -/
theorem insert_then_lookup (START_SIZE : Nat) (hpos : 0 < START_SIZE) (t : ht)
    (hr : Reachable START_SIZE t) (k v : Str) :
    (∀ fuel t1, ht_insert fuel t k v = some t1 →
      ∀ f, t1.size ≤ f → ht_lookup f (some t1) (some k) = some (some v)) ∧
    (START_SIZE % 3 ≠ 0 → ∃ t1 N, ∀ fuel, N ≤ fuel → ht_insert fuel t k v = some t1) := by
  obtain ⟨hwf, h3, _⟩ := reachable_wf START_SIZE hpos t hr
  constructor
  · intro fuel t1 h f hf
    have hp := insert_sound t k v hwf fuel t1 h
    exact lookup_present t1 k v hp.wf hp.here f hf
  · intro hm
    exact insert_total t k v hwf (Or.inl (h3 hm))

/-- Scenario A: insert("Edmonton", "T5J") into a fresh table of five slots, then
lookup("Edmonton"). -/
theorem insert_then_lookup_witness :
    0 < 5 ∧ Reachable 5 (ht_create 5) ∧
      ht_lookup 5
        (some { size := 5, count := 1, tombs := 0,
                entries := [zero_entry, zero_entry, zero_entry, zero_entry,
                  { key := some [69, 100, 109, 111, 110, 116, 111, 110],
                    value := some [84, 53, 74], state := 1 }] })
        (some [69, 100, 109, 111, 110, 116, 111, 110]) = some (some [84, 53, 74]) :=
  ⟨by decide, Reachable.create,
    (insert_then_lookup 5 (by decide) (ht_create 5) Reachable.create
      [69, 100, 109, 111, 110, 116, 111, 110] [84, 53, 74]).1 10 _ (by decide) 5 (by decide)⟩

/-- Claim C2: after `ht_insert t k v1` has returned, `ht_insert` of the same key
with `v2` returns, `ht_lookup` of `k` then returns `v2`, and `count` is what it
was after the first insert. The first insert returns when `START_SIZE` is no
multiple of three. -/
theorem insert_twice_overwrites (START_SIZE : Nat) (hpos : 0 < START_SIZE) (t : ht)
    (hr : Reachable START_SIZE t) (k v1 v2 : Str) :
    (∀ fuel t1, ht_insert fuel t k v1 = some t1 →
      ∃ t2 N, (∀ f, N ≤ f → ht_insert f t1 k v2 = some t2 ∧
          ht_lookup f (some t2) (some k) = some (some v2)) ∧
        t2.count = t1.count) ∧
    (START_SIZE % 3 ≠ 0 → ∃ t1 N, ∀ fuel, N ≤ fuel → ht_insert fuel t k v1 = some t1) := by
  obtain ⟨hwf, h3, _⟩ := reachable_wf START_SIZE hpos t hr
  constructor
  · intro fuel t1 h
    have hp := insert_sound t k v1 hwf fuel t1 h
    have hk : has_key t1 k := has_key_of_present hp.here
    obtain ⟨t2, N, hins⟩ := insert_total t1 k v2 hp.wf (Or.inr (Or.inr hk))
    have hp2 := insert_sound t1 k v2 hp.wf N t2 (hins N (le_refl _))
    refine ⟨t2, max N t2.size, ?_, ?_⟩
    · intro f hf
      exact ⟨hins f (le_trans (le_max_left _ _) hf),
        lookup_present t2 k v2 hp2.wf hp2.here f (le_trans (le_max_right _ _) hf)⟩
    · rcases hp2.counts with ⟨_, hc⟩ | ⟨hn, _⟩
      · exact hc
      · exact absurd hk hn
  · intro hm
    exact insert_total t k v1 hwf (Or.inl (h3 hm))

/-- Scenario B: insert("Calgary", "T2P") then insert("Calgary", "T3K") on a
fresh table of five slots. -/
theorem insert_twice_overwrites_witness :
    0 < 5 ∧ Reachable 5 (ht_create 5) ∧
      ((∀ fuel t1, ht_insert fuel (ht_create 5) [67, 97, 108, 103, 97, 114, 121]
          [84, 50, 80] = some t1 →
        ∃ t2 N, (∀ f, N ≤ f →
            ht_insert f t1 [67, 97, 108, 103, 97, 114, 121] [84, 51, 75] = some t2 ∧
            ht_lookup f (some t2) (some [67, 97, 108, 103, 97, 114, 121]) =
              some (some [84, 51, 75])) ∧
          t2.count = t1.count) ∧
      (5 % 3 ≠ 0 → ∃ t1 N, ∀ fuel, N ≤ fuel →
        ht_insert fuel (ht_create 5) [67, 97, 108, 103, 97, 114, 121] [84, 50, 80] =
          some t1)) :=
  ⟨by decide, Reachable.create,
    insert_twice_overwrites 5 (by decide) (ht_create 5) Reachable.create
      [67, 97, 108, 103, 97, 114, 121] [84, 50, 80] [84, 51, 75]⟩

/-- Claim C3, at the failing input. With `START_SIZE = 5`: after inserts of
"a".."d" and the removal of "a" the table holds three entries, one tombstone and
one empty slot. `ht_insert` of "e" fills the empty slot, `ht_remove` of "e" turns
it into a second tombstone, and `ht_lookup` of "e" then never returns: no slot
is empty and none holds "e". -/
theorem lookup_after_insert_remove_diverges :
    run 10 (ht_create 5)
        [Op.insert [97] [1], Op.insert [98] [2], Op.insert [99] [3], Op.insert [100] [4],
          Op.remove [97]] = some ex_one_empty ∧
      ht_insert 10 ex_one_empty [101] [5] = some ex_full ∧
      ht_remove 10 (some ex_full) (some [101]) = some (some ex_two_tombs) ∧
      ∀ fuel, ht_lookup fuel (some ex_two_tombs) (some [101]) = none :=
  ⟨by decide, by decide, by decide,
   lookup_diverges ex_two_tombs [101] (by decide) (by unfold passes; decide)⟩

/-- Claim C4: pairs with pairwise distinct keys, inserted in order into a fresh
table, are all retrievable: every insert returns, whatever the number of resizes,
and `ht_lookup` of each key returns the value inserted with it. -/
theorem insert_all_then_lookup (START_SIZE : Nat) (hpos : 0 < START_SIZE)
    (kvs : List (Str × Str)) (hnd : (kvs.map Prod.fst).Nodup) :
    ∃ t N, ∀ fuel, N ≤ fuel →
      ht_insert_all fuel (ht_create START_SIZE) kvs = some t ∧
      ∀ kv, kv ∈ kvs → ht_lookup fuel (some t) (some kv.1) = some (some kv.2) := by
  obtain ⟨t, N, hall, hwf, hpres, _⟩ :=
    insert_all_spec kvs (ht_create START_SIZE) (wf_fresh START_SIZE hpos) rfl hnd
  refine ⟨t, max N t.size, ?_⟩
  intro fuel hf
  refine ⟨hall fuel (le_trans (le_max_left _ _) hf), ?_⟩
  intro kv hkv
  exact lookup_present t kv.1 kv.2 hwf (hpres kv hkv) fuel (le_trans (le_max_right _ _) hf)

/-- The first three pairs of `test_resize`: "City0".."City2" with "P000".."P002". -/
theorem insert_all_then_lookup_witness :
    0 < 5 ∧
      (List.map Prod.fst
        [(([67, 105, 116, 121, 48], [80, 48, 48, 48]) : Str × Str),
          ([67, 105, 116, 121, 49], [80, 48, 48, 49]),
          ([67, 105, 116, 121, 50], [80, 48, 48, 50])]).Nodup ∧
      ∃ t N, ∀ fuel, N ≤ fuel →
        ht_insert_all fuel (ht_create 5)
          [([67, 105, 116, 121, 48], [80, 48, 48, 48]),
            ([67, 105, 116, 121, 49], [80, 48, 48, 49]),
            ([67, 105, 116, 121, 50], [80, 48, 48, 50])] = some t ∧
        ∀ kv, kv ∈ [(([67, 105, 116, 121, 48], [80, 48, 48, 48]) : Str × Str),
            ([67, 105, 116, 121, 49], [80, 48, 48, 49]),
            ([67, 105, 116, 121, 50], [80, 48, 48, 50])] →
          ht_lookup fuel (some t) (some kv.1) = some (some kv.2) :=
  ⟨by decide, by decide, insert_all_then_lookup 5 (by decide) _ (by decide)⟩

/-- Claim C5: `ht_remove` of `k` leaves every lookup of another key `k1` as it
was: at every fuel the lookup after the removal gives what the lookup before it
gave, because the slot of `k` turns into a tombstone, which the probe for `k1`
walks past just as it walked past the entry of `k`. The removal returns when
`k` is stored or some slot is empty. -/
theorem remove_keeps_other_lookups (START_SIZE : Nat) (hpos : 0 < START_SIZE) (t : ht)
    (hr : Reachable START_SIZE t) (k k1 : Str) (hne : k ≠ k1) :
    (∀ fuel t1, ht_remove fuel (some t) (some k) = some (some t1) →
      ∀ f, ht_lookup f (some t1) (some k1) = ht_lookup f (some t) (some k1)) ∧
    ((has_key t k ∨ ∃ j, j < t.size ∧ (slot t j).state = SLOT_EMPTY) →
      ∃ t1, ∀ fuel, t.size ≤ fuel → ht_remove fuel (some t) (some k) = some (some t1)) := by
  constructor
  · intro fuel t1 h
    exact lookup_after_remove t t1 k k1 hne fuel h
  · intro h
    obtain ⟨t1, hres, _⟩ :=
      remove_total t k (reachable_wf START_SIZE hpos t hr).1 h
    exact ⟨t1, hres⟩

/-- After insert("a"), insert("b") on five slots: remove("a"), then lookup("b"). -/
theorem remove_keeps_other_lookups_witness :
    0 < 5 ∧
      Reachable 5
        { size := 5, count := 2, tombs := 0,
          entries := [⟨some [97], some [1], 1⟩, ⟨some [98], some [2], 1⟩, zero_entry,
            zero_entry, zero_entry] } ∧
      ([97] : Str) ≠ [98] ∧
      ∀ f, ht_lookup f
          (some { size := 5, count := 1, tombs := 1,
                  entries := [⟨none, none, 2⟩, ⟨some [98], some [2], 1⟩, zero_entry,
                    zero_entry, zero_entry] })
          (some [98]) =
        ht_lookup f
          (some { size := 5, count := 2, tombs := 0,
                  entries := [⟨some [97], some [1], 1⟩, ⟨some [98], some [2], 1⟩, zero_entry,
                    zero_entry, zero_entry] })
          (some [98]) :=
  ⟨by decide,
    reachable_of_run 5 10 [Op.insert [97] [1], Op.insert [98] [2]] _ _ Reachable.create
      (by decide),
    by decide,
    (remove_keeps_other_lookups 5 (by decide) _
      (reachable_of_run 5 10 [Op.insert [97] [1], Op.insert [98] [2]] _ _ Reachable.create
        (by decide)) [97] [98] (by decide)).1 10 _ (by decide)⟩

/-- Claim C6, at the failing input. With `START_SIZE = 5`: after inserts of
"a".."d", the removal of "a" and the insert of "e" the table has four entries and
one tombstone, so no empty slot. `ht_remove` of the absent key "f" never
returns. -/
theorem remove_absent_diverges :
    run 10 (ht_create 5)
        [Op.insert [97] [1], Op.insert [98] [2], Op.insert [99] [3], Op.insert [100] [4],
          Op.remove [97], Op.insert [101] [5]] = some ex_full ∧
      ¬ has_key ex_full [102] ∧
      ∀ fuel, ht_remove fuel (some ex_full) (some [102]) = none :=
  ⟨by decide, by unfold has_key; decide,
   remove_diverges ex_full [102] (by decide) (by unfold passes; decide)⟩

/-- Claim C7: after any sequence of calls that all return, started on a fresh
table, `count` is the number of keys of the reference map replayed on the same
sequence, that is, of the keys inserted and not removed since. -/
theorem count_matches_reference (START_SIZE : Nat) (hpos : 0 < START_SIZE) (fuel : Nat)
    (ops : List Op) (t : ht) (h : run fuel (ht_create START_SIZE) ops = some t) :
    t.count = ((replay [] ops).length : Int) :=
  (refines_run fuel ops (ht_create START_SIZE) t [] (wf_fresh START_SIZE hpos)
    (refines_fresh START_SIZE) h).count_eq

/-- Five calls on five slots leave three keys. -/
theorem count_matches_reference_witness :
    0 < 5 ∧
      run 10 (ht_create 5)
        [Op.insert [97] [1], Op.insert [98] [2], Op.insert [99] [3], Op.insert [100] [4],
          Op.remove [97]] = some ex_one_empty ∧
      ex_one_empty.count = ((replay []
        [Op.insert [97] [1], Op.insert [98] [2], Op.insert [99] [3], Op.insert [100] [4],
          Op.remove [97]]).length : Int) :=
  ⟨by decide, by decide,
    count_matches_reference 5 (by decide) 10
      [Op.insert [97] [1], Op.insert [98] [2], Op.insert [99] [3], Op.insert [100] [4],
        Op.remove [97]] ex_one_empty (by decide)⟩

/-- Claim C8: with a prime `START_SIZE`, `size` is prime in every table reachable
by `ht_insert`, `ht_remove` and `ht_lookup` calls, and no call makes it smaller. -/
theorem size_prime_and_monotone (START_SIZE : Nat) (hp : Nat.Prime START_SIZE) (t : ht)
    (hr : Reachable START_SIZE t) :
    Nat.Prime t.size ∧
      ∀ fuel op t1, step fuel t op = some t1 → t.size ≤ t1.size := by
  obtain ⟨hwf, _, hprime⟩ := reachable_wf START_SIZE hp.pos t hr
  refine ⟨hprime hp, ?_⟩
  intro fuel op t1 h
  exact (step_wf t hwf fuel op t1 h).2.1

/-- Four inserts and a removal on five slots. -/
theorem size_prime_and_monotone_witness :
    Nat.Prime 5 ∧ Reachable 5 ex_one_empty ∧
      (Nat.Prime ex_one_empty.size ∧
        ∀ fuel op t1, step fuel ex_one_empty op = some t1 → ex_one_empty.size ≤ t1.size) :=
  ⟨Nat.prime_five,
    reachable_of_run 5 10
      [Op.insert [97] [1], Op.insert [98] [2], Op.insert [99] [3], Op.insert [100] [4],
        Op.remove [97]] (ht_create 5) ex_one_empty Reachable.create (by decide),
    size_prime_and_monotone 5 Nat.prime_five ex_one_empty
      (reachable_of_run 5 10
        [Op.insert [97] [1], Op.insert [98] [2], Op.insert [99] [3], Op.insert [100] [4],
          Op.remove [97]] (ht_create 5) ex_one_empty Reachable.create (by decide))⟩

/-- Claim C9 fails as stated: on five slots the fourth insert of a new key
returns with `count = 4`, and `3 * 4 > 2 * 5`. The grow check runs before the
entry is added. -/
theorem load_after_insert_counterexample :
    run 10 (ht_create 5) [Op.insert [97] [1], Op.insert [98] [2], Op.insert [99] [3]] =
        some ex_three ∧
      ht_insert 10 ex_three [100] [4] = some ex_four ∧
      ¬ (3 * ex_four.count ≤ 2 * (ex_four.size : Int)) :=
  ⟨by decide, by decide, by decide⟩

/-- Claim C9 as amended: when `ht_insert` returns, the entries other than the one
just written fill at most two thirds of the table, `3 * (count - 1) <= 2 * size`. -/
theorem load_after_insert (START_SIZE : Nat) (hpos : 0 < START_SIZE) (t : ht)
    (hr : Reachable START_SIZE t) (fuel : Nat) (k v : Str) (t1 : ht)
    (h : ht_insert fuel t k v = some t1) :
    3 * (t1.count - 1) ≤ 2 * (t1.size : Int) :=
  (insert_sound t k v (reachable_wf START_SIZE hpos t hr).1 fuel t1 h).load

/-- The fourth insert on five slots: `3 * (4 - 1) <= 2 * 5`. -/
theorem load_after_insert_witness :
    0 < 5 ∧ Reachable 5 ex_three ∧ ht_insert 10 ex_three [100] [4] = some ex_four ∧
      3 * (ex_four.count - 1) ≤ 2 * (ex_four.size : Int) :=
  ⟨by decide,
    reachable_of_run 5 10 [Op.insert [97] [1], Op.insert [98] [2], Op.insert [99] [3]]
      (ht_create 5) ex_three Reachable.create (by decide),
    by decide,
    load_after_insert 5 (by decide) ex_three
      (reachable_of_run 5 10 [Op.insert [97] [1], Op.insert [98] [2], Op.insert [99] [3]]
        (ht_create 5) ex_three Reachable.create (by decide)) 10 [100] [4] ex_four (by decide)⟩

/-- Claim C10: in every reachable table `count` is the number of occupied slots
and `tombs` the number of tombstones, hence `count + tombs <= size`; and
`ht_insert`, `ht_remove` and `ht_resize` each carry this agreement of the
counters with the array from the table they start on to the one they return. -/
theorem counters_match_slots :
    (∀ START_SIZE t, 0 < START_SIZE → Reachable START_SIZE t →
      t.count = (occupied_slots t : Int) ∧ t.tombs = (tombstone_slots t : Int) ∧
        t.count + t.tombs ≤ (t.size : Int)) ∧
    (∀ t, count_inv t → t.count + t.tombs ≤ (t.size : Int)) ∧
    (∀ t fuel k v t1, count_inv t → ht_insert fuel t k v = some t1 → count_inv t1) ∧
    (∀ t fuel k t1, count_inv t → ht_remove fuel (some t) (some k) = some (some t1) →
      count_inv t1) ∧
    (∀ t fuel new_size t1, count_inv t → ht_resize fuel t new_size = some t1 →
      count_inv t1) := by
  refine ⟨?_, count_inv_bound, ?_, ?_, ?_⟩
  · intro S t hS hr
    have hci := (reachable_wf S hS t hr).1.to_count_inv
    exact ⟨hci.2.2.1, hci.2.2.2, count_inv_bound t hci⟩
  · intro t fuel k v t1 hinv h
    exact insert_count_inv t hinv fuel k v t1 h
  · intro t fuel k t1 hinv h
    exact remove_count_inv t hinv fuel k t1 h
  · intro t fuel ns t1 _ h
    exact resize_count_inv t fuel ns t1 h

/-- Claim C11: in every table reachable from `ht_create` by calls of `ht_insert`,
`ht_remove` and `ht_lookup`, two distinct slots in state `SLOT_OCCUPIED` hold
keys, and the keys differ. Reachable tables include those after an insert into
a reused tombstone and those after a resize. -/
theorem occupied_keys_distinct (START_SIZE : Nat) (hpos : 0 < START_SIZE) (t : ht)
    (hr : Reachable START_SIZE t) (i j : Nat) (hi : i < t.size) (hj : j < t.size)
    (hne : i ≠ j) (hio : (slot t i).state = SLOT_OCCUPIED)
    (hjo : (slot t j).state = SLOT_OCCUPIED) :
    ∃ ki kj, (slot t i).key = some ki ∧ (slot t j).key = some kj ∧ ki ≠ kj := by
  have hwf := (reachable_wf START_SIZE hpos t hr).1
  obtain ⟨ki, vi, hsi⟩ := hwf.occupied_full i hi hio
  obtain ⟨kj, vj, hsj⟩ := hwf.occupied_full j hj hjo
  refine ⟨ki, kj, by rw [hsi], by rw [hsj], ?_⟩
  intro hk
  exact hne (hwf.distinct i j hi hj hio hjo (by rw [hsi, hsj, hk]))

/-- With `START_SIZE = 5`: after inserts of "a".."d", the removal of "a" and the
insert of "f", which lands in the tombstone of slot 0, slots 0 and 1 hold
different keys. -/
theorem occupied_keys_distinct_witness :
    0 < 5 ∧ Reachable 5 ex_reuse ∧ 0 < ex_reuse.size ∧ 1 < ex_reuse.size ∧ 0 ≠ 1 ∧
      (slot ex_reuse 0).state = SLOT_OCCUPIED ∧ (slot ex_reuse 1).state = SLOT_OCCUPIED ∧
      ∃ ki kj, (slot ex_reuse 0).key = some ki ∧ (slot ex_reuse 1).key = some kj ∧ ki ≠ kj :=
  ⟨by decide,
    reachable_of_run 5 10
      [Op.insert [97] [1], Op.insert [98] [2], Op.insert [99] [3], Op.insert [100] [4],
        Op.remove [97], Op.insert [102] [6]] (ht_create 5) ex_reuse Reachable.create (by decide),
    by decide, by decide, by decide, by decide, by decide,
    occupied_keys_distinct 5 (by decide) ex_reuse
      (reachable_of_run 5 10
        [Op.insert [97] [1], Op.insert [98] [2], Op.insert [99] [3], Op.insert [100] [4],
          Op.remove [97], Op.insert [102] [6]] (ht_create 5) ex_reuse Reachable.create
        (by decide))
      0 1 (by decide) (by decide) (by decide) (by decide) (by decide)⟩

/-- Claim C15: for every `n`, `ht_next_prime n` returns, at every fuel from some
bound on, the least prime `p` with `n ≤ p`, and it returns nothing else at any
fuel; `p` is `2` for `n ≤ 2` and `n` itself for a prime `n`. -/
theorem next_prime_least (n : Int) :
    ∃ p : Nat, Nat.Prime p ∧ n ≤ (p : Int) ∧
      (∀ q : Nat, Nat.Prime q → n ≤ (q : Int) → p ≤ q) ∧
      (∃ N : Nat, ∀ fuel, N ≤ fuel → ht_next_prime fuel n = some (p : Int)) ∧
      (∀ fuel r, ht_next_prime fuel n = some r → r = (p : Int)) ∧
      (n ≤ 2 → p = 2) ∧ (Nat.Prime n.toNat → (p : Int) = n) := by
  obtain ⟨p, hprime, hge, N, hN⟩ := ht_next_prime_total n
  have hmin : ∀ q : Nat, Nat.Prime q → n ≤ (q : Int) → p ≤ q := by
    intro q hq hnq
    have := ht_next_prime_minimal N n p (hN N (le_refl _)) q hq hnq
    omega
  refine ⟨p, hprime, hge, hmin, ⟨N, hN⟩, ?_, ?_, ?_⟩
  · intro fuel r hr
    obtain ⟨hnr, h2, hpr⟩ := ht_next_prime_sound fuel n r hr
    have h1 := ht_next_prime_minimal fuel n r hr p hprime hge
    have h3 := hmin r.toNat hpr (by omega)
    omega
  · intro h2
    have := hmin 2 Nat.prime_two (by simpa using h2)
    have := hprime.two_le
    omega
  · intro hn
    have h2 := hn.two_le
    have := hmin n.toNat hn (by omega)
    omega

/-- Claim C16: with fuel for the trial divisions, `ht_is_prime n` returns, and it
returns true exactly when `n` is prime, that is `2 ≤ n` and no `d` with
`1 < d < n` divides `n`; the result is false for `n < 2` and for every even
`n > 2`, and true for `n = 2`. -/
theorem is_prime_iff_prime (fuel : Nat) (n : Int) (hf : n ≤ (fuel : Int)) :
    ∃ b, ht_is_prime fuel n = some b ∧
      (b = true ↔ Nat.Prime n.toNat) ∧
      (b = true ↔ (2 ≤ n ∧ ∀ d : Int, 1 < d → d < n → ¬ d ∣ n)) ∧
      (n < 2 → b = false) ∧ (2 < n → n % 2 = 0 → b = false) ∧ (n = 2 → b = true) := by
  have hdef : Nat.Prime n.toNat ↔ (2 ≤ n ∧ ∀ d : Int, 1 < d → d < n → ¬ d ∣ n) := by
    rw [Nat.prime_def_lt]
    constructor
    · rintro ⟨h2, hall⟩
      refine ⟨by omega, ?_⟩
      intro d hd1 hdn hdvd
      have hd : (d.toNat : Int) = d := Int.toNat_of_nonneg (by omega)
      have hn : (n.toNat : Int) = n := Int.toNat_of_nonneg (by omega)
      have h1 : d.toNat ∣ n.toNat := by
        rw [← Int.natCast_dvd_natCast, hd, hn]; exact hdvd
      have := hall d.toNat (by omega) h1
      omega
    · rintro ⟨h2, hall⟩
      refine ⟨by omega, ?_⟩
      intro m hm hdvd
      have hn : (n.toNat : Int) = n := Int.toNat_of_nonneg (by omega)
      have h1 : (m : Int) ∣ n := by
        rw [← hn, Int.natCast_dvd_natCast]; exact hdvd
      by_contra hm1
      have hm0 : m ≠ 0 := by
        rintro rfl
        rw [Nat.zero_dvd] at hdvd
        omega
      exact hall (m : Int) (by omega) (by omega) h1
  refine ⟨decide (Nat.Prime n.toNat), ht_is_prime_eq fuel n hf, by simp, ?_, ?_, ?_, ?_⟩
  · rw [← hdef]; simp
  · intro h
    have : ¬ Nat.Prime n.toNat := by
      intro hp; have := hp.two_le; omega
    simp [this]
  · intro h2 hev
    have : ¬ Nat.Prime n.toNat := by
      intro hp
      rcases Nat.Prime.eq_two_or_odd hp with h | h <;> omega
    simp [this]
  · intro h
    subst h
    simp [Nat.prime_two]

/-- At `n = 97` with fuel `97`. -/
theorem is_prime_iff_prime_witness :
    ((97 : Int) ≤ ((97 : Nat) : Int)) ∧
      ∃ b, ht_is_prime 97 97 = some b ∧
        (b = true ↔ Nat.Prime (97 : Int).toNat) ∧
        (b = true ↔ (2 ≤ (97 : Int) ∧ ∀ d : Int, 1 < d → d < 97 → ¬ d ∣ 97)) ∧
        ((97 : Int) < 2 → b = false) ∧ (2 < (97 : Int) → (97 : Int) % 2 = 0 → b = false) ∧
        ((97 : Int) = 2 → b = true) :=
  ⟨by decide, is_prime_iff_prime 97 97 (by decide)⟩

/-- Claim C17: for a byte string `s` without NUL, stored in memory with its
terminator and anything after it, `ht_hash_djb2` is the left fold of
`h * 33 + c` modulo `2^64` over the bytes of `s` from `5381`; so the hash of the
empty string is `5381`, a byte appended gives `(hash s * 33 + c) mod 2^64`, and
what follows the terminator has no part in the result. -/
theorem djb2_is_fold (s : Str) (hs : ∀ c, c ∈ s → 0 < c ∧ c < 256) :
    (∀ rest, ht_hash_djb2_mem (s ++ 0 :: rest) = djb2_fold s) ∧
      ht_hash_djb2 s = djb2_fold s ∧
      ht_hash_djb2_mem (0 :: s) = 5381 ∧ ht_hash_djb2 [] = 5381 ∧
      (∀ c, ht_hash_djb2 (s ++ [c]) = (ht_hash_djb2 s * 33 + c) % 2 ^ 64) ∧
      (∀ c rest, 0 < c → c < 256 →
        ht_hash_djb2_mem (s ++ c :: 0 :: rest) = (ht_hash_djb2_mem (s ++ [0]) * 33 + c) % 2 ^ 64) ∧
      djb2_fold s < 2 ^ 64 := by
  have hmem : ∀ rest, ht_hash_djb2_mem (s ++ 0 :: rest) = ht_hash_djb2 s :=
    fun rest => djb2_mem_loop_eq s 5381 rest hs
  have hfold : ht_hash_djb2 s = djb2_fold s := djb2_loop_eq_foldl s 5381
  have hsnoc : ∀ c, ht_hash_djb2 (s ++ [c]) = (ht_hash_djb2 s * 33 + c) % 2 ^ 64 :=
    fun c => djb2_loop_snoc c s 5381
  refine ⟨fun rest => by rw [hmem, hfold], hfold, rfl, rfl, hsnoc, ?_, ?_⟩
  · intro c rest h0 h256
    have h1 : s ++ c :: 0 :: rest = (s ++ [c]) ++ 0 :: rest := by simp
    have h2 : ∀ x, x ∈ s ++ [c] → 0 < x ∧ x < 256 := by
      intro x hx
      rcases List.mem_append.mp hx with h | h
      · exact hs x h
      · simp only [List.mem_singleton] at h; subst h; exact ⟨h0, h256⟩
    have h3 : ht_hash_djb2_mem ((s ++ [c]) ++ 0 :: rest) = ht_hash_djb2 (s ++ [c]) :=
      djb2_mem_loop_eq (s ++ [c]) 5381 rest h2
    rw [h1, h3, hsnoc, hmem]
  · rw [← hfold]
    rcases List.eq_nil_or_concat s with h | ⟨s1, c, h⟩
    · rw [h]; decide
    · rw [h, List.concat_eq_append]
      unfold ht_hash_djb2
      rw [djb2_loop_snoc]
      exact Nat.mod_lt _ (by unfold ULONG_MOD; norm_num)

/-- The key "City7" followed in memory by its terminator and two more bytes. -/
theorem djb2_is_fold_witness :
    (∀ c, c ∈ ([67, 105, 116, 121, 55] : Str) → 0 < c ∧ c < 256) ∧
      ht_hash_djb2_mem ([67, 105, 116, 121, 55] ++ 0 :: [200, 7]) =
        djb2_fold [67, 105, 116, 121, 55] :=
  ⟨by decide, (djb2_is_fold [67, 105, 116, 121, 55] (by decide)).1 [200, 7]⟩

/-- Claim C18: for `0 < table_size ≤ INT_MAX`, `ht_index_for`, with its casts to
`unsigned long` and back to `int`, is `ht_hash_djb2(key) mod table_size`, lies
in `0 .. table_size - 1`, and so does every later `(idx + 1) % size`: all
indices of a probe walk are inside the slot array. -/
theorem index_in_range (key : Str) (table_size : Int) (hpos : 0 < table_size)
    (hmax : table_size ≤ INT_MAX) :
    ht_index_for_int key table_size = ((ht_hash_djb2 key : Nat) : Int) % table_size ∧
      0 ≤ ht_index_for_int key table_size ∧ ht_index_for_int key table_size < table_size ∧
      ht_index_for_int key table_size = ((ht_index_for key table_size.toNat : Nat) : Int) ∧
      (∀ idx : Int, 0 ≤ idx → idx < table_size →
        0 ≤ (idx + 1) % table_size ∧ (idx + 1) % table_size < table_size ∧
          idx + 1 ≤ INT_MAX) ∧
      ∀ d : Nat, (ht_index_for key table_size.toNat + d) % table_size.toNat <
        table_size.toNat := by
  have hn : ((table_size.toNat : Nat) : Int) = table_size := Int.toNat_of_nonneg (by omega)
  have hnpos : 0 < table_size.toNat := by omega
  have hlt : ht_hash_djb2 key % table_size.toNat < table_size.toNat := Nat.mod_lt _ hnpos
  have hval : ht_index_for_int key table_size =
      ((ht_hash_djb2 key % table_size.toNat : Nat) : Int) := by
    unfold ht_index_for_int
    rw [to_ulong_of_pos table_size hpos hmax]
    unfold INT_MAX at hmax
    exact to_int_of_small _ (by omega)
  refine ⟨?_, ?_, ?_, ?_, ?_, ?_⟩
  · rw [hval, Int.natCast_mod, hn]
  · rw [hval]; omega
  · rw [hval]; omega
  · rw [hval]; rfl
  · intro idx h0 h1
    unfold INT_MAX at hmax ⊢
    exact ⟨Int.emod_nonneg _ (by omega), Int.emod_lt_of_pos _ hpos, by omega⟩
  · intro d
    exact Nat.mod_lt _ hnpos

/-- The key "City7" in a table of `INT_MAX` slots, the largest there is. -/
theorem index_in_range_witness :
    (0 : Int) < 2147483647 ∧ (2147483647 : Int) ≤ INT_MAX ∧
      ht_index_for_int [67, 105, 116, 121, 55] 2147483647 =
        ((ht_hash_djb2 [67, 105, 116, 121, 55] : Nat) : Int) % 2147483647 ∧
      0 ≤ ht_index_for_int [67, 105, 116, 121, 55] 2147483647 ∧
      ht_index_for_int [67, 105, 116, 121, 55] 2147483647 < 2147483647 :=
  ⟨by decide, by decide,
    (index_in_range [67, 105, 116, 121, 55] 2147483647 (by decide) (by decide)).1,
    (index_in_range [67, 105, 116, 121, 55] 2147483647 (by decide) (by decide)).2.1,
    (index_in_range [67, 105, 116, 121, 55] 2147483647 (by decide) (by decide)).2.2.1⟩

/-- Claim C12, at the failing input. With the prime `START_SIZE = 5`: after
inserts of "a".."d", the removal of "a" and the insert of "e" the table has four
entries and one tombstone, so no slot is empty. The probe walks of `ht_lookup`
and of `ht_remove` for the absent key "f" pass every slot and never stop. -/
theorem probe_walk_diverges :
    Nat.Prime 5 ∧ Reachable 5 ex_full ∧
      (∀ j, j < ex_full.size → passes [102] (slot ex_full j)) ∧
      (∀ fuel, ht_lookup fuel (some ex_full) (some [102]) = none) ∧
      (∀ fuel, ht_remove fuel (some ex_full) (some [102]) = none) :=
  ⟨Nat.prime_five,
    reachable_of_run 5 10
      [Op.insert [97] [1], Op.insert [98] [2], Op.insert [99] [3], Op.insert [100] [4],
        Op.remove [97], Op.insert [101] [5]] (ht_create 5) ex_full Reachable.create (by decide),
    by unfold passes; decide,
    lookup_diverges ex_full [102] (by decide) (by unfold passes; decide),
    remove_diverges ex_full [102] (by decide) (by unfold passes; decide)⟩

/-- The condition on the starting size in `insert_terminates` is needed. With
`START_SIZE = 3`, after inserts of "a", "b", "c" and the removal of "c", the table
of three slots holds two entries and one tombstone, the grow check does not fire
(`3 * 2 ≤ 2 * 3` and `1 ≤ 3 / 3`), and the probe walk of `ht_insert` for the new
key "d" finds neither an empty slot nor "d": it never returns. -/
theorem insert_walk_diverges :
    Nat.Prime 3 ∧
      run 10 (ht_create 3)
        [Op.insert [97] [1], Op.insert [98] [2], Op.insert [99] [3], Op.remove [99]] =
        some ex_size_three ∧
      ht_maybe_grow 10 ex_size_three = some ex_size_three ∧
      (∀ j, j < ex_size_three.size → passes_put [100] (slot ex_size_three j)) ∧
      ∀ fuel, ht_insert fuel ex_size_three [100] [4] = none :=
  ⟨Nat.prime_three, by decide, by decide, by unfold passes_put; decide,
    insert_diverges ex_size_three [100] [4] (by decide) (by decide)
      (by unfold passes_put; decide)⟩

/-- Claim C14: on a reachable table `t`, `ht_resize` to a `new_size` of at least
twice the size returns a table `t1` whose size is the result `p` of
`ht_next_prime(new_size)`, with `count` as before, `tombs = 0` and no slot in
state `SLOT_TOMBSTONE`; `t1` stores exactly the pairs of `t`, `ht_lookup` on `t1`
returns for every key, and whatever `ht_lookup` returned on `t` it returns on
`t1`. -/
theorem resize_preserves_mapping (START_SIZE : Nat) (hpos : 0 < START_SIZE) (t : ht)
    (hr : Reachable START_SIZE t) (new_size : Int) (hns : 2 * (t.size : Int) ≤ new_size) :
    ∃ (t1 : ht) (p N : Nat),
      (∀ fuel, N ≤ fuel → ht_resize fuel t new_size = some t1 ∧
        ht_next_prime fuel new_size = some (p : Int)) ∧
      t1.size = p ∧ t1.count = t.count ∧ t1.tombs = 0 ∧
      (∀ j, j < t1.size → (slot t1 j).state ≠ SLOT_TOMBSTONE) ∧
      (∀ k v, present t1 k v ↔ present t k v) ∧
      (∀ k, ∃ r, (∀ f, t1.size ≤ f → ht_lookup f (some t1) (some k) = some r) ∧
        (∀ v, r = some v ↔ present t k v) ∧
        ∀ fuel r0, ht_lookup fuel (some t) (some k) = some r0 → r0 = r) := by
  have hwf := (reachable_wf START_SIZE hpos t hr).1
  have hsp := hwf.size_pos
  obtain ⟨t1, N1, hres⟩ := resize_total t hwf new_size (by omega)
  obtain ⟨p, _, _, N2, hnp⟩ := ht_next_prime_total new_size
  have hpost := resize_sound t hwf N1 new_size t1 (hres N1 (le_refl _))
  have hsize : t1.size = p := by
    obtain ⟨p1, hp1, hs1⟩ := resize_size (max N1 N2) t new_size t1
      (hres _ (le_max_left _ _))
    rw [hnp _ (le_max_right _ _)] at hp1
    simp only [Option.some.injEq] at hp1
    rw [hs1, ← hp1]; rfl
  have hcs := count_le_size t hwf
  have hempty : ∃ j, j < t1.size ∧ (slot t1 j).state = SLOT_EMPTY := by
    refine exists_empty_of_counts t1 hpost.wf ?_
    have := hpost.size_ge
    have := tombs_nonneg t hwf
    rw [hpost.count_eq, hpost.tombs_eq]
    omega
  refine ⟨t1, p, max N1 N2, ?_, hsize, hpost.count_eq, hpost.tombs_eq,
    no_tombstone_of_tombs_zero t1 hpost.wf hpost.tombs_eq, hpost.same, ?_⟩
  · intro fuel hf
    exact ⟨hres fuel (le_trans (le_max_left _ _) hf), hnp fuel (le_trans (le_max_right _ _) hf)⟩
  · intro k
    have hafter : ∃ r, (∀ f, t1.size ≤ f → ht_lookup f (some t1) (some k) = some r) ∧
        (∀ v, r = some v ↔ present t k v) := by
      by_cases hk : has_key t1 k
      · obtain ⟨v, hp⟩ := present_of_has_key hpost.wf hk
        refine ⟨some v, lookup_present t1 k v hpost.wf hp, ?_⟩
        intro v1
        constructor
        · intro h
          simp only [Option.some.injEq] at h
          rw [← h]; exact (hpost.same k v).mp hp
        · intro h
          rw [present_unique hpost.wf hp ((hpost.same k v1).mpr h)]
      · refine ⟨none, lookup_absent t1 k hpost.wf hk hempty, ?_⟩
        intro v1
        constructor
        · intro h; simp at h
        · intro h
          exact absurd (has_key_of_present ((hpost.same k v1).mpr h)) hk
    obtain ⟨r, hr1, hr2⟩ := hafter
    refine ⟨r, hr1, hr2, ?_⟩
    intro fuel r0 h0
    have hs := lookup_sound t k hwf fuel r0 h0
    cases r0 with
    | none =>
      cases r with
      | none => rfl
      | some v => exact absurd ((hs v).mpr ((hr2 v).mp rfl)) (by simp)
    | some v0 => exact ((hr2 v0).mpr ((hs v0).mp rfl)).symm

/-- With `START_SIZE = 5`: the table with three entries and a tombstone, resized
to `10`, has eleven slots. -/
theorem resize_preserves_mapping_witness :
    0 < 5 ∧ Reachable 5 ex_one_empty ∧ 2 * (ex_one_empty.size : Int) ≤ 10 ∧
      ht_resize 20 ex_one_empty 10 = some ex_resized ∧
      ∃ (t1 : ht) (p N : Nat),
        (∀ fuel, N ≤ fuel → ht_resize fuel ex_one_empty 10 = some t1 ∧
          ht_next_prime fuel 10 = some (p : Int)) ∧
        t1.size = p ∧ t1.count = ex_one_empty.count ∧ t1.tombs = 0 ∧
        (∀ j, j < t1.size → (slot t1 j).state ≠ SLOT_TOMBSTONE) ∧
        (∀ k v, present t1 k v ↔ present ex_one_empty k v) ∧
        (∀ k, ∃ r, (∀ f, t1.size ≤ f → ht_lookup f (some t1) (some k) = some r) ∧
          (∀ v, r = some v ↔ present ex_one_empty k v) ∧
          ∀ fuel r0, ht_lookup fuel (some ex_one_empty) (some k) = some r0 → r0 = r) :=
  ⟨by decide,
    reachable_of_run 5 10
      [Op.insert [97] [1], Op.insert [98] [2], Op.insert [99] [3], Op.insert [100] [4],
        Op.remove [97]] (ht_create 5) ex_one_empty Reachable.create (by decide),
    by decide, by decide,
    resize_preserves_mapping 5 (by decide) ex_one_empty
      (reachable_of_run 5 10
        [Op.insert [97] [1], Op.insert [98] [2], Op.insert [99] [3], Op.insert [100] [4],
          Op.remove [97]] (ht_create 5) ex_one_empty Reachable.create (by decide))
      10 (by decide)⟩

/-- With `START_SIZE = 71` the grow check fires once, before the 49th insert
(`3 * 48 > 2 * 71`), and takes the table to `149` slots, the first prime from
`142` on; it never fires again, as `3 * 99 ≤ 2 * 149`. All hundred inserts return
and the final size is `149`. -/
theorem city_final_size_from_71 :
    Nat.Prime 71 ∧
      ∃ t N, (∀ fuel, N ≤ fuel → ht_insert_all fuel (ht_create 71) city_pairs = some t) ∧
        t.count = 100 ∧ t.size = 149 ∧ ¬ 150 ≤ t.size := by
  refine ⟨by norm_num, ?_⟩
  obtain ⟨t, N, hall, _, hc, _, hQ, hload, _⟩ :=
    city_run 71 (by decide) (fun z => z = 71 ∨ z = 149) (Or.inl rfl) (by
      intro i z z1 hi hQ hlt hp hge hmin
      rcases hQ with h | h
      · subst h
        have hle := hmin 149 (by norm_num) (by omega)
        right
        have h142 : 142 ≤ z1 := by omega
        interval_cases z1
        all_goals first | rfl | (exfalso; revert hp; norm_num)
      · subst h
        omega)
  have hs : t.size = 149 := by
    rcases hQ with h | h <;> omega
  exact ⟨t, N, hall, hc, hs, by omega⟩

/-- Claim C20: `ht_lookup` with a null table or a null key returns `NULL` (not
found), and `ht_remove` with a null table or a null key returns at once and
leaves the table, if there is one, as it was; no probe is run, so both return
at every fuel. -/
theorem null_arguments (fuel : Nat) (handle : Option ht) (key : Option Str) :
    ht_lookup fuel none key = some none ∧ ht_lookup fuel handle none = some none ∧
      ht_remove fuel none key = some none ∧ ht_remove fuel handle none = some handle := by
  refine ⟨?_, ?_, ?_, ?_⟩
  · cases key <;> rfl
  · cases handle <;> rfl
  · cases key <;> rfl
  · cases handle <;> rfl

/-! ## Which slot an insert of a new key writes -/

theorem put_loop_seen (t : ht) (k v : Str) (m fuel idx : Nat) (ft : Int) (hidx : idx < t.size)
    (hft : 0 ≤ ft) (hpass : ∀ i, i < m → passes_put k (slot t ((idx + i) % t.size)))
    (he : (slot t ((idx + m) % t.size)).state = SLOT_EMPTY) (hf : m < fuel) :
    ht_put_into_loop t k v fuel idx ft =
      some { t with
        entries := t.entries.set ft.toNat
          { key := some k, value := some v, state := SLOT_OCCUPIED }
        count := t.count + 1
        tombs := t.tombs - 1 } := by
  obtain ⟨target, tb, hres, hdesc⟩ := put_loop_empty t k v m fuel idx ft hidx hpass he hf
  rcases hdesc with ⟨_, htar, htb⟩ | ⟨hneg, _⟩
  · rw [hres, htar, htb]
  · omega

theorem put_loop_no_tomb (t : ht) (k v : Str) (m fuel idx : Nat) (ft : Int) (hidx : idx < t.size)
    (hft : ft < 0) (hpass : ∀ i, i < m → passes_put k (slot t ((idx + i) % t.size)))
    (hnt : ∀ i, i < m → (slot t ((idx + i) % t.size)).state ≠ SLOT_TOMBSTONE)
    (he : (slot t ((idx + m) % t.size)).state = SLOT_EMPTY) (hf : m < fuel) :
    ht_put_into_loop t k v fuel idx ft =
      some { t with
        entries := t.entries.set ((idx + m) % t.size)
          { key := some k, value := some v, state := SLOT_OCCUPIED }
        count := t.count + 1 } := by
  obtain ⟨target, tb, hres, hdesc⟩ := put_loop_empty t k v m fuel idx ft hidx hpass he hf
  rcases hdesc with ⟨h0, _, _⟩ | ⟨_, ⟨a, ha, htar, hst, _⟩ | ⟨htar, htb⟩⟩
  · omega
  · rw [htar] at hst
    exact absurd hst (hnt a ha)
  · rw [hres, htar, htb, sub_zero]

theorem put_loop_first_tomb (t : ht) (k v : Str) :
    ∀ (a m fuel idx : Nat) (ft : Int), idx < t.size → ft < 0 → a < m →
      (∀ i, i < m → passes_put k (slot t ((idx + i) % t.size))) →
      (∀ i, i < a → (slot t ((idx + i) % t.size)).state ≠ SLOT_TOMBSTONE) →
      (slot t ((idx + a) % t.size)).state = SLOT_TOMBSTONE →
      (slot t ((idx + m) % t.size)).state = SLOT_EMPTY → m < fuel →
      ht_put_into_loop t k v fuel idx ft =
        some { t with
          entries := t.entries.set ((idx + a) % t.size)
            { key := some k, value := some v, state := SLOT_OCCUPIED }
          count := t.count + 1
          tombs := t.tombs - 1 } := by
  intro a
  induction a with
  | zero =>
    intro m fuel idx ft hidx hft ham hpass _ hta he hf
    obtain ⟨f, rfl⟩ : ∃ f, fuel = f + 1 := ⟨fuel - 1, by omega⟩
    obtain ⟨m1, rfl⟩ : ∃ m1, m = m1 + 1 := ⟨m - 1, by omega⟩
    have hn : 0 < t.size := by omega
    have hp := hpass 0 (by omega)
    simp only [Nat.add_zero, Nat.mod_eq_of_lt hidx] at hp hta ⊢
    have hrest : ∀ i, i < m1 → passes_put k (slot t (((idx + 1) % t.size + i) % t.size)) := by
      intro i hi; rw [walk_step]; exact hpass (i + 1) (by omega)
    rw [← walk_step] at he
    rw [ht_put_into_loop, if_neg hp.1, if_pos hta, if_pos hft]
    have h := put_loop_seen t k v m1 f ((idx + 1) % t.size) (idx : Int) (Nat.mod_lt _ hn)
      (by omega) hrest he (by omega)
    rw [h]
    simp
  | succ a ih =>
    intro m fuel idx ft hidx hft ham hpass hnt hta he hf
    obtain ⟨f, rfl⟩ : ∃ f, fuel = f + 1 := ⟨fuel - 1, by omega⟩
    obtain ⟨m1, rfl⟩ : ∃ m1, m = m1 + 1 := ⟨m - 1, by omega⟩
    have hn : 0 < t.size := by omega
    have hp := hpass 0 (by omega)
    have h0 := hnt 0 (by omega)
    simp only [Nat.add_zero, Nat.mod_eq_of_lt hidx] at hp h0
    have hne : (slot t idx).key ≠ some k := by
      rcases hp.2 with h | h
      · exact absurd h h0
      · exact h
    have hrest : ∀ i, i < m1 → passes_put k (slot t (((idx + 1) % t.size + i) % t.size)) := by
      intro i hi; rw [walk_step]; exact hpass (i + 1) (by omega)
    have hnt1 : ∀ i, i < a →
        (slot t (((idx + 1) % t.size + i) % t.size)).state ≠ SLOT_TOMBSTONE := by
      intro i hi; rw [walk_step]; exact hnt (i + 1) (by omega)
    rw [← walk_step] at he hta ⊢
    rw [ht_put_into_loop, if_neg hp.1, if_neg h0, if_neg hne]
    exact ih m1 f ((idx + 1) % t.size) ft (Nat.mod_lt _ hn) hft (by omega) hrest hnt1 hta he
      (by omega)

/-! ## The trial division in `int` arithmetic -/

theorem mersenne_31_prime : Nat.Prime 2147483647 := by
  have h : (mersenne 31).Prime := lucas_lehmer_sufficiency _ (by norm_num) (by norm_num)
  have e : mersenne 31 = 2147483647 := by norm_num [mersenne]
  rw [e] at h
  exact h

/-- For a prime `n` from `46339 * 46339` on, the loop runs up to `d = 46341`,
whose square does not fit an `int`. -/
theorem checked_loop_overflow (n : Nat) (hp : Nat.Prime n) (hlo : 46339 * 46339 ≤ n)
    (hhi : n ≤ 2147483647) :
    ∀ (m fuel d : Nat), 3 ≤ d → d + 2 * m = 46341 → m < fuel →
      ht_is_prime_loop_checked (n : Int) fuel (d : Int) =
        some (Checked.overflow 2147488281) := by
  intro m
  induction m with
  | zero =>
    intro fuel d _ hd hf
    obtain ⟨f, rfl⟩ : ∃ f, fuel = f + 1 := ⟨fuel - 1, by omega⟩
    have hd1 : d = 46341 := by omega
    subst hd1
    rw [ht_is_prime_loop_checked, if_pos (by unfold INT_MAX; norm_num)]
    norm_num
  | succ m ih =>
    intro fuel d hd3 hd hf
    obtain ⟨f, rfl⟩ : ∃ f, fuel = f + 1 := ⟨fuel - 1, by omega⟩
    have hd1 : d ≤ 46339 := by omega
    have hsq : d * d ≤ 46339 * 46339 := Nat.mul_le_mul hd1 hd1
    have hsqn : d * d ≤ n := le_trans hsq hlo
    have h1 : ¬ ((d : Int) * d > INT_MAX) := by
      unfold INT_MAX
      have : ((d * d : Nat) : Int) ≤ 2147483647 := by exact_mod_cast le_trans hsqn hhi
      push_cast at this
      omega
    have h2 : (d : Int) * d ≤ (n : Int) := by exact_mod_cast hsqn
    have h3 : ¬ ((n : Int) % (d : Int) = 0) := by
      intro h0
      have hdvd : d ∣ n := by
        have : ((n % d : Nat) : Int) = 0 := by rw [Int.natCast_mod]; exact h0
        exact Nat.dvd_of_mod_eq_zero (by exact_mod_cast this)
      rcases (Nat.dvd_prime hp).mp hdvd with h | h
      · omega
      · have : d < n := by nlinarith
        omega
    rw [ht_is_prime_loop_checked, if_neg h1, if_pos h2, if_neg h3]
    have := ih f (d + 2) (by omega) (by omega) (by omega)
    push_cast at this
    exact this

/-- Below `46339 * 46339` no product overflows, and the checked loop returns what
the loop on exact integers returns. -/
theorem checked_loop_safe (n : Int) (hn : n < 2147302921) :
    ∀ (fuel : Nat) (d : Int), 3 ≤ d → (d = 3 ∨ (d - 2) * (d - 2) ≤ n) →
      ht_is_prime_loop_checked n fuel d = (ht_is_prime_loop n fuel d).map Checked.ret := by
  intro fuel
  induction fuel with
  | zero => intro d _ _; rfl
  | succ fuel ih =>
    intro d hd3 hinv
    have hd : d ≤ 46340 := by
      rcases hinv with h | h
      · omega
      · by_contra hc
        have h1 : 46339 ≤ d - 2 := by omega
        nlinarith
    have h1 : ¬ (d * d > INT_MAX) := by
      unfold INT_MAX
      nlinarith
    rw [ht_is_prime_loop_checked, ht_is_prime_loop, if_neg h1]
    by_cases h2 : d * d ≤ n
    · rw [if_pos h2, if_pos h2]
      by_cases h3 : n % d = 0
      · rw [if_pos h3, if_pos h3]; rfl
      · rw [if_neg h3, if_neg h3]
        exact ih (d + 2) (by omega) (Or.inr (by
          have : d + 2 - 2 = d := by ring
          rw [this]; exact h2))
    · rw [if_neg h2, if_neg h2]; rfl

theorem is_prime_checked_safe (fuel : Nat) (n : Int) (hn : n < 2147302921) :
    ht_is_prime_checked fuel n = (ht_is_prime fuel n).map Checked.ret := by
  unfold ht_is_prime_checked ht_is_prime
  by_cases h1 : n < 2
  · rw [if_pos h1, if_pos h1]; rfl
  · rw [if_neg h1, if_neg h1]
    by_cases h2 : n % 2 = 0
    · rw [if_pos h2, if_pos h2]; rfl
    · rw [if_neg h2, if_neg h2]
      exact checked_loop_safe n hn fuel 3 (le_refl _) (Or.inl rfl)

/-! ## The probe-chain predicate along the operations -/

theorem chain_of_wf (t : ht) (hwf : WF t) : probe_chain t := by
  intro j k hj hs hk
  obtain ⟨d, hd, hpos⟩ := walk_offset_exists t.size _ j (index_lt t k hwf) hj
  refine ⟨d, hd, hpos, ?_⟩
  exact hwf.chain k d hd (by rw [hpos]; exact hs) (by rw [hpos]; exact hk)

/-- A change of the array that empties no slot keeps the predicate when every
entry it writes sits at the end of a walk without empty slot. -/
theorem chain_update (t t1 : ht) (hsize : t1.size = t.size)
    (hmono : ∀ i, (slot t i).state ≠ SLOT_EMPTY → (slot t1 i).state ≠ SLOT_EMPTY)
    (hocc : ∀ j k, j < t.size → (slot t1 j).state = SLOT_OCCUPIED → (slot t1 j).key = some k →
      ((slot t j).state = SLOT_OCCUPIED ∧ (slot t j).key = some k) ∨
      ∃ d, d < t.size ∧ (ht_index_for k t.size + d) % t.size = j ∧
        ∀ i, i < d → (slot t ((ht_index_for k t.size + i) % t.size)).state ≠ SLOT_EMPTY)
    (hc : probe_chain t) : probe_chain t1 := by
  intro j k hj hs hk
  rw [hsize] at hj ⊢
  rcases hocc j k hj hs hk with ⟨hs0, hk0⟩ | ⟨d, hd, hpos, hne⟩
  · obtain ⟨d, hd, hpos, hne⟩ := hc j k hj hs0 hk0
    exact ⟨d, hd, hpos, fun i hi => hmono _ (hne i hi)⟩
  · exact ⟨d, hd, hpos, fun i hi => hmono _ (hne i hi)⟩

theorem put_loop_chain (t : ht) (k v : Str) (hpos : 0 < t.size)
    (hlen : t.entries.length = t.size) (hc : probe_chain t) (fuel : Nat) (t1 : ht)
    (h : ht_put_into fuel t k v = some t1) :
    probe_chain t1 ∧ t1.size = t.size ∧ t1.entries.length = t1.size := by
  have hh : ht_index_for k t.size < t.size := Nat.mod_lt _ hpos
  obtain ⟨m, hm, hpass, hstop⟩ := put_loop_trace t k v fuel _ _ t1 h hh
  have hmn : m < t.size :=
    first_stop_lt t.size _ m hpos (fun j => passes_put k (slot t j)) hpass hstop
  unfold ht_put_into at h
  by_cases he : (slot t ((ht_index_for k t.size + m) % t.size)).state = SLOT_EMPTY
  · obtain ⟨target, tb, hres, hdesc⟩ := put_loop_empty t k v m fuel _ (-1) hh hpass he hm
    rw [hres] at h
    simp only [Option.some.injEq] at h
    have hsize : t1.size = t.size := by rw [← h]
    have hent : t1.entries = t.entries.set target
        { key := some k, value := some v, state := SLOT_OCCUPIED } := by rw [← h]
    obtain ⟨a, ha, htar⟩ : ∃ a, a ≤ m ∧ target = (ht_index_for k t.size + a) % t.size := by
      rcases hdesc with ⟨h0, _, _⟩ | ⟨_, ⟨a, ha, htar, _, _⟩ | ⟨htar, _⟩⟩
      · omega
      · exact ⟨a, by omega, htar⟩
      · exact ⟨m, le_refl _, htar⟩
    have hT : target < t.entries.length := by
      rw [hlen, htar]; exact Nat.mod_lt _ hpos
    have hself := slot_update_self t t1 target _ hent hT
    have hother : ∀ i, i ≠ target → slot t1 i = slot t i :=
      fun i hi => slot_update_other t t1 target i _ hent hi
    refine ⟨chain_update t t1 hsize ?_ ?_ hc, hsize, by rw [hent, List.length_set, hsize, hlen]⟩
    · intro i hi
      by_cases hiT : i = target
      · rw [hiT, hself]; simp
      · rw [hother i hiT]; exact hi
    · intro j k1 hj hs hk
      by_cases hjT : j = target
      · right
        rw [hjT, hself] at hk
        simp only [Option.some.injEq] at hk
        subst hk
        exact ⟨a, by omega, by rw [hjT, htar], fun i hi => (hpass i (by omega)).1⟩
      · left
        rw [hother j hjT] at hs hk
        exact ⟨hs, hk⟩
  · have hrest : ¬ ((slot t ((ht_index_for k t.size + m) % t.size)).state = SLOT_TOMBSTONE ∨
        (slot t ((ht_index_for k t.size + m) % t.size)).key ≠ some k) :=
      fun hx => hstop ⟨he, hx⟩
    push_neg at hrest
    have hres := put_loop_match t k v m fuel _ (-1) hh hpass he hrest.1 hrest.2 hm
    rw [hres] at h
    simp only [Option.some.injEq] at h
    have hsize : t1.size = t.size := by rw [← h]
    have hent : t1.entries = t.entries.set ((ht_index_for k t.size + m) % t.size)
        { (slot t ((ht_index_for k t.size + m) % t.size)) with value := some v } := by rw [← h]
    have hT : (ht_index_for k t.size + m) % t.size < t.entries.length := by
      rw [hlen]; exact Nat.mod_lt _ hpos
    have hself := slot_update_self t t1 _ _ hent hT
    have hother : ∀ i, i ≠ (ht_index_for k t.size + m) % t.size → slot t1 i = slot t i :=
      fun i hi => slot_update_other t t1 _ i _ hent hi
    refine ⟨chain_update t t1 hsize ?_ ?_ hc, hsize, by rw [hent, List.length_set, hsize, hlen]⟩
    · intro i hi
      by_cases hiT : i = (ht_index_for k t.size + m) % t.size
      · rw [hiT, hself]; exact he
      · rw [hother i hiT]; exact hi
    · intro j k1 hj hs hk
      left
      by_cases hjT : j = (ht_index_for k t.size + m) % t.size
      · rw [hjT, hself] at hs hk
        rw [hjT]
        exact ⟨hs, hk⟩
      · rw [hother j hjT] at hs hk
        exact ⟨hs, hk⟩

theorem remove_chain (t : ht) (k : Str) (hc : probe_chain t) (fuel : Nat) (t1 : ht)
    (h : ht_remove fuel (some t) (some k) = some (some t1)) :
    probe_chain t1 ∧ t1.size = t.size ∧ t1.entries.length = t.entries.length := by
  simp only [ht_remove, Option.map_eq_some', Option.some.injEq] at h
  obtain ⟨t2, h2, h3⟩ := h
  subst h3
  rcases remove_loop_shape t k fuel _ t2 h2 with heq | ⟨T, hs, _, hsize, hent⟩
  · rw [heq]; exact ⟨hc, rfl, rfl⟩
  · have hTl : T < t.entries.length := by
      by_contra hx
      have : slot t T = zero_entry := by
        simp only [slot]
        rw [List.getElem?_eq_none (by omega)]; rfl
      rw [this] at hs
      exact absurd hs (by decide)
    have hself := slot_update_self t t2 T _ hent hTl
    have hother : ∀ i, i ≠ T → slot t2 i = slot t i :=
      fun i hi => slot_update_other t t2 T i _ hent hi
    refine ⟨chain_update t t2 hsize ?_ ?_ hc, hsize, by rw [hent, List.length_set]⟩
    · intro i hi
      by_cases hiT : i = T
      · rw [hiT, hself]; decide
      · rw [hother i hiT]; exact hi
    · intro j k1 hj hs1 hk1
      left
      by_cases hjT : j = T
      · rw [hjT, hself] at hs1
        exact absurd hs1 (by decide)
      · rw [hother j hjT] at hs1 hk1
        exact ⟨hs1, hk1⟩

theorem resize_loop_chain (fuel : Nat) :
    ∀ (es : List ht_entry) (t t1 : ht), 0 < t.size → t.entries.length = t.size →
      probe_chain t → ht_resize_loop fuel es t = some t1 →
      probe_chain t1 ∧ 0 < t1.size ∧ t1.entries.length = t1.size := by
  intro es
  induction es with
  | nil =>
    intro t t1 hpos hlen hc h
    simp only [ht_resize_loop, Option.some.injEq] at h
    rw [← h]; exact ⟨hc, hpos, hlen⟩
  | cons e es ih =>
    intro t t1 hpos hlen hc h
    rw [ht_resize_loop] at h
    by_cases hocc : e.state = SLOT_OCCUPIED
    · rw [if_pos hocc] at h
      cases hk : e.key with
      | none => rw [hk] at h; simp at h
      | some k =>
        cases hv : e.value with
        | none => rw [hk, hv] at h; simp at h
        | some v =>
          rw [hk, hv] at h
          simp only at h
          cases hput : ht_put_into fuel t k v with
          | none => rw [hput] at h; simp at h
          | some t2 =>
            rw [hput] at h
            simp only at h
            obtain ⟨hc2, hs2, hl2⟩ := put_loop_chain t k v hpos hlen hc fuel t2 hput
            exact ih t2 t1 (by rw [hs2]; exact hpos) hl2 hc2 h
    · rw [if_neg hocc] at h
      exact ih t t1 hpos hlen hc h

theorem chain_fresh (p : Nat) :
    probe_chain { size := p, count := 0, tombs := 0, entries := List.replicate p zero_entry } := by
  intro j k _ hs _
  rw [slot_fresh] at hs
  exact absurd hs (by decide)

theorem resize_chain (fuel : Nat) (t : ht) (ns : Int) (t1 : ht)
    (h : ht_resize fuel t ns = some t1) :
    probe_chain t1 ∧ 0 < t1.size ∧ t1.entries.length = t1.size := by
  unfold ht_resize at h
  cases hnp : ht_next_prime fuel ns with
  | none => rw [hnp] at h; simp at h
  | some p =>
    rw [hnp] at h
    simp only at h
    obtain ⟨_, h2, _⟩ := ht_next_prime_sound fuel ns p hnp
    exact resize_loop_chain fuel _ _ t1 (by simp only; omega) (by simp) (chain_fresh _) h

theorem insert_chain (t : ht) (k v : Str) (hpos : 0 < t.size)
    (hlen : t.entries.length = t.size) (hc : probe_chain t) (fuel : Nat) (t1 : ht)
    (h : ht_insert fuel t k v = some t1) :
    probe_chain t1 ∧ 0 < t1.size ∧ t1.entries.length = t1.size := by
  rw [insert_eq_put] at h
  cases hg : ht_maybe_grow fuel t with
  | none => rw [hg] at h; simp at h
  | some tg =>
    rw [hg] at h
    simp only at h
    have hgrow : probe_chain tg ∧ 0 < tg.size ∧ tg.entries.length = tg.size := by
      unfold ht_maybe_grow at hg
      by_cases hcond : gt_two_thirds (ht_load_factor t) = true ∨
          t.tombs > ((t.size / 3 : Nat) : Int)
      · rw [if_pos hcond] at hg
        exact resize_chain fuel t _ tg hg
      · rw [if_neg hcond] at hg
        simp only [Option.some.injEq] at hg
        rw [← hg]; exact ⟨hc, hpos, hlen⟩
    obtain ⟨hc1, hs1, hl1⟩ := put_loop_chain tg k v hgrow.2.1 hgrow.2.2 hgrow.1 fuel t1 h
    exact ⟨hc1, by rw [hs1]; exact hgrow.2.1, hl1⟩

/-! ## Other keys across an insert -/

/-- An insert of `k` leaves the pairs of every other key as they were; a stored
key still looks up to its value, and a lookup that returns after the insert
returns what a lookup that returned before it did. -/
theorem insert_keeps_other_keys (t : ht) (hwf : WF t) (k k1 v : Str) (hne : k1 ≠ k)
    (fuel : Nat) (t1 : ht) (h : ht_insert fuel t k v = some t1) :
    (∀ v1, present t1 k1 v1 ↔ present t k1 v1) ∧
      (∀ v1, present t k1 v1 →
        ∀ f, t1.size ≤ f → ht_lookup f (some t1) (some k1) = some (some v1)) ∧
      (∀ f r f0 r0, ht_lookup f (some t1) (some k1) = some r →
        ht_lookup f0 (some t) (some k1) = some r0 → r = r0) := by
  have hpost := insert_sound t k v hwf fuel t1 h
  refine ⟨fun v1 => hpost.frame k1 v1 hne, ?_, ?_⟩
  · intro v1 hp f hf
    exact lookup_present t1 k1 v1 hpost.wf ((hpost.frame k1 v1 hne).mpr hp) f hf
  · intro f r f0 r0 h1 h0
    have hs1 := lookup_sound t1 k1 hpost.wf f r h1
    have hs0 := lookup_sound t k1 hwf f0 r0 h0
    cases r with
    | none =>
      cases r0 with
      | none => rfl
      | some v0 =>
        exact absurd ((hs1 v0).mpr ((hpost.frame k1 v0 hne).mpr ((hs0 v0).mp rfl))) (by simp)
    | some v1 =>
      exact ((hs0 v1).mpr ((hpost.frame k1 v1 hne).mp ((hs1 v1).mp rfl))).symm

/-! ## An insert of a pair that is already stored -/

theorem entries_set_self (l : List ht_entry) (i : Nat) (h : i < l.length) :
    l.set i l[i] = l := by
  apply List.ext_getElem (by simp)
  intro j h1 h2
  by_cases hj : i = j
  · subst hj; simp
  · simp [List.getElem_set_ne hj]

/-- When the pair `k`, `v` is stored, `ht_put_into` finds the entry of `k` and
writes `v` over the equal value: the table is left as it is. -/
theorem put_same_pair (t : ht) (k v : Str) (hwf : WF t) (hp : present t k v) :
    ∀ fuel, t.size ≤ fuel → ht_put_into fuel t k v = some t := by
  intro fuel hf
  have hk := has_key_of_present hp
  have hh := index_lt t k hwf
  obtain ⟨d, hd, hpass, hstop⟩ := put_stop_exists t k hwf (Or.inl hk)
  have hT : (ht_index_for k t.size + d) % t.size < t.size := Nat.mod_lt _ hwf.size_pos
  have hTl : (ht_index_for k t.size + d) % t.size < t.entries.length := by
    rw [hwf.length_eq]; exact hT
  have he : ¬ (slot t ((ht_index_for k t.size + d) % t.size)).state = SLOT_EMPTY := by
    intro he
    refine no_key_of_empty_stop t k hwf d hd ?_ he hk
    intro i hi hocc
    rcases (hpass i hi).2 with h | h
    · rw [hocc.1] at h; exact absurd h (by decide)
    · exact h hocc.2
  have hrest : ¬ ((slot t ((ht_index_for k t.size + d) % t.size)).state = SLOT_TOMBSTONE ∨
      (slot t ((ht_index_for k t.size + d) % t.size)).key ≠ some k) :=
    fun hx => hstop ⟨he, hx⟩
  push_neg at hrest
  have hocc : (slot t ((ht_index_for k t.size + d) % t.size)).state = SLOT_OCCUPIED := by
    have hle := hwf.state_le _ hT
    have h2 := hrest.1
    simp only [SLOT_EMPTY, SLOT_OCCUPIED, SLOT_TOMBSTONE] at he h2 ⊢
    omega
  have hslot : slot t ((ht_index_for k t.size + d) % t.size) =
      { key := some k, value := some v, state := SLOT_OCCUPIED } := by
    obtain ⟨k1, v1, hs⟩ := hwf.occupied_full _ hT hocc
    have hk1 : k1 = k := by
      have := hrest.2
      rw [hs] at this
      simpa using this
    subst hk1
    have hv : v1 = v := present_unique hwf ⟨_, hT, hs⟩ hp
    rw [hs, hv]
  have hres := put_loop_match t k v d fuel _ (-1) hh hpass he hrest.1 hrest.2 (by omega)
  unfold ht_put_into
  rw [hres, hslot]
  have hself : t.entries.set ((ht_index_for k t.size + d) % t.size)
      { key := some k, value := some v, state := SLOT_OCCUPIED } = t.entries := by
    have h1 := slot_eq_getElem t _ hTl
    rw [hslot] at h1
    rw [h1]
    exact entries_set_self t.entries _ hTl
  rw [hself]

/-- Claim C21 as stated fails. On the table holding "a", "b", "c": when either
`strdup` fails, `ht_insert` of the new key "d" returns with the table as it was,
where the successful call stores the pair; and a failed and a successful
`ht_insert` of "a" with the value it already has leave the very same table.
The function is `void`: the caller is told nothing. -/
theorem insert_alloc_failure_counterexample :
    ht_insert_alloc 10 false true ex_three [100] [4] = some ex_three ∧
      ht_insert_alloc 10 true false ex_three [100] [4] = some ex_three ∧
      ht_insert_alloc 10 true true ex_three [100] [4] = some ex_four ∧
      ht_insert_alloc 10 false true ex_three [97] [1] =
        ht_insert_alloc 10 true true ex_three [97] [1] := by
  decide

/-- Claim C21, amended: when the duplication of the key or of the value fails,
`ht_insert` does the grow check and nothing else. It returns, the table stores
the pairs it stored before with the same `count`, and it is the very same table
when no growth was due. The function is `void`, so the table is all the caller
has; and when the pair `k`, `v` is already stored, the successful `ht_insert`
returns that same table: the failed call cannot be told from the successful
one. With both duplications successful `ht_insert_alloc` is `ht_insert`. -/
theorem insert_alloc_failure (START_SIZE : Nat) (hpos : 0 < START_SIZE) (t : ht)
    (hr : Reachable START_SIZE t) (key_ok value_ok : Bool)
    (hfail : key_ok = false ∨ value_ok = false) (k v : Str) :
    (∀ fuel, ht_insert_alloc fuel key_ok value_ok t k v = ht_maybe_grow fuel t) ∧
      (∀ fuel, ht_insert_alloc fuel true true t k v = ht_insert fuel t k v) ∧
      ∃ t1 N, (∀ fuel, N ≤ fuel → ht_insert_alloc fuel key_ok value_ok t k v = some t1) ∧
        (∀ k1 v1, present t1 k1 v1 ↔ present t k1 v1) ∧ t1.count = t.count ∧
        (¬ (2 * (t.size : Int) < 3 * t.count ∨ ((t.size / 3 : Nat) : Int) < t.tombs) →
          t1 = t) ∧
        (present t k v →
          ∀ fuel, N ≤ fuel → ht_insert_alloc fuel true true t k v = some t1) := by
  have hwf := (reachable_wf START_SIZE hpos t hr).1
  have heq : ∀ fuel, ht_insert_alloc fuel key_ok value_ok t k v = ht_maybe_grow fuel t := by
    intro fuel
    unfold ht_insert_alloc strdup
    cases hg : ht_maybe_grow fuel t with
    | none => rfl
    | some tg =>
      rcases hfail with h | h
      · subst h; rfl
      · subst h
        cases key_ok <;> rfl
  have hok : ∀ fuel, ht_insert_alloc fuel true true t k v = ht_insert fuel t k v :=
    fun fuel => rfl
  refine ⟨heq, hok, ?_⟩
  obtain ⟨t1, N, hg⟩ := maybe_grow_total t hwf
  have hpost := maybe_grow_sound t hwf N t1 (hg N (le_refl _))
  refine ⟨t1, max N t1.size, fun fuel hf => by rw [heq, hg fuel (le_trans (le_max_left _ _) hf)],
    hpost.same, hpost.count_eq, hpost.keep, ?_⟩
  intro hp fuel hf
  rw [hok, insert_eq_put, hg fuel (le_trans (le_max_left _ _) hf)]
  exact put_same_pair t1 k v hpost.wf ((hpost.same k v).mpr hp) fuel
    (le_trans (le_max_right _ _) hf)

/-- With `START_SIZE = 5`, on the table holding "a", "b", "c", for the pair "a",
"\x01" that it holds, with the copy of the key failing. -/
theorem insert_alloc_failure_witness :
    0 < 5 ∧ Reachable 5 ex_three ∧ (false = false ∨ true = false) ∧
      present ex_three [97] [1] ∧
      (∀ fuel, ht_insert_alloc fuel false true ex_three [97] [1] =
        ht_maybe_grow fuel ex_three) ∧
      (∀ fuel, ht_insert_alloc fuel true true ex_three [97] [1] =
        ht_insert fuel ex_three [97] [1]) ∧
      ∃ t1 N, (∀ fuel, N ≤ fuel →
          ht_insert_alloc fuel false true ex_three [97] [1] = some t1) ∧
        (∀ k1 v1, present t1 k1 v1 ↔ present ex_three k1 v1) ∧ t1.count = ex_three.count ∧
        (¬ (2 * (ex_three.size : Int) < 3 * ex_three.count ∨
            ((ex_three.size / 3 : Nat) : Int) < ex_three.tombs) → t1 = ex_three) ∧
        (present ex_three [97] [1] →
          ∀ fuel, N ≤ fuel → ht_insert_alloc fuel true true ex_three [97] [1] = some t1) :=
  ⟨by decide,
    reachable_of_run 5 10 [Op.insert [97] [1], Op.insert [98] [2], Op.insert [99] [3]]
      (ht_create 5) ex_three Reachable.create (by decide),
    Or.inl rfl, by unfold present; decide,
    insert_alloc_failure 5 (by decide) ex_three
      (reachable_of_run 5 10 [Op.insert [97] [1], Op.insert [98] [2], Op.insert [99] [3]]
        (ht_create 5) ex_three Reachable.create (by decide))
      false true (Or.inl rfl) [97] [1]⟩

/-- Claim C22: on a reachable table the grow check of `ht_insert` leaves the table
as it is when neither `3 * count > 2 * size` nor `tombs > size / 3` holds; when
one of them holds it is `ht_resize` to `2 * size`, which returns a table whose
size is the result of `ht_next_prime(2 * size)`, larger than the old size. So
the table changes exactly when one of the two conditions holds. -/
theorem grow_check_iff (START_SIZE : Nat) (hpos : 0 < START_SIZE) (t : ht)
    (hr : Reachable START_SIZE t) :
    (¬ (2 * (t.size : Int) < 3 * t.count ∨ ((t.size / 3 : Nat) : Int) < t.tombs) →
        ∀ fuel, ht_maybe_grow fuel t = some t) ∧
      ((2 * (t.size : Int) < 3 * t.count ∨ ((t.size / 3 : Nat) : Int) < t.tombs) →
        ∃ (t1 : ht) (p N : Nat),
          (∀ fuel, N ≤ fuel → ht_maybe_grow fuel t = some t1 ∧
            ht_resize fuel t ((t.size : Int) * 2) = some t1 ∧
            ht_next_prime fuel ((t.size : Int) * 2) = some (p : Int)) ∧
          t1.size = p ∧ t.size < t1.size) ∧
      (∀ fuel t1, ht_maybe_grow fuel t = some t1 →
        (t1 ≠ t ↔ (2 * (t.size : Int) < 3 * t.count ∨ ((t.size / 3 : Nat) : Int) < t.tombs))) ∧
      (∀ fuel k v, ht_insert fuel t k v =
        match ht_maybe_grow fuel t with
        | none => none
        | some tg => ht_put_into fuel tg k v) := by
  have hwf := (reachable_wf START_SIZE hpos t hr).1
  have hsp := hwf.size_pos
  have hkeep : ¬ (2 * (t.size : Int) < 3 * t.count ∨ ((t.size / 3 : Nat) : Int) < t.tombs) →
      ∀ fuel, ht_maybe_grow fuel t = some t := by
    intro hc fuel
    unfold ht_maybe_grow
    rw [if_neg (fun h => hc ((grow_cond_iff t hsp).mp h))]
  have hgrow : (2 * (t.size : Int) < 3 * t.count ∨ ((t.size / 3 : Nat) : Int) < t.tombs) →
      ∀ fuel, ht_maybe_grow fuel t = ht_resize fuel t ((t.size : Int) * 2) := by
    intro hc fuel
    unfold ht_maybe_grow
    rw [if_pos ((grow_cond_iff t hsp).mpr hc)]
  refine ⟨hkeep, ?_, ?_, fun fuel k v => insert_eq_put fuel t k v⟩
  · intro hc
    obtain ⟨t1, N1, hres⟩ := resize_total t hwf ((t.size : Int) * 2) (by omega)
    obtain ⟨p, _, _, N2, hnp⟩ := ht_next_prime_total ((t.size : Int) * 2)
    have hpost := resize_sound t hwf N1 _ t1 (hres N1 (le_refl _))
    have hsize : t1.size = p := by
      obtain ⟨p1, hp1, hs1⟩ := resize_size (max N1 N2) t _ t1 (hres _ (le_max_left _ _))
      rw [hnp _ (le_max_right _ _)] at hp1
      simp only [Option.some.injEq] at hp1
      rw [hs1, ← hp1]; rfl
    refine ⟨t1, p, max N1 N2, ?_, hsize, ?_⟩
    · intro fuel hf
      have h1 := hres fuel (le_trans (le_max_left _ _) hf)
      exact ⟨by rw [hgrow hc, h1], h1, hnp fuel (le_trans (le_max_right _ _) hf)⟩
    · have := hpost.size_ge
      omega
  · intro fuel t1 h
    constructor
    · intro hne
      by_contra hc
      rw [hkeep hc fuel] at h
      simp only [Option.some.injEq] at h
      exact hne h.symm
    · intro hc heq
      rw [hgrow hc] at h
      have := (resize_sound t hwf fuel _ t1 h).size_ge
      rw [heq] at this
      omega

/-- With `START_SIZE = 5`, on the table holding "a", "b", "c", "d": `3 * 4 > 2 * 5`,
and the table grows to eleven slots. -/
theorem grow_check_iff_witness :
    0 < 5 ∧ Reachable 5 ex_four ∧
      (2 * (ex_four.size : Int) < 3 * ex_four.count ∨
        ((ex_four.size / 3 : Nat) : Int) < ex_four.tombs) ∧
      ∃ (t1 : ht) (p N : Nat),
        (∀ fuel, N ≤ fuel → ht_maybe_grow fuel ex_four = some t1 ∧
          ht_resize fuel ex_four ((ex_four.size : Int) * 2) = some t1 ∧
          ht_next_prime fuel ((ex_four.size : Int) * 2) = some (p : Int)) ∧
        t1.size = p ∧ ex_four.size < t1.size :=
  ⟨by decide,
    reachable_of_run 5 10
      [Op.insert [97] [1], Op.insert [98] [2], Op.insert [99] [3], Op.insert [100] [4]]
      (ht_create 5) ex_four Reachable.create (by decide),
    by decide,
    (grow_check_iff 5 (by decide) ex_four
      (reachable_of_run 5 10
        [Op.insert [97] [1], Op.insert [98] [2], Op.insert [99] [3], Op.insert [100] [4]]
        (ht_create 5) ex_four Reachable.create (by decide))).2.1 (by decide)⟩

/-- Claim C23: on a reachable table that holds `k`, `ht_remove` returns the
table with one slot rewritten: the occupied slot `j` holding `k` becomes a
tombstone with `NULL` key and value, `count` goes down by one and `tombs` up by
one; `size` and every other slot are as before. -/
theorem remove_changes_one_slot (START_SIZE : Nat) (hpos : 0 < START_SIZE) (t : ht)
    (hr : Reachable START_SIZE t) (k : Str) (hk : has_key t k) :
    ∃ j t1, j < t.size ∧ (slot t j).state = SLOT_OCCUPIED ∧ (slot t j).key = some k ∧
      (∀ fuel, t.size ≤ fuel → ht_remove fuel (some t) (some k) = some (some t1)) ∧
      t1 = { t with
        entries := t.entries.set j { key := none, value := none, state := SLOT_TOMBSTONE }
        count := t.count - 1
        tombs := t.tombs + 1 } ∧
      slot t1 j = { key := none, value := none, state := SLOT_TOMBSTONE } ∧
      (∀ i, i ≠ j → slot t1 i = slot t i) ∧
      t1.size = t.size ∧ t1.count = t.count - 1 ∧ t1.tombs = t.tombs + 1 ∧
      t1.entries.length = t.entries.length := by
  have hwf := (reachable_wf START_SIZE hpos t hr).1
  have hh := index_lt t k hwf
  obtain ⟨d, hd, hpass, hstop⟩ := passes_stop_exists t k hwf (Or.inl hk)
  have hT : (ht_index_for k t.size + d) % t.size < t.size := Nat.mod_lt _ hwf.size_pos
  have he : ¬ (slot t ((ht_index_for k t.size + d) % t.size)).state = SLOT_EMPTY := by
    intro he
    exact no_key_of_empty_stop t k hwf d hd (fun i hi => (hpass i hi).2) he hk
  have hocc : (slot t ((ht_index_for k t.size + d) % t.size)).state = SLOT_OCCUPIED ∧
      (slot t ((ht_index_for k t.size + d) % t.size)).key = some k := by
    by_contra hc
    exact hstop ⟨he, hc⟩
  obtain ⟨t1, ht1⟩ : ∃ t1 : ht, t1 = { t with
      entries := t.entries.set ((ht_index_for k t.size + d) % t.size)
        { key := none, value := none, state := SLOT_TOMBSTONE }
      count := t.count - 1
      tombs := t.tombs + 1 } := ⟨_, rfl⟩
  have hent : t1.entries = t.entries.set ((ht_index_for k t.size + d) % t.size)
      { key := none, value := none, state := SLOT_TOMBSTONE } := by rw [ht1]
  refine ⟨(ht_index_for k t.size + d) % t.size, t1, hT, hocc.1, hocc.2, ?_, ht1,
    slot_update_self t t1 _ _ hent (by rw [hwf.length_eq]; exact hT),
    fun i hi => slot_update_other t t1 _ i _ hent hi,
    by rw [ht1], by rw [ht1], by rw [ht1], by rw [hent, List.length_set]⟩
  intro fuel hf
  have hres := remove_loop_stop t k _ d fuel hh hpass hstop (by omega)
  rw [if_neg he] at hres
  simp only [ht_remove]
  rw [hres, ht1]
  rfl

/-- With `START_SIZE = 5`: the removal of "a" from the table holding "a".."d"
rewrites slot 0 and gives the table `ex_one_empty`. -/
theorem remove_changes_one_slot_witness :
    0 < 5 ∧ Reachable 5 ex_four ∧ has_key ex_four [97] ∧
      ht_remove 10 (some ex_four) (some [97]) = some (some ex_one_empty) ∧
      ∃ j t1, j < ex_four.size ∧ (slot ex_four j).state = SLOT_OCCUPIED ∧
        (slot ex_four j).key = some [97] ∧
        (∀ fuel, ex_four.size ≤ fuel →
          ht_remove fuel (some ex_four) (some [97]) = some (some t1)) ∧
        t1 = { ex_four with
          entries := ex_four.entries.set j
            { key := none, value := none, state := SLOT_TOMBSTONE }
          count := ex_four.count - 1
          tombs := ex_four.tombs + 1 } ∧
        slot t1 j = { key := none, value := none, state := SLOT_TOMBSTONE } ∧
        (∀ i, i ≠ j → slot t1 i = slot ex_four i) ∧
        t1.size = ex_four.size ∧ t1.count = ex_four.count - 1 ∧
        t1.tombs = ex_four.tombs + 1 ∧ t1.entries.length = ex_four.entries.length :=
  ⟨by decide,
    reachable_of_run 5 10
      [Op.insert [97] [1], Op.insert [98] [2], Op.insert [99] [3], Op.insert [100] [4]]
      (ht_create 5) ex_four Reachable.create (by decide),
    by unfold has_key; decide, by decide,
    remove_changes_one_slot 5 (by decide) ex_four
      (reachable_of_run 5 10
        [Op.insert [97] [1], Op.insert [98] [2], Op.insert [99] [3], Op.insert [100] [4]]
        (ht_create 5) ex_four Reachable.create (by decide))
      [97] (by unfold has_key; decide)⟩

/-- Claim C24: let `tg` be the table after the grow check, `k` a key not stored,
and `d` the offset of the first empty slot on the walk from the home of `k`.
`ht_insert` returns a table that differs from `tg` in one slot `T`, which holds
the pair, and `count` is one more. When the walk passes a tombstone, `T` is the
first tombstone passed, `tombs` is one less and the empty slot stays empty;
otherwise `T` is that empty slot and `tombs` is as before. -/
theorem insert_new_key_slot (START_SIZE : Nat) (hpos : 0 < START_SIZE) (t : ht)
    (hr : Reachable START_SIZE t) (fuel : Nat) (tg : ht)
    (hg : ht_maybe_grow fuel t = some tg) (k v : Str) (hk : ¬ has_key t k) (d : Nat)
    (hd : d < fuel)
    (hne : ∀ i, i < d → (slot tg ((ht_index_for k tg.size + i) % tg.size)).state ≠ SLOT_EMPTY)
    (he : (slot tg ((ht_index_for k tg.size + d) % tg.size)).state = SLOT_EMPTY) :
    ∃ T t1, ht_insert fuel t k v = some t1 ∧ T < tg.size ∧
      slot t1 T = { key := some k, value := some v, state := SLOT_OCCUPIED } ∧
      (∀ i, i ≠ T → slot t1 i = slot tg i) ∧
      t1.size = tg.size ∧ t1.count = tg.count + 1 ∧
      ((∃ a, a < d ∧
          (slot tg ((ht_index_for k tg.size + a) % tg.size)).state = SLOT_TOMBSTONE ∧
          (∀ i, i < a →
            (slot tg ((ht_index_for k tg.size + i) % tg.size)).state ≠ SLOT_TOMBSTONE) ∧
          T = (ht_index_for k tg.size + a) % tg.size ∧ t1.tombs = tg.tombs - 1 ∧
          (slot t1 ((ht_index_for k tg.size + d) % tg.size)).state = SLOT_EMPTY) ∨
        ((∀ i, i < d →
            (slot tg ((ht_index_for k tg.size + i) % tg.size)).state ≠ SLOT_TOMBSTONE) ∧
          T = (ht_index_for k tg.size + d) % tg.size ∧ t1.tombs = tg.tombs)) := by
  classical
  have hwf := (reachable_wf START_SIZE hpos t hr).1
  have hgrow := maybe_grow_sound t hwf fuel tg hg
  have hwfg := hgrow.wf
  have hkg : ¬ has_key tg k := fun h => hk ((has_key_iff_of_same t tg hwf hwfg hgrow.same k).mp h)
  have hh := index_lt tg k hwfg
  have hpass : ∀ i, i < d →
      passes_put k (slot tg ((ht_index_for k tg.size + i) % tg.size)) := by
    intro i hi
    refine ⟨hne i hi, ?_⟩
    by_cases htb : (slot tg ((ht_index_for k tg.size + i) % tg.size)).state = SLOT_TOMBSTONE
    · exact Or.inl htb
    · right
      intro hkey
      have hle := hwfg.state_le _ (Nat.mod_lt (ht_index_for k tg.size + i) hwfg.size_pos)
      have h0 := hne i hi
      refine hkg ⟨_, Nat.mod_lt (ht_index_for k tg.size + i) hwfg.size_pos, ?_, hkey⟩
      simp only [SLOT_EMPTY, SLOT_OCCUPIED, SLOT_TOMBSTONE] at h0 htb ⊢
      omega
  have hlen := hwfg.length_eq
  have hins : ∀ r, ht_put_into_loop tg k v fuel (ht_index_for k tg.size) (-1) = some r →
      ht_insert fuel t k v = some r := by
    intro r hres
    rw [insert_eq_put, hg]
    exact hres
  by_cases hex : ∃ a, a < d ∧
      (slot tg ((ht_index_for k tg.size + a) % tg.size)).state = SLOT_TOMBSTONE
  · have ha := Nat.find_spec hex
    have hmin : ∀ i, i < Nat.find hex →
        (slot tg ((ht_index_for k tg.size + i) % tg.size)).state ≠ SLOT_TOMBSTONE := by
      intro i hi hc
      exact Nat.find_min hex hi ⟨by omega, hc⟩
    have hres := put_loop_first_tomb tg k v (Nat.find hex) d fuel _ (-1) hh (by omega) ha.1
      hpass hmin ha.2 he hd
    obtain ⟨t1, ht1⟩ : ∃ t1 : ht, t1 = { tg with
        entries := tg.entries.set ((ht_index_for k tg.size + Nat.find hex) % tg.size)
          { key := some k, value := some v, state := SLOT_OCCUPIED }
        count := tg.count + 1
        tombs := tg.tombs - 1 } := ⟨_, rfl⟩
    rw [← ht1] at hres
    have hent : t1.entries = tg.entries.set ((ht_index_for k tg.size + Nat.find hex) % tg.size)
        { key := some k, value := some v, state := SLOT_OCCUPIED } := by rw [ht1]
    have hT : (ht_index_for k tg.size + Nat.find hex) % tg.size < tg.size :=
      Nat.mod_lt _ hwfg.size_pos
    have hother : ∀ i, i ≠ (ht_index_for k tg.size + Nat.find hex) % tg.size →
        slot t1 i = slot tg i := fun i hi => slot_update_other tg t1 _ i _ hent hi
    refine ⟨_, t1, hins t1 hres, hT, slot_update_self tg t1 _ _ hent (by rw [hlen]; exact hT),
      hother, by rw [ht1], by rw [ht1], Or.inl ⟨Nat.find hex, ha.1, ha.2, hmin, rfl, by rw [ht1], ?_⟩⟩
    rw [hother _ (by
      intro heq
      rw [heq] at he
      rw [he] at ha
      exact absurd ha.2 (by decide))]
    exact he
  · have hnt : ∀ i, i < d →
        (slot tg ((ht_index_for k tg.size + i) % tg.size)).state ≠ SLOT_TOMBSTONE :=
      fun i hi hc => hex ⟨i, hi, hc⟩
    have hres := put_loop_no_tomb tg k v d fuel _ (-1) hh (by omega) hpass hnt he hd
    obtain ⟨t1, ht1⟩ : ∃ t1 : ht, t1 = { tg with
        entries := tg.entries.set ((ht_index_for k tg.size + d) % tg.size)
          { key := some k, value := some v, state := SLOT_OCCUPIED }
        count := tg.count + 1 } := ⟨_, rfl⟩
    rw [← ht1] at hres
    have hent : t1.entries = tg.entries.set ((ht_index_for k tg.size + d) % tg.size)
        { key := some k, value := some v, state := SLOT_OCCUPIED } := by rw [ht1]
    have hT : (ht_index_for k tg.size + d) % tg.size < tg.size := Nat.mod_lt _ hwfg.size_pos
    exact ⟨_, t1, hins t1 hres, hT, slot_update_self tg t1 _ _ hent (by rw [hlen]; exact hT),
      fun i hi => slot_update_other tg t1 _ i _ hent hi, by rw [ht1], by rw [ht1],
      Or.inr ⟨hnt, rfl, by rw [ht1]⟩⟩

/-- With `START_SIZE = 5`: on the table with a tombstone in slot 0, entries in
slots 1 to 3 and slot 4 empty, the walk for "f" starts at slot 0 and reaches the
empty slot after four steps; the pair is written into slot 0. -/
theorem insert_new_key_slot_witness :
    0 < 5 ∧ Reachable 5 ex_one_empty ∧ ht_maybe_grow 10 ex_one_empty = some ex_one_empty ∧
      ¬ has_key ex_one_empty [102] ∧ 4 < 10 ∧
      (∀ i, i < 4 → (slot ex_one_empty
        ((ht_index_for [102] ex_one_empty.size + i) % ex_one_empty.size)).state ≠ SLOT_EMPTY) ∧
      (slot ex_one_empty
        ((ht_index_for [102] ex_one_empty.size + 4) % ex_one_empty.size)).state = SLOT_EMPTY ∧
      ht_insert 10 ex_one_empty [102] [6] = some ex_reuse ∧
      ∃ T t1, ht_insert 10 ex_one_empty [102] [6] = some t1 ∧ T < ex_one_empty.size ∧
        slot t1 T = { key := some [102], value := some [6], state := SLOT_OCCUPIED } ∧
        (∀ i, i ≠ T → slot t1 i = slot ex_one_empty i) ∧
        t1.size = ex_one_empty.size ∧ t1.count = ex_one_empty.count + 1 ∧
        ((∃ a, a < 4 ∧
            (slot ex_one_empty ((ht_index_for [102] ex_one_empty.size + a) %
              ex_one_empty.size)).state = SLOT_TOMBSTONE ∧
            (∀ i, i < a →
              (slot ex_one_empty ((ht_index_for [102] ex_one_empty.size + i) %
                ex_one_empty.size)).state ≠ SLOT_TOMBSTONE) ∧
            T = (ht_index_for [102] ex_one_empty.size + a) % ex_one_empty.size ∧
            t1.tombs = ex_one_empty.tombs - 1 ∧
            (slot t1 ((ht_index_for [102] ex_one_empty.size + 4) %
              ex_one_empty.size)).state = SLOT_EMPTY) ∨
          ((∀ i, i < 4 →
              (slot ex_one_empty ((ht_index_for [102] ex_one_empty.size + i) %
                ex_one_empty.size)).state ≠ SLOT_TOMBSTONE) ∧
            T = (ht_index_for [102] ex_one_empty.size + 4) % ex_one_empty.size ∧
            t1.tombs = ex_one_empty.tombs)) :=
  ⟨by decide,
    reachable_of_run 5 10
      [Op.insert [97] [1], Op.insert [98] [2], Op.insert [99] [3], Op.insert [100] [4],
        Op.remove [97]] (ht_create 5) ex_one_empty Reachable.create (by decide),
    by decide, by unfold has_key; decide, by decide, by decide, by decide, by decide,
    insert_new_key_slot 5 (by decide) ex_one_empty
      (reachable_of_run 5 10
        [Op.insert [97] [1], Op.insert [98] [2], Op.insert [99] [3], Op.insert [100] [4],
          Op.remove [97]] (ht_create 5) ex_one_empty Reachable.create (by decide))
      10 ex_one_empty (by decide) [102] [6] (by unfold has_key; decide) 4 (by decide)
      (by decide) (by decide)⟩

/-- Claim C25: the probe loop written out in `ht_insert` and the loop of
`ht_put_into` are the same function of table, key and value, from every slot and
with every first tombstone; so `ht_insert`, its duplications successful, is the
grow check followed by `ht_put_into` on the table it leaves. -/
theorem insert_is_grow_then_put (fuel : Nat) (t : ht) (k v : Str) :
    (∀ idx ft, ht_insert_loop t k v fuel idx ft = ht_put_into_loop t k v fuel idx ft) ∧
      (ht_insert fuel t k v =
        match ht_maybe_grow fuel t with
        | none => none
        | some tg => ht_put_into fuel tg k v) ∧
      (ht_insert_alloc fuel true true t k v =
        match ht_maybe_grow fuel t with
        | none => none
        | some tg => ht_put_into fuel tg k v) :=
  ⟨fun idx ft => ht_insert_loop_eq t k v fuel idx ft, insert_eq_put fuel t k v,
    insert_eq_put fuel t k v⟩

/-- Claim C26, at the failing input. With `START_SIZE = 5`, on the table with a
tombstone in slot 0, entries in slots 1 to 3 and slot 4 empty, `ht_lookup` of the
absent key "f" returns `NULL`. `ht_insert` of "e" fills slot 4, and `ht_lookup` of
"f" then never returns. -/
theorem lookup_other_after_insert_diverges :
    Reachable 5 ex_one_empty ∧ ([101] : Str) ≠ [102] ∧
      ht_lookup 10 (some ex_one_empty) (some [102]) = some none ∧
      ht_insert 10 ex_one_empty [101] [5] = some ex_full ∧
      ∀ fuel, ht_lookup fuel (some ex_full) (some [102]) = none :=
  ⟨reachable_of_run 5 10
      [Op.insert [97] [1], Op.insert [98] [2], Op.insert [99] [3], Op.insert [100] [4],
        Op.remove [97]] (ht_create 5) ex_one_empty Reachable.create (by decide),
    by decide, by decide, by decide,
    lookup_diverges ex_full [102] (by decide) (by unfold passes; decide)⟩

/-- Claim C27: every table reachable from `ht_create` has the probe-chain
property; on a table with a slot array of `size > 0` slots `ht_insert`,
`ht_remove` and `ht_resize` each hand it on to the table they return; and on a
reachable table a lookup that stops at an empty slot is right to say that the
key is not stored. -/
theorem probe_chain_invariant :
    (∀ START_SIZE t, 0 < START_SIZE → Reachable START_SIZE t → probe_chain t) ∧
      (∀ t, 0 < t.size → t.entries.length = t.size → probe_chain t →
        (∀ fuel k v t1, ht_insert fuel t k v = some t1 → probe_chain t1) ∧
        (∀ fuel k t1, ht_remove fuel (some t) (some k) = some (some t1) → probe_chain t1) ∧
        (∀ fuel new_size t1, ht_resize fuel t new_size = some t1 → probe_chain t1)) ∧
      (∀ START_SIZE t, 0 < START_SIZE → Reachable START_SIZE t →
        ∀ fuel k, ht_lookup fuel (some t) (some k) = some none → ¬ has_key t k) := by
  refine ⟨?_, ?_, ?_⟩
  · intro S t hS hr
    exact chain_of_wf t (reachable_wf S hS t hr).1
  · intro t hpos hlen hc
    exact ⟨fun fuel k v t1 h => (insert_chain t k v hpos hlen hc fuel t1 h).1,
      fun fuel k t1 h => (remove_chain t k hc fuel t1 h).1,
      fun fuel ns t1 h => (resize_chain fuel t ns t1 h).1⟩
  · intro S t hS hr fuel k h hk
    have hwf := (reachable_wf S hS t hr).1
    obtain ⟨v, hp⟩ := present_of_has_key hwf hk
    exact absurd ((lookup_sound t k hwf fuel none h v).mpr hp) (by simp)

/-- Claim C28, at the failing input `n = INT_MAX = 2^31 - 1`, a prime. No odd
`d` up to `46339` divides it and `46339 * 46339 ≤ n`, so the loop condition is
evaluated at `d = 46341`, where `d * d = 2147488281` exceeds `INT_MAX`. -/
theorem is_prime_overflow_at_int_max :
    (0 : Int) ≤ 2147483647 ∧ (2147483647 : Int) ≤ INT_MAX ∧ INT_MAX < 2147488281 ∧
      (46341 : Int) * 46341 = 2147488281 ∧
      ∀ fuel, 23170 ≤ fuel →
        ht_is_prime_checked fuel 2147483647 = some (Checked.overflow 2147488281) := by
  refine ⟨by decide, by decide, by decide, by decide, ?_⟩
  intro fuel hf
  unfold ht_is_prime_checked
  rw [if_neg (by decide), if_neg (by decide)]
  exact checked_loop_overflow 2147483647 mersenne_31_prime (by norm_num) (le_refl _)
    23169 fuel 3 (le_refl _) (by norm_num) (by omega)

end Ht
